import Mathlib

/-!
# raft_server: the replicated state-machine layer

A shallow embedding of `src/raft/fsm.go` and `src/raft/raft.go`.

* Go `string` and `[]byte` values are lists of bytes (`List Nat`, every
  element below 256 for a value the program can hold).
* The program serialises with Go's `encoding/json`; the part of that library
  the program exercises (string quoting, the scanner, string unquoting, and
  decoding into `Command` and into `map[string]string`) is embedded at byte
  level.  Bit operations on bytes and runes are written arithmetically
  (`x & 0x3F` as `x % 64`, `x << 6` as `x * 64`, `x >> 6` as `x / 64`,
  `a | b` on disjoint bits as `a + b`).
* A Go map is a reference to a mutable object.  Map objects live in an
  explicit heap; `FSM.data` and `fsmSnapshot.data` hold references.
* The mutex of `FSM` is not modelled: every operation is one atomic step.
-/

namespace RaftServer

/-- A Go `string` or `[]byte`: a sequence of bytes. -/
abbrev Bytes := List Nat

/-! ## unicode/utf8 -/

/-- The rune `utf8.RuneError` (U+FFFD). -/
def RuneError : Nat := 0xFFFD

/-- The table `utf8.first`: information about the first byte of an encoding.
`0xF0` is `as` (ASCII), `0xF1` is `xx` (invalid); otherwise the low three bits
are the size and the high four bits index `acceptRanges`. -/
def first (b : Nat) : Nat :=
  if b < 0x80 then 0xF0
  else if b < 0xC2 then 0xF1
  else if b < 0xE0 then 0x02
  else if b = 0xE0 then 0x13
  else if b < 0xED then 0x03
  else if b = 0xED then 0x23
  else if b < 0xF0 then 0x03
  else if b = 0xF0 then 0x34
  else if b < 0xF4 then 0x04
  else if b = 0xF4 then 0x44
  else 0xF1

/-- The table `utf8.acceptRanges`, field `lo`. -/
def acceptLo (i : Nat) : Nat :=
  if i = 1 then 0xA0 else if i = 3 then 0x90 else 0x80

/-- The table `utf8.acceptRanges`, field `hi`. -/
def acceptHi (i : Nat) : Nat :=
  if i = 2 then 0x9F else if i = 4 then 0x8F else 0xBF

/-- The function `utf8.DecodeRune` / `utf8.DecodeRuneInString`: the first rune
of `s` and its width in bytes; `(RuneError, 1)` for an invalid encoding and
`(RuneError, 0)` for the empty string. -/
def decodeRune (s : Bytes) : Nat × Nat :=
  match s with
  | [] => (RuneError, 0)
  | s0 :: t =>
    let x := first s0
    if 0xF0 ≤ x then
      (if x = 0xF0 then s0 else RuneError, 1)
    else
      let sz := x % 8
      if (s0 :: t).length < sz then (RuneError, 1)
      else
        match t with
        | [] => (RuneError, 1)
        | s1 :: t1 =>
          if s1 < acceptLo (x / 16) ∨ acceptHi (x / 16) < s1 then (RuneError, 1)
          else if sz ≤ 2 then (s0 % 32 * 64 + s1 % 64, 2)
          else
            match t1 with
            | [] => (RuneError, 1)
            | s2 :: t2 =>
              if s2 < 0x80 ∨ 0xBF < s2 then (RuneError, 1)
              else if sz ≤ 3 then (s0 % 16 * 4096 + s1 % 64 * 64 + s2 % 64, 3)
              else
                match t2 with
                | [] => (RuneError, 1)
                | s3 :: _ =>
                  if s3 < 0x80 ∨ 0xBF < s3 then (RuneError, 1)
                  else (s0 % 8 * 262144 + s1 % 64 * 4096 + s2 % 64 * 64 + s3 % 64, 4)

/-- The function `utf8.AppendRune` on an empty buffer: the UTF-8 encoding of
`r`; a surrogate or a value above `utf8.MaxRune` is encoded as `RuneError`. -/
def encodeRune (r : Nat) : Bytes :=
  if r ≤ 0x7F then [r]
  else if r ≤ 0x7FF then [0xC0 + r / 64, 0x80 + r % 64]
  else if 0x10FFFF < r ∨ (0xD800 ≤ r ∧ r ≤ 0xDFFF) then [0xEF, 0xBF, 0xBD]
  else if r ≤ 0xFFFF then [0xE0 + r / 4096, 0x80 + r / 64 % 64, 0x80 + r % 64]
  else [0xF0 + r / 262144, 0x80 + r / 4096 % 64, 0x80 + r / 64 % 64, 0x80 + r % 64]

/-- The first byte of `s` starts an invalid encoding: `utf8.DecodeRune` returns
`RuneError` with width 1. -/
def badRune (s : Bytes) : Bool :=
  decide ((decodeRune s).1 = RuneError ∧ (decodeRune s).2 = 1)

/-- The function `utf8.Valid`, with `n` bounding the number of runes read
(`s.length` is always enough). -/
def validAux : Nat → Bytes → Bool
  | 0, s => s.isEmpty
  | _ + 1, [] => true
  | n + 1, b :: rest =>
    if b < 0x80 then validAux n rest
    else if badRune (b :: rest) then false
    else validAux n ((b :: rest).drop (decodeRune (b :: rest)).2)

/-- The function `utf8.Valid`: `s` consists entirely of valid UTF-8 encoded
runes. -/
def validUTF8 (s : Bytes) : Bool := validAux s.length s

/-- What `encoding/json` turns a string into when it is quoted and read back:
every byte that starts no valid encoding is replaced by U+FFFD (`n` bounds the
number of runes read). -/
def coerceAux : Nat → Bytes → Bytes
  | 0, _ => []
  | _ + 1, [] => []
  | n + 1, b :: rest =>
    if b < 0x80 then b :: coerceAux n rest
    else if badRune (b :: rest) then [0xEF, 0xBF, 0xBD] ++ coerceAux n rest
    else (b :: rest).take (decodeRune (b :: rest)).2
      ++ coerceAux n ((b :: rest).drop (decodeRune (b :: rest)).2)

/-- The string `s` coerced to valid UTF-8 the way `encoding/json` does it. -/
def coerceUTF8 (s : Bytes) : Bytes := coerceAux s.length s

/-- The three shapes of a valid multi-byte encoding. -/
inductive RuneShape : Bytes → Nat → Nat → Prop
  | two (s0 s1 : Nat) (t : Bytes) (h0 : 0xC2 ≤ s0 ∧ s0 ≤ 0xDF) (h1 : 0x80 ≤ s1 ∧ s1 ≤ 0xBF) :
      RuneShape (s0 :: s1 :: t) (s0 % 32 * 64 + s1 % 64) 2
  | three (s0 s1 s2 : Nat) (t : Bytes) (h0 : 0xE0 ≤ s0 ∧ s0 ≤ 0xEF)
      (h1 : 0x80 ≤ s1 ∧ s1 ≤ 0xBF) (hE0 : s0 = 0xE0 → 0xA0 ≤ s1) (hED : s0 = 0xED → s1 ≤ 0x9F)
      (h2 : 0x80 ≤ s2 ∧ s2 ≤ 0xBF) :
      RuneShape (s0 :: s1 :: s2 :: t) (s0 % 16 * 4096 + s1 % 64 * 64 + s2 % 64) 3
  | four (s0 s1 s2 s3 : Nat) (t : Bytes) (h0 : 0xF0 ≤ s0 ∧ s0 ≤ 0xF4)
      (h1 : 0x80 ≤ s1 ∧ s1 ≤ 0xBF) (hF0 : s0 = 0xF0 → 0x90 ≤ s1) (hF4 : s0 = 0xF4 → s1 ≤ 0x8F)
      (h2 : 0x80 ≤ s2 ∧ s2 ≤ 0xBF) (h3 : 0x80 ≤ s3 ∧ s3 ≤ 0xBF) :
      RuneShape (s0 :: s1 :: s2 :: s3 :: t)
        (s0 % 8 * 262144 + s1 % 64 * 4096 + s2 % 64 * 64 + s3 % 64) 4

/-- A rune that `utf8.AppendRune` writes as itself: in range and no surrogate. -/
def validRune (r : Nat) : Prop := r ≤ 0x10FFFF ∧ ¬ (0xD800 ≤ r ∧ r ≤ 0xDFFF)

/-- The rune `utf8.AppendRune` actually writes for `r`. -/
def fixRune (r : Nat) : Nat :=
  if 0x10FFFF < r ∨ (0xD800 ≤ r ∧ r ≤ 0xDFFF) then RuneError else r

/-! ## encoding/json: writing strings -/

/-- The string `hex` of encode.go, `"0123456789abcdef"`, indexed by `n`. -/
def hexDigit (n : Nat) : Nat :=
  if n < 10 then 0x30 + n else 0x61 + (n - 10)

/-- The table `htmlSafeSet`: the ASCII bytes written into a JSON string as
they are when HTML escaping is on (all of `0x20 .. 0x7F` but the quote, the
backslash, and the characters ampersand, less-than and greater-than). -/
def htmlSafeSet (b : Nat) : Bool :=
  decide (0x20 ≤ b ∧ b < 0x80 ∧ b ≠ 0x22 ∧ b ≠ 0x26 ∧ b ≠ 0x3C ∧ b ≠ 0x3E ∧ b ≠ 0x5C)

/-- What `appendString` writes for an ASCII byte outside `htmlSafeSet`. -/
def escapeByte (b : Nat) : Bytes :=
  if b = 0x5C ∨ b = 0x22 then [0x5C, b]
  else if b = 0x08 then [0x5C, 0x62]
  else if b = 0x0C then [0x5C, 0x66]
  else if b = 0x0A then [0x5C, 0x6E]
  else if b = 0x0D then [0x5C, 0x72]
  else if b = 0x09 then [0x5C, 0x74]
  else [0x5C, 0x75, 0x30, 0x30, hexDigit (b / 16), hexDigit (b % 16)]

/-- The loop of `appendString` (encode.go) with `escapeHTML` set, between the
two quotes; `n` bounds the number of iterations. -/
def appendStringAux : Nat → Bytes → Bytes
  | 0, _ => []
  | _ + 1, [] => []
  | n + 1, b :: rest =>
    if b < 0x80 then
      (if htmlSafeSet b then [b] else escapeByte b) ++ appendStringAux n rest
    else if badRune (b :: rest) then
      [0x5C, 0x75, 0x66, 0x66, 0x66, 0x64] ++ appendStringAux n rest
    else if (decodeRune (b :: rest)).1 = 0x2028 ∨ (decodeRune (b :: rest)).1 = 0x2029 then
      [0x5C, 0x75, 0x32, 0x30, 0x32, hexDigit ((decodeRune (b :: rest)).1 % 16)]
        ++ appendStringAux n ((b :: rest).drop (decodeRune (b :: rest)).2)
    else
      (b :: rest).take (decodeRune (b :: rest)).2
        ++ appendStringAux n ((b :: rest).drop (decodeRune (b :: rest)).2)

/-- The function `appendString` of encode.go with `escapeHTML` set: `s` as a
JSON string literal. -/
def appendString (s : Bytes) : Bytes :=
  0x22 :: (appendStringAux s.length s ++ [0x22])

/-! ## encoding/json: the scanner -/

/-- The states of the scanner inside a string literal (`stateInString`,
`stateInStringEsc`, `stateInStringEscU`, `stateInStringEscU1`, ...). -/
inductive StrState
  | inString
  | inStringEsc
  | inStringEscU
  | inStringEscU1
  | inStringEscU12
  | inStringEscU123
  deriving DecidableEq, Repr

/-- A hexadecimal digit, as the scanner accepts it after a backslash-u. -/
def isHex (c : Nat) : Bool :=
  decide ((0x30 ≤ c ∧ c ≤ 0x39) ∨ (0x61 ≤ c ∧ c ≤ 0x66) ∨ (0x41 ≤ c ∧ c ≤ 0x46))

/-- Puts one byte in front of the literal a scan returned. -/
def pushRaw (c : Nat) (r : Option (Bytes × Bytes)) : Option (Bytes × Bytes) :=
  r.map (fun x => (c :: x.1, x.2))

/-- The scanner on a string literal, from just after the opening quote: the
bytes up to the closing quote and the input after it, or `none` for a literal
the scanner rejects (a control character, a bad escape, no closing quote). -/
def scanString : StrState → Bytes → Option (Bytes × Bytes)
  | _, [] => none
  | .inString, c :: t =>
    if c = 0x22 then some ([], t)
    else if c = 0x5C then pushRaw c (scanString .inStringEsc t)
    else if c < 0x20 then none
    else pushRaw c (scanString .inString t)
  | .inStringEsc, c :: t =>
    if c = 0x62 ∨ c = 0x66 ∨ c = 0x6E ∨ c = 0x72 ∨ c = 0x74 ∨ c = 0x5C ∨ c = 0x2F ∨ c = 0x22 then
      pushRaw c (scanString .inString t)
    else if c = 0x75 then pushRaw c (scanString .inStringEscU t)
    else none
  | .inStringEscU, c :: t =>
    if isHex c then pushRaw c (scanString .inStringEscU1 t) else none
  | .inStringEscU1, c :: t =>
    if isHex c then pushRaw c (scanString .inStringEscU12 t) else none
  | .inStringEscU12, c :: t =>
    if isHex c then pushRaw c (scanString .inStringEscU123 t) else none
  | .inStringEscU123, c :: t =>
    if isHex c then pushRaw c (scanString .inString t) else none

/-- The states of the scanner inside a number (`stateNeg`, `state0`, `state1`,
`stateDot`, `stateDot0`, `stateE`, `stateESign`, `stateE0`). -/
inductive NumState
  | neg
  | zero
  | one
  | dot
  | dot0
  | e
  | eSign
  | e0
  deriving DecidableEq, Repr

/-- A decimal digit. -/
def isDigit (c : Nat) : Bool := decide (0x30 ≤ c ∧ c ≤ 0x39)

/-- The scanner on a number: the input after the longest number the scanner
reads, or `none` when the bytes read so far are no number. -/
def scanNumber : NumState → Bytes → Option Bytes
  | .neg, [] => none
  | .neg, c :: t =>
    if c = 0x30 then scanNumber .zero t
    else if 0x31 ≤ c ∧ c ≤ 0x39 then scanNumber .one t
    else none
  | .zero, [] => some []
  | .zero, c :: t =>
    if c = 0x2E then scanNumber .dot t
    else if c = 0x65 ∨ c = 0x45 then scanNumber .e t
    else some (c :: t)
  | .one, [] => some []
  | .one, c :: t =>
    if isDigit c then scanNumber .one t
    else if c = 0x2E then scanNumber .dot t
    else if c = 0x65 ∨ c = 0x45 then scanNumber .e t
    else some (c :: t)
  | .dot, [] => none
  | .dot, c :: t => if isDigit c then scanNumber .dot0 t else none
  | .dot0, [] => some []
  | .dot0, c :: t =>
    if isDigit c then scanNumber .dot0 t
    else if c = 0x65 ∨ c = 0x45 then scanNumber .e t
    else some (c :: t)
  | .e, [] => none
  | .e, c :: t =>
    if c = 0x2B ∨ c = 0x2D then scanNumber .eSign t
    else if isDigit c then scanNumber .e0 t
    else none
  | .eSign, [] => none
  | .eSign, c :: t => if isDigit c then scanNumber .e0 t else none
  | .e0, [] => some []
  | .e0, c :: t => if isDigit c then scanNumber .e0 t else some (c :: t)

/-- The function `isSpace` of scanner.go. -/
def isSpace (c : Nat) : Bool :=
  decide (c = 0x20 ∨ c = 0x09 ∨ c = 0x0D ∨ c = 0x0A)

/-- Drops the leading white space. -/
def skipSpace : Bytes → Bytes
  | [] => []
  | c :: t => if isSpace c then skipSpace t else c :: t

/-! ## encoding/json: reading strings -/

/-- The value of a hexadecimal digit, as `getu4` reads it. -/
def hexVal (c : Nat) : Option Nat :=
  if 0x30 ≤ c ∧ c ≤ 0x39 then some (c - 0x30)
  else if 0x61 ≤ c ∧ c ≤ 0x66 then some (c - 0x61 + 10)
  else if 0x41 ≤ c ∧ c ≤ 0x46 then some (c - 0x41 + 10)
  else none

/-- The function `getu4` of decode.go: the rune of a backslash-u escape at the
start of `s`, or `none` (Go: `-1`) when `s` does not start with one. -/
def getu4 (s : Bytes) : Option Nat :=
  match s with
  | 0x5C :: 0x75 :: a :: b :: c :: d :: _ =>
    match hexVal a, hexVal b, hexVal c, hexVal d with
    | some x, some y, some z, some w => some (((x * 16 + y) * 16 + z) * 16 + w)
    | _, _, _, _ => none
  | _ => none

/-- Puts decoded bytes in front of what the rest of the literal decodes to. -/
def pushOut (p : Bytes) (r : Option Bytes) : Option Bytes :=
  r.map (fun x => p ++ x)

/-- One iteration of the loop of `unquoteBytes` (decode.go) at the byte `c`
followed by `rest`; `k` reads the remainder of the literal.  Escapes are
resolved and every byte is coerced to well-formed UTF-8; `none` for a literal
the function rejects. -/
def unquoteStep (k : Bytes → Option Bytes) (c : Nat) (rest : Bytes) : Option Bytes :=
  if c = 0x5C then
    match rest with
    | [] => none
    | e :: rest1 =>
      if e = 0x22 ∨ e = 0x5C ∨ e = 0x2F ∨ e = 0x27 then pushOut [e] (k rest1)
      else if e = 0x62 then pushOut [0x08] (k rest1)
      else if e = 0x66 then pushOut [0x0C] (k rest1)
      else if e = 0x6E then pushOut [0x0A] (k rest1)
      else if e = 0x72 then pushOut [0x0D] (k rest1)
      else if e = 0x74 then pushOut [0x09] (k rest1)
      else if e = 0x75 then
        match getu4 (c :: rest) with
        | none => none
        | some rr =>
          if 0xD800 ≤ rr ∧ rr < 0xE000 then
            match getu4 ((c :: rest).drop 6) with
            | none => pushOut (encodeRune RuneError) (k ((c :: rest).drop 6))
            | some rr1 =>
              if rr < 0xDC00 ∧ 0xDC00 ≤ rr1 ∧ rr1 < 0xE000 then
                pushOut (encodeRune ((rr - 0xD800) * 1024 + (rr1 - 0xDC00) + 0x10000))
                  (k ((c :: rest).drop 12))
              else pushOut (encodeRune RuneError) (k ((c :: rest).drop 6))
          else pushOut (encodeRune rr) (k ((c :: rest).drop 6))
      else none
  else if c = 0x22 ∨ c < 0x20 then none
  else if c < 0x80 then pushOut [c] (k rest)
  else
    pushOut (encodeRune (decodeRune (c :: rest)).1)
      (k ((c :: rest).drop (decodeRune (c :: rest)).2))

/-- The loop of `unquoteBytes` (decode.go) on the bytes between the quotes of
a literal; `n` bounds the number of iterations. -/
def unquoteAux : Nat → Bytes → Option Bytes
  | _, [] => some []
  | 0, _ :: _ => none
  | n + 1, c :: rest => unquoteStep (unquoteAux n) c rest

/-- The function `unquoteBytes` of decode.go, on the bytes between the quotes.
(Its first loop, which returns a literal without escapes and without invalid
UTF-8 as it is, computes the same as the general loop embedded here.) -/
def unquoteBytes (s : Bytes) : Option Bytes := unquoteAux s.length s

/-- Puts a piece of literal in front of the literal a scan returned. -/
def pushRawL (p : Bytes) (r : Option (Bytes × Bytes)) : Option (Bytes × Bytes) :=
  r.map (fun x => (p ++ x.1, x.2))

/-- Well-formed UTF-8, as a relation: a sequence of ASCII bytes and of
multi-byte encodings of one of the three valid shapes. -/
inductive Valid : Bytes → Prop
  | nil : Valid []
  | ascii (b : Nat) (t : Bytes) (hb : b < 0x80) (ht : Valid t) : Valid (b :: t)
  | rune (s : Bytes) (r k : Nat) (hs : RuneShape s r k) (ht : Valid (s.drop k)) : Valid s

/-! ## encoding/json: values -/

/-- A JSON value as the decoder sees it.  String literals are unquoted; the
digits of a number are not kept (no target of this program reads a number). -/
inductive JVal
  | null
  | bool (b : Bool)
  | number
  | str (s : Bytes)
  | array (xs : List JVal)
  | object (ms : List (Bytes × JVal))

/-- What the reader is in the middle of: a value, the members of an object
(those read so far in `acc`), or the elements of an array. -/
inductive Mode
  | value
  | members (acc : List (Bytes × JVal))
  | elements (acc : List JVal)

/-- The constant `maxNestingDepth` of scanner.go. -/
def maxNestingDepth : Nat := 10000

/-- Reads a string literal from just after its opening quote: the scanner
delimits it, `unquoteBytes` decodes it. -/
def readString (inp : Bytes) : Option (Bytes × Bytes) :=
  match scanString .inString inp with
  | none => none
  | some (raw, rest) =>
    match unquoteBytes raw with
    | none => none
    | some s => some (s, rest)

/-- Reads what follows the first byte `c` of a value that is no object and no
array: a string, a number or one of the literals `true`, `false`, `null`. -/
def readScalar (c : Nat) (rest : Bytes) : Option (JVal × Bytes) :=
  if c = 0x22 then (readString rest).map (fun r => (JVal.str r.1, r.2))
  else if c = 0x2D then (scanNumber .neg rest).map (fun r => (JVal.number, r))
  else if c = 0x30 then (scanNumber .zero rest).map (fun r => (JVal.number, r))
  else if 0x31 ≤ c ∧ c ≤ 0x39 then (scanNumber .one rest).map (fun r => (JVal.number, r))
  else if c = 0x74 then
    match rest with
    | 0x72 :: 0x75 :: 0x65 :: rest1 => some (JVal.bool true, rest1)
    | _ => none
  else if c = 0x66 then
    match rest with
    | 0x61 :: 0x6C :: 0x73 :: 0x65 :: rest1 => some (JVal.bool false, rest1)
    | _ => none
  else if c = 0x6E then
    match rest with
    | 0x75 :: 0x6C :: 0x6C :: rest1 => some (JVal.null, rest1)
    | _ => none
  else none

/-- One step of reading JSON text at nesting depth `d`; `k` reads what is
nested or what follows.  The grammar is the one of scanner.go: white space is
skipped between tokens, an object is `{}` or `{"k":v,...}`, an array is `[]`
or `[v,...]`, and opening more than `maxNestingDepth` containers is an error.
The result is the value read and the input after it. -/
def parseStep (k : Nat → Mode → Bytes → Option (JVal × Bytes)) (d : Nat) (mode : Mode)
    (inp : Bytes) : Option (JVal × Bytes) :=
  match mode with
  | .value =>
    match skipSpace inp with
    | [] => none
    | c :: rest =>
      if c = 0x7B then
        if maxNestingDepth < d + 1 then none
        else
          match skipSpace rest with
          | [] => none
          | c1 :: rest1 =>
            if c1 = 0x7D then some (JVal.object [], rest1)
            else k (d + 1) (.members []) (c1 :: rest1)
      else if c = 0x5B then
        if maxNestingDepth < d + 1 then none
        else
          match skipSpace rest with
          | [] => none
          | c1 :: rest1 =>
            if c1 = 0x5D then some (JVal.array [], rest1)
            else k (d + 1) (.elements []) (c1 :: rest1)
      else readScalar c rest
  | .members acc =>
    match skipSpace inp with
    | [] => none
    | c :: rest =>
      if c = 0x22 then
        match readString rest with
        | none => none
        | some (key, rest1) =>
          match skipSpace rest1 with
          | [] => none
          | c2 :: rest2 =>
            if c2 = 0x3A then
              match k d .value rest2 with
              | none => none
              | some (v, rest3) =>
                match skipSpace rest3 with
                | [] => none
                | c4 :: rest4 =>
                  if c4 = 0x2C then k d (.members (acc ++ [(key, v)])) rest4
                  else if c4 = 0x7D then some (JVal.object (acc ++ [(key, v)]), rest4)
                  else none
            else none
      else none
  | .elements acc =>
    match k d .value inp with
    | none => none
    | some (v, rest) =>
      match skipSpace rest with
      | [] => none
      | c :: rest1 =>
        if c = 0x2C then k d (.elements (acc ++ [v])) rest1
        else if c = 0x5D then some (JVal.array (acc ++ [v]), rest1)
        else none

/-- Reads JSON text; `n` bounds the number of steps (every step but the first
follows at least one byte read, so the length of the input plus one is always
enough). -/
def parse : Nat → Nat → Mode → Bytes → Option (JVal × Bytes)
  | 0, _, _, _ => none
  | n + 1, d, mode, inp => parseStep (parse n) d mode inp

/-- The first JSON value of `data` and the input after it. -/
def parseValue (data : Bytes) : Option (JVal × Bytes) :=
  parse (data.length + 1) 0 .value data

/-- The errors `encoding/json` returns when it reads: the text is no JSON
value (`*json.SyntaxError`, `io.EOF`, `io.ErrUnexpectedEOF`), or a value does
not fit the Go type it is read into (`*json.UnmarshalTypeError`). -/
inductive JsonError
  | malformed
  | typeMismatch
  deriving DecidableEq, Repr

/-- Equality of results is decidable. -/
instance instDecidableEqExcept {ε α : Type} [DecidableEq ε] [DecidableEq α] :
    DecidableEq (Except ε α) := fun a b =>
  match a, b with
  | .ok x, .ok y =>
    if h : x = y then isTrue (by rw [h]) else isFalse (fun e => h (by injection e))
  | .error x, .error y =>
    if h : x = y then isTrue (by rw [h]) else isFalse (fun e => h (by injection e))
  | .ok _, .error _ => isFalse (fun e => by injection e)
  | .error _, .ok _ => isFalse (fun e => by injection e)

/-! ## src/raft/fsm.go: `Command` and its JSON form -/

/-- The struct `Command` (fsm.go, lines 12-16). -/
structure Command where
  Op : Bytes
  Key : Bytes
  Value : Bytes
  deriving DecidableEq, Repr

/-- The string `"op"`. -/
def strOp : Bytes := [0x6F, 0x70]

/-- The string `"key"`. -/
def strKey : Bytes := [0x6B, 0x65, 0x79]

/-- The string `"value"`. -/
def strValue : Bytes := [0x76, 0x61, 0x6C, 0x75, 0x65]

/-- The string `"set"`. -/
def strSet : Bytes := [0x73, 0x65, 0x74]

/-- The string `"delete"`. -/
def strDelete : Bytes := [0x64, 0x65, 0x6C, 0x65, 0x74, 0x65]

/-- The fields of `Command`. -/
inductive Field
  | op
  | key
  | value
  deriving DecidableEq, Repr

/-- The function `foldName` of encoding/json: the name with ASCII letters in
upper case and every rune replaced by the smallest rune of its case-folding
orbit.  The only runes outside ASCII that fold to an ASCII letter are U+212A
(KELVIN SIGN, to `K`) and U+017F (LONG S, to `S`); every other multi-byte rune
is left as it is here, since it folds to no ASCII letter and so matches no
field of `Command` either way. -/
def foldName : Bytes → Bytes
  | [] => []
  | 0xE2 :: 0x84 :: 0xAA :: t => 0x4B :: foldName t
  | 0xC5 :: 0xBF :: t => 0x53 :: foldName t
  | c :: t => (if 0x61 ≤ c ∧ c ≤ 0x7A then c - 0x20 else c) :: foldName t

/-- The field of `Command` an object key names: the field with exactly that
JSON name, else the field whose name matches case-insensitively. -/
def fieldByName (key : Bytes) : Option Field :=
  if key = strOp then some .op
  else if key = strKey then some .key
  else if key = strValue then some .value
  else if foldName key = [0x4F, 0x50] then some .op
  else if foldName key = [0x4B, 0x45, 0x59] then some .key
  else if foldName key = [0x56, 0x41, 0x4C, 0x55, 0x45] then some .value
  else none

/-- Stores a string into a field of `Command`. -/
def Command.store (cmd : Command) (f : Field) (s : Bytes) : Command :=
  match f with
  | .op => { cmd with Op := s }
  | .key => { cmd with Key := s }
  | .value => { cmd with Value := s }

/-- Keeps the first error (`decodeState.saveError`). -/
def saveError (saved : Option JsonError) (e : JsonError) : Option JsonError :=
  match saved with
  | some e0 => some e0
  | none => some e

/-- Decoding one member of an object into a `Command`: a key that names no
field is skipped; a string is stored; `null` leaves the field as it is; any
other value is a type error, saved while decoding goes on. -/
def decodeCommandMember (st : Command × Option JsonError) (m : Bytes × JVal) :
    Command × Option JsonError :=
  match fieldByName m.1 with
  | none => st
  | some f =>
    match m.2 with
    | .str s => (st.1.store f s, st.2)
    | .null => st
    | _ => (st.1, saveError st.2 .typeMismatch)

/-- Decoding a JSON value into `var cmd Command` (all fields empty): an object
is decoded member by member, `null` changes nothing, any other value is a type
error. -/
def decodeCommand (v : JVal) : Except JsonError Command :=
  match v with
  | .object ms =>
    match ms.foldl decodeCommandMember (⟨[], [], []⟩, none) with
    | (cmd, none) => .ok cmd
    | (_, some e) => .error e
  | .null => .ok ⟨[], [], []⟩
  | _ => .error .typeMismatch

/-- The call `json.Unmarshal(log.Data, &cmd)` of `FSM.Apply` (fsm.go, line 34):
`data` has to be one JSON value with nothing but white space around it. -/
def unmarshalCommand (data : Bytes) : Except JsonError Command :=
  match parseValue data with
  | none => .error .malformed
  | some (v, rest) =>
    if skipSpace rest = [] then decodeCommand v else .error .malformed

/-- The bytes `json.Marshal` writes for a `Command`: the fields in the order of
the struct, `value` left out when empty (`omitempty`). -/
def encodeCommand (cmd : Command) : Bytes :=
  [0x7B] ++ appendString strOp ++ [0x3A] ++ appendString cmd.Op
    ++ [0x2C] ++ appendString strKey ++ [0x3A] ++ appendString cmd.Key
    ++ (if cmd.Value = [] then []
        else [0x2C] ++ appendString strValue ++ [0x3A] ++ appendString cmd.Value)
    ++ [0x7D]

/-- The call `json.Marshal(cmd)` of `RaftStore.applyCommand` (raft.go, line
151).  A struct of strings has no value `json.Marshal` refuses. -/
def marshalCommand (cmd : Command) : Except JsonError Bytes :=
  .ok (encodeCommand cmd)

/-! ## `map[string]string` and its JSON form -/

/-- The contents of a Go `map[string]string`. -/
abbrev GoMap := AList (fun _ : Bytes => Bytes)

/-- Go's `<` on strings: byte-wise lexicographic. -/
def strLess : Bytes → Bytes → Bool
  | _, [] => false
  | [], _ :: _ => true
  | a :: s, b :: t => decide (a < b) || (decide (a = b) && strLess s t)

/-- The keys of a map in the order `encoding/json` writes them: sorted. -/
def sortedKeys (m : GoMap) : List Bytes :=
  List.insertionSort (fun a b => strLess b a = false) m.keys

/-- The value at a key (`m[k]`; the empty string for an absent key). -/
def mapIndex (m : GoMap) (k : Bytes) : Bytes :=
  (m.lookup k).getD []

/-- The members of an object, written one after the other with commas. -/
def encodeMembers (m : GoMap) : List Bytes → Bytes
  | [] => []
  | [k] => appendString k ++ [0x3A] ++ appendString (mapIndex m k)
  | k :: k2 :: ks =>
    appendString k ++ [0x3A] ++ appendString (mapIndex m k) ++ [0x2C]
      ++ encodeMembers m (k2 :: ks)

/-- The bytes `encoding/json` writes for a `map[string]string`: `null` for the
nil map, else an object with the keys sorted. -/
def encodeMap (m : Option GoMap) : Bytes :=
  match m with
  | none => [0x6E, 0x75, 0x6C, 0x6C]
  | some m => [0x7B] ++ encodeMembers m (sortedKeys m) ++ [0x7D]

/-- Decoding one member of an object into a `map[string]string`: the element
starts as the empty string, a string value is stored into it, `null` leaves it,
any other value is a type error saved while decoding goes on; the element is
then put into the map. -/
def decodeMapMember (st : GoMap × Option JsonError) (m : Bytes × JVal) :
    GoMap × Option JsonError :=
  match m.2 with
  | .str s => (st.1.insert m.1 s, st.2)
  | .null => (st.1.insert m.1 [], st.2)
  | _ => (st.1.insert m.1 [], saveError st.2 .typeMismatch)

/-- Decoding a JSON value into a variable `data` of type `map[string]string`
that holds a non-nil map: an object is decoded member by member into the map,
`null` sets the variable to nil (`none`), any other value is a type error.  On
an error the variable is of no further use to the caller and is not returned. -/
def decodeMap (v : JVal) (data : GoMap) : Except JsonError (Option GoMap) :=
  match v with
  | .object ms =>
    match ms.foldl decodeMapMember (data, none) with
    | (m, none) => .ok (some m)
    | (_, some e) => .error e
  | .null => .ok none
  | _ => .error .typeMismatch

/-- The call `json.NewDecoder(rc).Decode(&data)` of `FSM.Restore` (fsm.go, line
70) on a reader that yields `src`: the decoder reads the first JSON value of
the stream and does not look at what follows it. -/
def decoderDecode (src : Bytes) (data : GoMap) : Except JsonError (Option GoMap) :=
  match parseValue src with
  | none => .error .malformed
  | some (v, _) => decodeMap v data

/-- The bytes `json.NewEncoder(sink).Encode(data)` of `fsmSnapshot.Persist`
(fsm.go, line 95) writes: the value and a newline. -/
def encoderEncode (m : Option GoMap) : Bytes :=
  encodeMap m ++ [0x0A]

/-! ## src/raft/fsm.go: the state machine -/

/-- The heap of map objects: a Go map value is a reference to one of them.
`cells a` is the contents of the object at address `a`; the addresses below
`next` are allocated. -/
structure Heap where
  cells : Nat → GoMap
  next : Nat

/-- The heap with the contents of the object at `a` replaced. -/
def Heap.store (h : Heap) (a : Nat) (m : GoMap) : Heap :=
  { h with cells := Function.update h.cells a m }

/-- The call `make(map[string]string)`: the address of a new, empty map
object, and the heap with it. -/
def Heap.make (h : Heap) : Nat × Heap :=
  (h.next, { cells := Function.update h.cells h.next ∅, next := h.next + 1 })

/-- A heap with nothing allocated. -/
def Heap.empty : Heap := { cells := fun _ => ∅, next := 0 }

/-- The struct `FSM` (fsm.go, lines 19-22).  The field `data` is a map value:
`none` is the nil map, `some a` the map object at address `a`. -/
structure FSM where
  data : Option Nat
  deriving DecidableEq, Repr

/-- The struct `fsmSnapshot` (fsm.go, lines 89-91). -/
structure fsmSnapshot where
  data : Option Nat
  deriving DecidableEq, Repr

/-- The function `NewFSM` (fsm.go, lines 25-29). -/
def NewFSM (h : Heap) : FSM × Heap :=
  ({ data := some (Heap.make h).1 }, (Heap.make h).2)

/-- What a call of `FSM.Apply` comes to: it returns a response (`nil`, here
`none`, or the error of `json.Unmarshal`) and leaves a heap, or it panics. -/
inductive ApplyResult
  | returned (resp : Option JsonError) (h : Heap)
  | panicked

/-- The method `FSM.Apply` (fsm.go, lines 32-51) on the log entry with data
`logData`.  Writing into the nil map panics; `delete` on the nil map does
nothing. -/
def FSM.Apply (f : FSM) (h : Heap) (logData : Bytes) : ApplyResult :=
  match unmarshalCommand logData with
  | .error err => .returned (some err) h
  | .ok cmd =>
    if cmd.Op = strSet then
      match f.data with
      | none => .panicked
      | some a => .returned none (h.store a ((h.cells a).insert cmd.Key cmd.Value))
    else if cmd.Op = strDelete then
      match f.data with
      | none => .returned none h
      | some a => .returned none (h.store a ((h.cells a).erase cmd.Key))
    else .returned none h

/-- The contents of a map value, for reading: the nil map reads as empty. -/
def Heap.read (h : Heap) (ref : Option Nat) : GoMap :=
  match ref with
  | none => ∅
  | some a => h.cells a

/-- The method `FSM.Get` (fsm.go, lines 81-86): `val, ok := f.data[key]`. -/
def FSM.Get (f : FSM) (h : Heap) (key : Bytes) : Bytes × Bool :=
  match (h.read f.data).lookup key with
  | some val => (val, true)
  | none => ([], false)

/-- The loop `for k, v := range f.data { data[k] = v }` of `FSM.Snapshot`, on
the entries still to visit. -/
def copyEntries (dst : GoMap) : List (Sigma fun _ : Bytes => Bytes) → GoMap
  | [] => dst
  | e :: rest => copyEntries (dst.insert e.1 e.2) rest

/-- The method `FSM.Snapshot` (fsm.go, lines 54-65): a new map is made and
filled from `f.data`; the error returned is always `nil`. -/
def FSM.Snapshot (f : FSM) (h : Heap) : fsmSnapshot × Heap :=
  ({ data := some (Heap.make h).1 },
    (Heap.make h).2.store (Heap.make h).1
      (copyEntries ((Heap.make h).2.cells (Heap.make h).1) (h.read f.data).entries))

/-- The method `FSM.Restore` (fsm.go, lines 68-78) on a reader that yields
`src`: the error returned (`none` for `nil`), the FSM and the heap after the
call.  When decoding fails the new map is dropped and `f.data` is not
assigned. -/
def FSM.Restore (f : FSM) (h : Heap) (src : Bytes) : Option JsonError × FSM × Heap :=
  match decoderDecode src ((Heap.make h).2.cells (Heap.make h).1) with
  | .error err => (some err, f, (Heap.make h).2)
  | .ok none => (none, { data := none }, (Heap.make h).2)
  | .ok (some m) =>
    (none, { data := some (Heap.make h).1 }, (Heap.make h).2.store (Heap.make h).1 m)

/-- An error of the snapshot sink. -/
structure SinkError where
  code : Nat
  deriving DecidableEq, Repr

/-- A `raft.SnapshotSink`, as far as `Persist` uses it: the bytes written so
far, whether `Cancel` and `Close` were called, and what the sink answers to
`Write` and to `Close` (`none` for success). -/
structure SnapshotSink where
  written : Bytes
  cancelled : Bool
  closed : Bool
  writeErr : Option SinkError
  closeErr : Option SinkError
  deriving DecidableEq, Repr

/-- A sink that accepts everything, with nothing written yet. -/
def SnapshotSink.fresh : SnapshotSink :=
  { written := [], cancelled := false, closed := false, writeErr := none, closeErr := none }

/-- The method `fsmSnapshot.Persist` (fsm.go, lines 94-102): the encoder
writes the map and a newline to the sink in one `Write`; when that fails the
sink is cancelled and the error returned, else the result of `Close` is
returned. -/
def fsmSnapshot.Persist (snap : fsmSnapshot) (h : Heap) (sink : SnapshotSink) :
    Option SinkError × SnapshotSink :=
  match sink.writeErr with
  | some err => (some err, { sink with cancelled := true })
  | none =>
    (sink.closeErr,
      { sink with
        written := sink.written ++ encoderEncode (match snap.data with
          | none => none
          | some a => some (h.cells a)),
        closed := true })

/-! ## src/raft/raft.go: joining the cluster -/

/-- A `raft.Server` of the cluster configuration. -/
structure Server where
  ID : Bytes
  Address : Bytes
  deriving DecidableEq, Repr

/-- An error of the consensus engine (not leader, configuration change in
progress, ...). -/
structure RaftError where
  code : Nat
  deriving DecidableEq, Repr

/-- The consensus engine (`*raft.Raft` of hashicorp/raft), as far as `Join`
uses it: the servers of the current configuration, the error
`GetConfiguration` answers with and the error `AddVoter` answers with (`none`
for success), and the `AddVoter` requests received so far. -/
structure Raft where
  servers : List Server
  configErr : Option RaftError
  addVoterErr : Option RaftError
  addVoterCalls : List (Bytes × Bytes)
  deriving DecidableEq, Repr

/-- What a successful `AddVoter` does to the configuration: a server with the
given ID gets the address, a new ID is appended. -/
def addServer (servers : List Server) (id addr : Bytes) : List Server :=
  if servers.any (fun srv => decide (srv.ID = id)) then
    servers.map (fun srv => if srv.ID = id then { srv with Address := addr } else srv)
  else servers ++ [{ ID := id, Address := addr }]

/-- The call `s.raft.AddVoter(id, addr, 0, 0)` followed by `Error()` on the
future: the request is recorded; on success the configuration is changed. -/
def Raft.AddVoter (r : Raft) (id addr : Bytes) : Option RaftError × Raft :=
  match r.addVoterErr with
  | some err => (some err, { r with addVoterCalls := r.addVoterCalls ++ [(id, addr)] })
  | none =>
    (none, { r with
      servers := addServer r.servers id addr,
      addVoterCalls := r.addVoterCalls ++ [(id, addr)] })

/-- The loop of `RaftStore.Join` (raft.go, lines 118-123): whether some server
of the configuration has the ID or the address. -/
def alreadyJoined (nodeID addr : Bytes) : List Server → Bool
  | [] => false
  | srv :: rest =>
    if srv.ID = nodeID ∨ srv.Address = addr then true else alreadyJoined nodeID addr rest

/-- The method `RaftStore.Join` (raft.go, lines 111-132): the error returned
(`none` for `nil`) and the consensus engine after the call. -/
def Join (r : Raft) (nodeID addr : Bytes) : Option RaftError × Raft :=
  match r.configErr with
  | some err => (some err, r)
  | none =>
    if alreadyJoined nodeID addr r.servers then (none, r)
    else r.AddVoter nodeID addr

/-! ## Observations -/

/-- The response of a call of `Apply` that returned. -/
def ApplyResult.response : ApplyResult → Option (Option JsonError)
  | .returned resp _ => some resp
  | .panicked => none

/-- The heap a call of `Apply` left; the heap `h` before the call when it
panicked. -/
def ApplyResult.heapOr (r : ApplyResult) (h : Heap) : Heap :=
  match r with
  | .returned _ h1 => h1
  | .panicked => h

/-- What `f.Get(key)` returns after a call of `Apply` that returned. -/
def ApplyResult.get (r : ApplyResult) (f : FSM) (key : Bytes) : Option (Bytes × Bool) :=
  match r with
  | .returned _ h1 => some (f.Get h1 key)
  | .panicked => none

/-- The map of the FSM is nil or an allocated object. -/
def FSM.allocated (f : FSM) (h : Heap) : Prop :=
  ∀ a, f.data = some a → a < h.next

/-- The function `json.Valid`: `src` is one JSON value with nothing but white
space around it. -/
def jsonValid (src : Bytes) : Bool :=
  match parseValue src with
  | none => false
  | some (_, rest) => decide (skipSpace rest = [])

/-- A member of an object holds well-formed strings: its key, and its value
when that is a string. -/
def memberOK (m : Bytes × JVal) : Prop :=
  Valid m.1 ∧ ∀ s, m.2 = JVal.str s → Valid s

/-- A value holds well-formed strings at its top: itself when it is a string,
its members when it is an object. -/
def topOK (v : JVal) : Prop :=
  (∀ s, v = JVal.str s → Valid s) ∧ (∀ ms, v = JVal.object ms → ∀ m ∈ ms, memberOK m)

/-- The members read so far hold well-formed strings. -/
def modeOK : Mode → Prop
  | .value => True
  | .members acc => ∀ m ∈ acc, memberOK m
  | .elements _ => True

/-- The fields of a command are well-formed UTF-8. -/
def Command.wellFormed (cmd : Command) : Prop :=
  Valid cmd.Op ∧ Valid cmd.Key ∧ Valid cmd.Value

/-- The keys and values of a map are well-formed UTF-8. -/
def mapOK (m : GoMap) : Prop :=
  ∀ e ∈ m.entries, Valid e.1 ∧ Valid e.2

/-- The states an FSM made by `NewFSM` reaches by applied log entries: `Apply`
was called with any bytes, any number of times, and returned. -/
inductive Reach : FSM → Heap → Prop
  | init (h0 : Heap) : Reach (NewFSM h0).1 (NewFSM h0).2
  | apply (f : FSM) (h : Heap) (logData : Bytes) (resp : Option JsonError) (h1 : Heap)
      (hr : Reach f h) (ha : f.Apply h logData = .returned resp h1) : Reach f h1

/-- The FSM `NewFSM` makes on the empty heap. -/
def fsm0 : FSM := (NewFSM Heap.empty).1

/-- The heap after `NewFSM` and `Apply` of the encoded command `Set("k", "v")`. -/
def heap1 : Heap :=
  (fsm0.Apply (NewFSM Heap.empty).2 (encodeCommand ⟨strSet, [0x6B], [0x76]⟩)).heapOr
    (NewFSM Heap.empty).2

/-- A call on the FSM that mutates it: `Apply` of a log entry or `Restore`
from a source. -/
inductive Call
  | apply (logData : Bytes)
  | restore (src : Bytes)

/-- The FSM and the heap after one call.  An `Apply` that panics ends the
program; it is kept here as a call that leaves everything as it was. -/
def FSM.call (f : FSM) (h : Heap) : Call → FSM × Heap
  | .apply logData => (f, (f.Apply h logData).heapOr h)
  | .restore src => ((f.Restore h src).2.1, (f.Restore h src).2.2)

/-- The FSM and the heap after a sequence of calls. -/
def FSM.calls (f : FSM) (h : Heap) : List Call → FSM × Heap
  | [] => (f, h)
  | c :: rest => FSM.calls (f.call h c).1 (f.call h c).2 rest

/-- A reader `k` that consumes input and whose every result `parse` gives
too, with any number of steps from the number of bytes consumed on. -/
def Bounded (k : Nat → Mode → Bytes → Option (JVal × Bytes)) : Prop :=
  ∀ d mode inp v rest, k d mode inp = some (v, rest) →
    rest.length < inp.length
      ∧ ∀ F, inp.length ≤ F + rest.length → parse F d mode inp = some (v, rest)

/-- The node ID `"n1"`. -/
def idN1 : Bytes := [0x6E, 0x31]

/-- The node ID `"n2"`. -/
def idN2 : Bytes := [0x6E, 0x32]

/-- The address `"a1"`. -/
def addrA1 : Bytes := [0x61, 0x31]

/-- The address `"a2"`. -/
def addrA2 : Bytes := [0x61, 0x32]

/-- An engine that accepts every request, with the one server `n2` at the
address `a1`. -/
def raftN2A1 : Raft :=
  { servers := [{ ID := idN2, Address := addrA1 }], configErr := none, addVoterErr := none,
    addVoterCalls := [] }

/-- An engine that accepts every request, with the one server `n2` at the
address `a2`. -/
def raftN2A2 : Raft :=
  { servers := [{ ID := idN2, Address := addrA2 }], configErr := none, addVoterErr := none,
    addVoterCalls := [] }

/-- What reading a truncated number gives, `o`, when the whole input `inp`
gave the rest `rest` and the first `j` bytes are kept: nothing, or a number
that runs to the end of the truncated input, or the same number with the rest
truncated. -/
def NumTake (inp rest : Bytes) (j : Nat) (o : Option Bytes) : Prop :=
  o = none ∨ (j + rest.length < inp.length ∧ o = some [])
    ∨ (inp.length ≤ j + rest.length ∧ o = some (rest.take (j - (inp.length - rest.length))))

/-- What reading a truncated input gives, `o`, when the whole input `inp` gave
the value `v` and the rest `rest` and the first `j` bytes are kept: nothing; or,
cut inside the value, a number that runs to the end of the truncated input; or,
cut after the value, the same value with the rest truncated. -/
def ValTake (inp rest : Bytes) (v : JVal) (j : Nat) (o : Option (JVal × Bytes)) : Prop :=
  o = none ∨ (j + rest.length < inp.length ∧ o = some (JVal.number, []))
    ∨ (inp.length ≤ j + rest.length ∧ o = some (v, rest.take (j - (inp.length - rest.length))))

/-- What reading a truncated input in a mode gives: as `ValTake`, and only a
value can come out as a number that runs to the end of the truncated input. -/
def ModeTake (mode : Mode) (inp rest : Bytes) (v : JVal) (j : Nat)
    (o : Option (JVal × Bytes)) : Prop :=
  o = none ∨ (mode = Mode.value ∧ j + rest.length < inp.length ∧ o = some (JVal.number, []))
    ∨ (inp.length ≤ j + rest.length ∧ o = some (v, rest.take (j - (inp.length - rest.length))))

/-- A reader `k` whose results are stable under truncation of the input. -/
def TakeOK (k : Nat → Mode → Bytes → Option (JVal × Bytes)) : Prop :=
  ∀ d mode inp v rest, k d mode inp = some (v, rest) →
    ∀ j F, ModeTake mode inp rest v j (parse F d mode (inp.take j))

/-- A value a `map[string]string` takes as an element: a string or `null`. -/
def strOrNull (v : JVal) : Prop :=
  (∃ s, v = JVal.str s) ∨ v = JVal.null

/-- `Restore` of the source `src` returns an error, does not assign `f.data`,
and every `Get` returns what it returned before. -/
def Rejects (f : FSM) (h : Heap) (src : Bytes) : Prop :=
  ∃ err h1, f.Restore h src = (some err, f, h1) ∧ ∀ key, f.Get h1 key = f.Get h key

/-- The bytes `Persist` writes for the map with the one entry `"a"` to `"b"`:
the object `{"a":"b"}` and a newline. -/
def snapAB : Bytes := [0x7B, 0x22, 0x61, 0x22, 0x3A, 0x22, 0x62, 0x22, 0x7D, 0x0A]

/-- The source `{"a":1}`: an object with a number as a value. -/
def srcNumberValue : Bytes := [0x7B, 0x22, 0x61, 0x22, 0x3A, 0x31, 0x7D]

/-- The source `["a"]`: an array. -/
def srcArray : Bytes := [0x5B, 0x22, 0x61, 0x22, 0x5D]

/-- The source `{"a" "b"}`: an object with no colon after the key. -/
def srcNoColon : Bytes := [0x7B, 0x22, 0x61, 0x22, 0x20, 0x22, 0x62, 0x22, 0x7D]

end RaftServer

namespace RaftServer

theorem first_as (b : Nat) (h : b < 0x80) : first b = 0xF0 := by
  simp only [first, h, if_true]

theorem first_xx_lo (b : Nat) (h : 0x80 ≤ b ∧ b < 0xC2) : first b = 0xF1 := by
  have h1 : ¬ b < 0x80 := by omega
  have h2 : b < 0xC2 := by omega
  simp only [first, h1, h2, if_true, if_false]

theorem first_xx_hi (b : Nat) (h : 0xF4 < b) : first b = 0xF1 := by
  have h1 : ¬ b < 0x80 := by omega
  have h2 : ¬ b < 0xC2 := by omega
  have h3 : ¬ b < 0xE0 := by omega
  have h4 : ¬ b = 0xE0 := by omega
  have h5 : ¬ b < 0xED := by omega
  have h6 : ¬ b = 0xED := by omega
  have h7 : ¬ b < 0xF0 := by omega
  have h8 : ¬ b = 0xF0 := by omega
  have h9 : ¬ b < 0xF4 := by omega
  have h10 : ¬ b = 0xF4 := by omega
  simp only [first, h1, h2, h3, h4, h5, h6, h7, h8, h9, h10, if_false]

theorem first_s1 (b : Nat) (h : 0xC2 ≤ b ∧ b ≤ 0xDF) : first b = 0x02 := by
  have h1 : ¬ b < 0x80 := by omega
  have h2 : ¬ b < 0xC2 := by omega
  have h3 : b < 0xE0 := by omega
  simp only [first, h1, h2, h3, if_true, if_false]

theorem first_s2 : first 0xE0 = 0x13 := by decide

theorem first_s3 (b : Nat) (h : 0xE1 ≤ b ∧ b ≤ 0xEF ∧ b ≠ 0xED) : first b = 0x03 := by
  have h1 : ¬ b < 0x80 := by omega
  have h2 : ¬ b < 0xC2 := by omega
  have h3 : ¬ b < 0xE0 := by omega
  have h4 : ¬ b = 0xE0 := by omega
  have h6 : ¬ b = 0xED := by omega
  by_cases h5 : b < 0xED
  · simp only [first, h1, h2, h3, h4, h5, if_true, if_false]
  · have h7 : b < 0xF0 := by omega
    simp only [first, h1, h2, h3, h4, h5, h6, h7, if_true, if_false]

theorem first_s4 : first 0xED = 0x23 := by decide

theorem first_s5 : first 0xF0 = 0x34 := by decide

theorem first_s6 (b : Nat) (h : 0xF1 ≤ b ∧ b ≤ 0xF3) : first b = 0x04 := by
  have h1 : ¬ b < 0x80 := by omega
  have h2 : ¬ b < 0xC2 := by omega
  have h3 : ¬ b < 0xE0 := by omega
  have h4 : ¬ b = 0xE0 := by omega
  have h5 : ¬ b < 0xED := by omega
  have h6 : ¬ b = 0xED := by omega
  have h7 : ¬ b < 0xF0 := by omega
  have h8 : ¬ b = 0xF0 := by omega
  have h9 : b < 0xF4 := by omega
  simp only [first, h1, h2, h3, h4, h5, h6, h7, h8, h9, if_true, if_false]

theorem first_s7 : first 0xF4 = 0x44 := by decide

theorem byte_ranges (b : Nat) :
    b < 0xC2 ∨ (0xC2 ≤ b ∧ b ≤ 0xDF) ∨ b = 0xE0
      ∨ (0xE1 ≤ b ∧ b ≤ 0xEF ∧ b ≠ 0xED) ∨ b = 0xED ∨ b = 0xF0 ∨ (0xF1 ≤ b ∧ b ≤ 0xF3)
      ∨ b = 0xF4 ∨ 0xF4 < b := by
  omega

theorem decodeRune_cases (s0 : Nat) (t : Bytes) (h80 : 0x80 ≤ s0) :
    decodeRune (s0 :: t) = (RuneError, 1)
      ∨ RuneShape (s0 :: t) (decodeRune (s0 :: t)).1 (decodeRune (s0 :: t)).2 := by
  rcases byte_ranges s0 with h | h | h | h | h | h | h | h | h
  · left; simp [decodeRune, first_xx_lo s0 ⟨h80, h⟩]
  · have hf := first_s1 s0 h
    rcases t with _ | ⟨s1, t1⟩
    · left; simp [decodeRune, hf]
    · by_cases h1 : s1 < 0x80 ∨ 0xBF < s1
      · left; simp [decodeRune, hf, acceptLo, acceptHi, h1]
      · right
        have : decodeRune (s0 :: s1 :: t1) = (s0 % 32 * 64 + s1 % 64, 2) := by
          simp [decodeRune, hf, acceptLo, acceptHi, h1]
        rw [this]
        exact RuneShape.two s0 s1 t1 (by omega) (by omega)
  · have hf : first s0 = 0x13 := h ▸ first_s2
    rcases t with _ | ⟨s1, _ | ⟨s2, t2⟩⟩
    · left; simp [decodeRune, hf]
    · left; simp [decodeRune, hf]
    · by_cases h1 : s1 < 0xA0 ∨ 0xBF < s1
      · left; simp [decodeRune, hf, acceptLo, acceptHi, h1]
      · by_cases h2 : s2 < 0x80 ∨ 0xBF < s2
        · left; simp [decodeRune, hf, acceptLo, acceptHi, h1, h2]
        · right
          have : decodeRune (s0 :: s1 :: s2 :: t2)
              = (s0 % 16 * 4096 + s1 % 64 * 64 + s2 % 64, 3) := by
            simp [decodeRune, hf, acceptLo, acceptHi, h1, h2]
          rw [this]
          exact RuneShape.three s0 s1 s2 t2 (by omega) (by omega) (by omega) (by omega)
            (by omega)
  · have hf : first s0 = 0x03 := first_s3 s0 h
    rcases t with _ | ⟨s1, _ | ⟨s2, t2⟩⟩
    · left; simp [decodeRune, hf]
    · left; simp [decodeRune, hf]
    · by_cases h1 : s1 < 0x80 ∨ 0xBF < s1
      · left; simp [decodeRune, hf, acceptLo, acceptHi, h1]
      · by_cases h2 : s2 < 0x80 ∨ 0xBF < s2
        · left; simp [decodeRune, hf, acceptLo, acceptHi, h1, h2]
        · right
          have : decodeRune (s0 :: s1 :: s2 :: t2)
              = (s0 % 16 * 4096 + s1 % 64 * 64 + s2 % 64, 3) := by
            simp [decodeRune, hf, acceptLo, acceptHi, h1, h2]
          rw [this]
          exact RuneShape.three s0 s1 s2 t2 (by omega) (by omega) (by omega) (by omega)
            (by omega)
  · have hf : first s0 = 0x23 := h ▸ first_s4
    rcases t with _ | ⟨s1, _ | ⟨s2, t2⟩⟩
    · left; simp [decodeRune, hf]
    · left; simp [decodeRune, hf]
    · by_cases h1 : s1 < 0x80 ∨ 0x9F < s1
      · left; simp [decodeRune, hf, acceptLo, acceptHi, h1]
      · by_cases h2 : s2 < 0x80 ∨ 0xBF < s2
        · left; simp [decodeRune, hf, acceptLo, acceptHi, h1, h2]
        · right
          have : decodeRune (s0 :: s1 :: s2 :: t2)
              = (s0 % 16 * 4096 + s1 % 64 * 64 + s2 % 64, 3) := by
            simp [decodeRune, hf, acceptLo, acceptHi, h1, h2]
          rw [this]
          exact RuneShape.three s0 s1 s2 t2 (by omega) (by omega) (by omega) (by omega)
            (by omega)
  · have hf : first s0 = 0x34 := h ▸ first_s5
    rcases t with _ | ⟨s1, _ | ⟨s2, _ | ⟨s3, t3⟩⟩⟩
    · left; simp [decodeRune, hf]
    · left; simp [decodeRune, hf]
    · left; simp [decodeRune, hf]
    · by_cases h1 : s1 < 0x90 ∨ 0xBF < s1
      · left; simp [decodeRune, hf, acceptLo, acceptHi, h1]
      · by_cases h2 : s2 < 0x80 ∨ 0xBF < s2
        · left; simp [decodeRune, hf, acceptLo, acceptHi, h1, h2]
        · by_cases h3 : s3 < 0x80 ∨ 0xBF < s3
          · left; simp [decodeRune, hf, acceptLo, acceptHi, h1, h2, h3]
          · right
            have : decodeRune (s0 :: s1 :: s2 :: s3 :: t3)
                = (s0 % 8 * 262144 + s1 % 64 * 4096 + s2 % 64 * 64 + s3 % 64, 4) := by
              simp [decodeRune, hf, acceptLo, acceptHi, h1, h2, h3]
            rw [this]
            exact RuneShape.four s0 s1 s2 s3 t3 (by omega) (by omega) (by omega) (by omega)
              (by omega) (by omega)
  · have hf : first s0 = 0x04 := first_s6 s0 h
    rcases t with _ | ⟨s1, _ | ⟨s2, _ | ⟨s3, t3⟩⟩⟩
    · left; simp [decodeRune, hf]
    · left; simp [decodeRune, hf]
    · left; simp [decodeRune, hf]
    · by_cases h1 : s1 < 0x80 ∨ 0xBF < s1
      · left; simp [decodeRune, hf, acceptLo, acceptHi, h1]
      · by_cases h2 : s2 < 0x80 ∨ 0xBF < s2
        · left; simp [decodeRune, hf, acceptLo, acceptHi, h1, h2]
        · by_cases h3 : s3 < 0x80 ∨ 0xBF < s3
          · left; simp [decodeRune, hf, acceptLo, acceptHi, h1, h2, h3]
          · right
            have : decodeRune (s0 :: s1 :: s2 :: s3 :: t3)
                = (s0 % 8 * 262144 + s1 % 64 * 4096 + s2 % 64 * 64 + s3 % 64, 4) := by
              simp [decodeRune, hf, acceptLo, acceptHi, h1, h2, h3]
            rw [this]
            exact RuneShape.four s0 s1 s2 s3 t3 (by omega) (by omega) (by omega) (by omega)
              (by omega) (by omega)
  · have hf : first s0 = 0x44 := h ▸ first_s7
    rcases t with _ | ⟨s1, _ | ⟨s2, _ | ⟨s3, t3⟩⟩⟩
    · left; simp [decodeRune, hf]
    · left; simp [decodeRune, hf]
    · left; simp [decodeRune, hf]
    · by_cases h1 : s1 < 0x80 ∨ 0x8F < s1
      · left; simp [decodeRune, hf, acceptLo, acceptHi, h1]
      · by_cases h2 : s2 < 0x80 ∨ 0xBF < s2
        · left; simp [decodeRune, hf, acceptLo, acceptHi, h1, h2]
        · by_cases h3 : s3 < 0x80 ∨ 0xBF < s3
          · left; simp [decodeRune, hf, acceptLo, acceptHi, h1, h2, h3]
          · right
            have : decodeRune (s0 :: s1 :: s2 :: s3 :: t3)
                = (s0 % 8 * 262144 + s1 % 64 * 4096 + s2 % 64 * 64 + s3 % 64, 4) := by
              simp [decodeRune, hf, acceptLo, acceptHi, h1, h2, h3]
            rw [this]
            exact RuneShape.four s0 s1 s2 s3 t3 (by omega) (by omega) (by omega) (by omega)
              (by omega) (by omega)
  · left; simp [decodeRune, first_xx_hi s0 h]

theorem encodeRune_two (r : Nat) (h : 0x80 ≤ r ∧ r ≤ 0x7FF) :
    encodeRune r = [0xC0 + r / 64, 0x80 + r % 64] := by
  have h1 : ¬ r ≤ 0x7F := by omega
  have h2 : r ≤ 0x7FF := h.2
  simp only [encodeRune, h1, h2, if_true, if_false]

theorem encodeRune_three (r : Nat) (h : 0x800 ≤ r ∧ r ≤ 0xFFFF)
    (hs : ¬ (0xD800 ≤ r ∧ r ≤ 0xDFFF)) :
    encodeRune r = [0xE0 + r / 4096, 0x80 + r / 64 % 64, 0x80 + r % 64] := by
  have h1 : ¬ r ≤ 0x7F := by omega
  have h2 : ¬ r ≤ 0x7FF := by omega
  have h3 : ¬ (0x10FFFF < r ∨ (0xD800 ≤ r ∧ r ≤ 0xDFFF)) := by omega
  have h4 : r ≤ 0xFFFF := h.2
  simp only [encodeRune, h1, h2, h3, h4, if_true, if_false]

theorem encodeRune_four (r : Nat) (h : 0x10000 ≤ r ∧ r ≤ 0x10FFFF) :
    encodeRune r
      = [0xF0 + r / 262144, 0x80 + r / 4096 % 64, 0x80 + r / 64 % 64, 0x80 + r % 64] := by
  have h1 : ¬ r ≤ 0x7F := by omega
  have h2 : ¬ r ≤ 0x7FF := by omega
  have h3 : ¬ (0x10FFFF < r ∨ (0xD800 ≤ r ∧ r ≤ 0xDFFF)) := by omega
  have h4 : ¬ r ≤ 0xFFFF := by omega
  simp only [encodeRune, h1, h2, h3, h4, if_false]

theorem encodeRune_bad (r : Nat) (h : 0x10FFFF < r ∨ (0xD800 ≤ r ∧ r ≤ 0xDFFF)) :
    encodeRune r = [0xEF, 0xBF, 0xBD] := by
  have h1 : ¬ r ≤ 0x7F := by omega
  have h2 : ¬ r ≤ 0x7FF := by omega
  simp only [encodeRune, h1, h2, h, if_true, if_false]

theorem runeShape_facts {s : Bytes} {r n : Nat} (h : RuneShape s r n) :
    encodeRune r = s.take n ∧ 0x80 ≤ r ∧ validRune r ∧ 2 ≤ n ∧ n ≤ 4 ∧ n ≤ s.length
      ∧ (∀ b ∈ s.take n, 0x80 ≤ b ∧ b < 0x100) := by
  cases h with
  | two s0 s1 t h0 h1 =>
    refine ⟨?_, by omega, ⟨by omega, by omega⟩, by omega, by omega, by simp, ?_⟩
    · rw [encodeRune_two _ (by omega)]
      simp only [List.take_succ_cons, List.take_zero, List.cons.injEq, and_true]
      omega
    · intro b hb
      simp only [List.take_succ_cons, List.take_zero, List.mem_cons, List.mem_nil_iff,
        or_false] at hb
      rcases hb with rfl | rfl <;> omega
  | three s0 s1 s2 t h0 h1 hE0 hED h2 =>
    refine ⟨?_, by omega, ⟨by omega, by omega⟩, by omega, by omega, by simp, ?_⟩
    · rw [encodeRune_three _ (by omega) (by omega)]
      simp only [List.take_succ_cons, List.take_zero, List.cons.injEq, and_true]
      omega
    · intro b hb
      simp only [List.take_succ_cons, List.take_zero, List.mem_cons, List.mem_nil_iff,
        or_false] at hb
      rcases hb with rfl | rfl | rfl <;> omega
  | four s0 s1 s2 s3 t h0 h1 hF0 hF4 h2 h3 =>
    refine ⟨?_, by omega, ⟨by omega, by omega⟩, by omega, by omega, by simp, ?_⟩
    · rw [encodeRune_four _ (by omega)]
      simp only [List.take_succ_cons, List.take_zero, List.cons.injEq, and_true]
      omega
    · intro b hb
      simp only [List.take_succ_cons, List.take_zero, List.mem_cons, List.mem_nil_iff,
        or_false] at hb
      rcases hb with rfl | rfl | rfl | rfl <;> omega

theorem runeShape_decode {s : Bytes} {r n : Nat} (h : RuneShape s r n) :
    decodeRune s = (r, n) := by
  cases h with
  | two s0 s1 t h0 h1 =>
    have h1a : ¬ (s1 < 0x80 ∨ 0xBF < s1) := by omega
    simp [decodeRune, first_s1 s0 h0, acceptLo, acceptHi, h1a]
  | three s0 s1 s2 t h0 h1 hE0 hED h2 =>
    have h2a : ¬ (s2 < 0x80 ∨ 0xBF < s2) := by omega
    by_cases e0 : s0 = 0xE0
    · have h1a : ¬ (s1 < 0xA0 ∨ 0xBF < s1) := by omega
      subst e0
      simp [decodeRune, first_s2, acceptLo, acceptHi, h1a, h2a]
    · by_cases ed : s0 = 0xED
      · have h1a : ¬ (s1 < 0x80 ∨ 0x9F < s1) := by omega
        subst ed
        simp [decodeRune, first_s4, acceptLo, acceptHi, h1a, h2a]
      · have h1a : ¬ (s1 < 0x80 ∨ 0xBF < s1) := by omega
        simp [decodeRune, first_s3 s0 (by omega), acceptLo, acceptHi, h1a, h2a]
  | four s0 s1 s2 s3 t h0 h1 hF0 hF4 h2 h3 =>
    have h2a : ¬ (s2 < 0x80 ∨ 0xBF < s2) := by omega
    have h3a : ¬ (s3 < 0x80 ∨ 0xBF < s3) := by omega
    by_cases e0 : s0 = 0xF0
    · have h1a : ¬ (s1 < 0x90 ∨ 0xBF < s1) := by omega
      subst e0
      simp [decodeRune, first_s5, acceptLo, acceptHi, h1a, h2a, h3a]
    · by_cases e4 : s0 = 0xF4
      · have h1a : ¬ (s1 < 0x80 ∨ 0x8F < s1) := by omega
        subst e4
        simp [decodeRune, first_s7, acceptLo, acceptHi, h1a, h2a, h3a]
      · have h1a : ¬ (s1 < 0x80 ∨ 0xBF < s1) := by omega
        simp [decodeRune, first_s6 s0 (by omega), acceptLo, acceptHi, h1a, h2a, h3a]

theorem runeShape_append {s : Bytes} {r n : Nat} (h : RuneShape s r n) (t : Bytes) :
    RuneShape (s.take n ++ t) r n := by
  cases h with
  | two s0 s1 t0 h0 h1 => exact RuneShape.two s0 s1 t h0 h1
  | three s0 s1 s2 t0 h0 h1 hE0 hED h2 => exact RuneShape.three s0 s1 s2 t h0 h1 hE0 hED h2
  | four s0 s1 s2 s3 t0 h0 h1 hF0 hF4 h2 h3 =>
    exact RuneShape.four s0 s1 s2 s3 t h0 h1 hF0 hF4 h2 h3

theorem encodeRune_shape (r : Nat) (h80 : 0x80 ≤ r) (t : Bytes) :
    RuneShape (encodeRune r ++ t) (fixRune r) (encodeRune r).length := by
  by_cases hbad : 0x10FFFF < r ∨ (0xD800 ≤ r ∧ r ≤ 0xDFFF)
  · rw [encodeRune_bad r hbad]
    have : fixRune r = 0xEF % 16 * 4096 + 0xBF % 64 * 64 + 0xBD % 64 := by
      simp [fixRune, hbad, RuneError]
    rw [this]
    exact RuneShape.three 0xEF 0xBF 0xBD t (by omega) (by omega) (by omega) (by omega) (by omega)
  · have hfix : fixRune r = r := by simp only [fixRune, hbad, if_false]
    rw [hfix]
    by_cases h2 : r ≤ 0x7FF
    · rw [encodeRune_two r ⟨h80, h2⟩]
      have hr : r = (0xC0 + r / 64) % 32 * 64 + (0x80 + r % 64) % 64 := by omega
      have := RuneShape.two (0xC0 + r / 64) (0x80 + r % 64) t (by omega) (by omega)
      rw [← hr] at this
      exact this
    · by_cases h3 : r ≤ 0xFFFF
      · rw [encodeRune_three r (by omega) (by omega)]
        have hr : r = (0xE0 + r / 4096) % 16 * 4096 + (0x80 + r / 64 % 64) % 64 * 64
            + (0x80 + r % 64) % 64 := by omega
        have := RuneShape.three (0xE0 + r / 4096) (0x80 + r / 64 % 64) (0x80 + r % 64) t
          (by omega) (by omega) (by omega) (by omega) (by omega)
        rw [← hr] at this
        exact this
      · rw [encodeRune_four r (by omega)]
        have hr : r = (0xF0 + r / 262144) % 8 * 262144 + (0x80 + r / 4096 % 64) % 64 * 4096
            + (0x80 + r / 64 % 64) % 64 * 64 + (0x80 + r % 64) % 64 := by omega
        have := RuneShape.four (0xF0 + r / 262144) (0x80 + r / 4096 % 64)
          (0x80 + r / 64 % 64) (0x80 + r % 64) t
          (by omega) (by omega) (by omega) (by omega) (by omega) (by omega)
        rw [← hr] at this
        exact this

/-! ### Scanning what `appendString` wrote -/

theorem pushRawL_nil (r : Option (Bytes × Bytes)) : pushRawL [] r = r := by
  cases r <;> simp [pushRawL]

theorem pushRaw_pushRawL (c : Nat) (p : Bytes) (r : Option (Bytes × Bytes)) :
    pushRaw c (pushRawL p r) = pushRawL (c :: p) r := by
  cases r <;> simp [pushRaw, pushRawL]

theorem pushRawL_append (p q : Bytes) (r : Option (Bytes × Bytes)) :
    pushRawL p (pushRawL q r) = pushRawL (p ++ q) r := by
  cases r <;> simp [pushRawL]

theorem pushRawL_some (p x rest : Bytes) :
    pushRawL p (some (x, rest)) = some (p ++ x, rest) := rfl

theorem scan_plain (c : Nat) (t : Bytes) (h1 : c ≠ 0x22) (h2 : c ≠ 0x5C) (h3 : ¬ c < 0x20) :
    scanString .inString (c :: t) = pushRaw c (scanString .inString t) := by
  simp only [scanString, h1, h2, h3, if_false]

theorem scan_plain_list (p t : Bytes) (h : ∀ c ∈ p, c ≠ 0x22 ∧ c ≠ 0x5C ∧ ¬ c < 0x20) :
    scanString .inString (p ++ t) = pushRawL p (scanString .inString t) := by
  induction p with
  | nil => simp [pushRawL_nil]
  | cons c p ih =>
    have hc := h c (List.mem_cons_self c p)
    rw [List.cons_append, scan_plain c _ hc.1 hc.2.1 hc.2.2,
      ih (fun x hx => h x (List.mem_cons_of_mem c hx)), pushRaw_pushRawL]

theorem isHex_hexDigit (n : Nat) (h : n < 16) : isHex (hexDigit n) = true := by
  interval_cases n <;> decide

theorem hexVal_hexDigit (n : Nat) (h : n < 16) : hexVal (hexDigit n) = some n := by
  interval_cases n <;> decide

theorem scan_esc2 (e : Nat) (t : Bytes)
    (he : e = 0x62 ∨ e = 0x66 ∨ e = 0x6E ∨ e = 0x72 ∨ e = 0x74 ∨ e = 0x5C ∨ e = 0x2F ∨ e = 0x22) :
    scanString .inString (0x5C :: e :: t) = pushRawL [0x5C, e] (scanString .inString t) := by
  have h1 : (0x5C : Nat) ≠ 0x22 := by decide
  simp only [scanString, h1, he, if_true, if_false, pushRaw_pushRawL]
  cases scanString .inString t <;> simp [pushRaw, pushRawL]

theorem scan_u (a b c d : Nat) (t : Bytes) (ha : isHex a = true) (hb : isHex b = true)
    (hc : isHex c = true) (hd : isHex d = true) :
    scanString .inString (0x5C :: 0x75 :: a :: b :: c :: d :: t)
      = pushRawL [0x5C, 0x75, a, b, c, d] (scanString .inString t) := by
  have h1 : (0x5C : Nat) ≠ 0x22 := by decide
  have h2 : ¬ ((0x75 : Nat) = 0x62 ∨ (0x75 : Nat) = 0x66 ∨ (0x75 : Nat) = 0x6E
      ∨ (0x75 : Nat) = 0x72 ∨ (0x75 : Nat) = 0x74 ∨ (0x75 : Nat) = 0x5C ∨ (0x75 : Nat) = 0x2F
      ∨ (0x75 : Nat) = 0x22) := by decide
  simp only [scanString, h1, h2, ha, hb, hc, hd, if_true, if_false]
  cases scanString .inString t <;> simp [pushRaw, pushRawL]

theorem scan_escapeByte (b : Nat) (t : Bytes) (hb : b < 0x80) :
    scanString .inString (escapeByte b ++ t)
      = pushRawL (escapeByte b) (scanString .inString t) := by
  unfold escapeByte
  by_cases h1 : b = 0x5C ∨ b = 0x22
  · rw [if_pos h1]
    exact scan_esc2 b t (by omega)
  rw [if_neg h1]
  by_cases h2 : b = 0x08
  · rw [if_pos h2]; exact scan_esc2 _ t (by decide)
  rw [if_neg h2]
  by_cases h3 : b = 0x0C
  · rw [if_pos h3]; exact scan_esc2 _ t (by decide)
  rw [if_neg h3]
  by_cases h4 : b = 0x0A
  · rw [if_pos h4]; exact scan_esc2 _ t (by decide)
  rw [if_neg h4]
  by_cases h5 : b = 0x0D
  · rw [if_pos h5]; exact scan_esc2 _ t (by decide)
  rw [if_neg h5]
  by_cases h6 : b = 0x09
  · rw [if_pos h6]; exact scan_esc2 _ t (by decide)
  rw [if_neg h6]
  exact scan_u _ _ _ _ t (by decide) (by decide) (isHex_hexDigit _ (by omega))
    (isHex_hexDigit _ (by omega))

theorem htmlSafeSet_plain (b : Nat) (h : htmlSafeSet b = true) :
    b ≠ 0x22 ∧ b ≠ 0x5C ∧ ¬ b < 0x20 ∧ b < 0x80 := by
  simp only [htmlSafeSet, decide_eq_true_eq] at h
  omega

theorem badRune_false_shape (b : Nat) (rest : Bytes) (h80 : ¬ b < 0x80)
    (hb : ¬ badRune (b :: rest) = true) :
    RuneShape (b :: rest) (decodeRune (b :: rest)).1 (decodeRune (b :: rest)).2 := by
  rcases decodeRune_cases b rest (by omega) with h | h
  · exfalso; apply hb
    simp [badRune, h]
  · exact h

theorem scanString_appendStringAux (n : Nat) : ∀ (s rest : Bytes), s.length ≤ n →
    scanString .inString (appendStringAux n s ++ 0x22 :: rest)
      = some (appendStringAux n s, rest) := by
  induction n with
  | zero =>
    intro s rest _
    simp [appendStringAux, scanString]
  | succ n ih =>
    intro s rest hlen
    rcases s with _ | ⟨b, t⟩
    · simp [appendStringAux, scanString]
    · have hlen1 : t.length ≤ n := by simpa using hlen
      simp only [appendStringAux]
      by_cases h80 : b < 0x80
      · rw [if_pos h80]
        by_cases hs : htmlSafeSet b = true
        · rw [if_pos hs]
          have hp := htmlSafeSet_plain b hs
          rw [List.append_assoc, List.singleton_append, scan_plain b _ hp.1 hp.2.1 hp.2.2.1,
            ih t rest hlen1]
          rfl
        · rw [if_neg hs, List.append_assoc, scan_escapeByte b _ h80, ih t rest hlen1]
          rfl
      · rw [if_neg h80]
        by_cases hbad : badRune (b :: t) = true
        · rw [if_pos hbad, List.append_assoc]
          have := scan_u 0x66 0x66 0x66 0x64 (appendStringAux n t ++ 0x22 :: rest)
            (by decide) (by decide) (by decide) (by decide)
          rw [List.cons_append, List.cons_append, List.cons_append, List.cons_append,
            List.cons_append, List.cons_append, List.nil_append, this, ih t rest hlen1]
          rfl
        · rw [if_neg hbad]
          have hshape := badRune_false_shape b t h80 hbad
          have hf := (runeShape_facts hshape)
          have hdrop : ((b :: t).drop (decodeRune (b :: t)).2).length ≤ n := by
            rw [List.length_drop]
            simp only [List.length_cons] at hlen ⊢
            omega
          by_cases hls : (decodeRune (b :: t)).1 = 0x2028 ∨ (decodeRune (b :: t)).1 = 0x2029
          · rw [if_pos hls, List.append_assoc]
            have := scan_u 0x32 0x30 0x32 (hexDigit ((decodeRune (b :: t)).1 % 16))
              (appendStringAux n ((b :: t).drop (decodeRune (b :: t)).2) ++ 0x22 :: rest)
              (by decide) (by decide) (by decide) (isHex_hexDigit _ (by omega))
            rw [List.cons_append, List.cons_append, List.cons_append, List.cons_append,
              List.cons_append, List.cons_append, List.nil_append, this, ih _ rest hdrop]
            rfl
          · rw [if_neg hls, List.append_assoc, scan_plain_list _ _ (fun c hc => by
              have := hf.2.2.2.2.2.2 c hc
              omega), ih _ rest hdrop]
            rfl

/-! ### Unquoting what `appendString` wrote -/

theorem pushOut_some (p x : Bytes) : pushOut p (some x) = some (p ++ x) := rfl

theorem unq_plain (m c : Nat) (t : Bytes) (h1 : c ≠ 0x5C) (h2 : c ≠ 0x22) (h3 : ¬ c < 0x20)
    (h4 : c < 0x80) : unquoteAux (m + 1) (c :: t) = pushOut [c] (unquoteAux m t) := by
  have h5 : ¬ (c = 0x22 ∨ c < 0x20) := by omega
  simp only [unquoteAux, unquoteStep, h1, h5, h4, if_true, if_false]

theorem unq_multi (m c : Nat) (t : Bytes) (h80 : ¬ c < 0x80) :
    unquoteAux (m + 1) (c :: t)
      = pushOut (encodeRune (decodeRune (c :: t)).1)
          (unquoteAux m ((c :: t).drop (decodeRune (c :: t)).2)) := by
  have h1 : c ≠ 0x5C := by omega
  have h5 : ¬ (c = 0x22 ∨ c < 0x20) := by omega
  simp only [unquoteAux, unquoteStep, h1, h5, h80, if_false]

theorem unq_quote (m : Nat) (t : Bytes) :
    unquoteAux (m + 1) (0x5C :: 0x22 :: t) = pushOut [0x22] (unquoteAux m t) := by
  simp [unquoteAux, unquoteStep]

theorem unq_backslash (m : Nat) (t : Bytes) :
    unquoteAux (m + 1) (0x5C :: 0x5C :: t) = pushOut [0x5C] (unquoteAux m t) := by
  simp [unquoteAux, unquoteStep]

theorem unq_b (m : Nat) (t : Bytes) :
    unquoteAux (m + 1) (0x5C :: 0x62 :: t) = pushOut [0x08] (unquoteAux m t) := by
  simp [unquoteAux, unquoteStep]

theorem unq_f (m : Nat) (t : Bytes) :
    unquoteAux (m + 1) (0x5C :: 0x66 :: t) = pushOut [0x0C] (unquoteAux m t) := by
  simp [unquoteAux, unquoteStep]

theorem unq_n (m : Nat) (t : Bytes) :
    unquoteAux (m + 1) (0x5C :: 0x6E :: t) = pushOut [0x0A] (unquoteAux m t) := by
  simp [unquoteAux, unquoteStep]

theorem unq_r (m : Nat) (t : Bytes) :
    unquoteAux (m + 1) (0x5C :: 0x72 :: t) = pushOut [0x0D] (unquoteAux m t) := by
  simp [unquoteAux, unquoteStep]

theorem unq_t (m : Nat) (t : Bytes) :
    unquoteAux (m + 1) (0x5C :: 0x74 :: t) = pushOut [0x09] (unquoteAux m t) := by
  simp [unquoteAux, unquoteStep]

theorem unq_u (m a b c d rr : Nat) (t : Bytes)
    (h : getu4 (0x5C :: 0x75 :: a :: b :: c :: d :: t) = some rr)
    (hns : ¬ (0xD800 ≤ rr ∧ rr < 0xE000)) :
    unquoteAux (m + 1) (0x5C :: 0x75 :: a :: b :: c :: d :: t)
      = pushOut (encodeRune rr) (unquoteAux m t) := by
  simp [unquoteAux, unquoteStep, h, hns]

theorem getu4_hex (x y z w : Nat) (t : Bytes) (hx : x < 16) (hy : y < 16) (hz : z < 16)
    (hw : w < 16) :
    getu4 (0x5C :: 0x75 :: hexDigit x :: hexDigit y :: hexDigit z :: hexDigit w :: t)
      = some (((x * 16 + y) * 16 + z) * 16 + w) := by
  simp [getu4, hexVal_hexDigit, hx, hy, hz, hw]

theorem unq_escapeByte (m b : Nat) (t : Bytes) (hb : b < 0x80)
    (hlen : (escapeByte b ++ t).length ≤ m + 1) :
    unquoteAux (m + 1) (escapeByte b ++ t) = pushOut [b] (unquoteAux m t) := by
  unfold escapeByte
  by_cases h1 : b = 0x5C ∨ b = 0x22
  · rw [if_pos h1]
    rcases h1 with rfl | rfl
    · exact unq_backslash m t
    · exact unq_quote m t
  rw [if_neg h1]
  by_cases h2 : b = 0x08
  · rw [if_pos h2, h2]; exact unq_b m t
  rw [if_neg h2]
  by_cases h3 : b = 0x0C
  · rw [if_pos h3, h3]; exact unq_f m t
  rw [if_neg h3]
  by_cases h4 : b = 0x0A
  · rw [if_pos h4, h4]; exact unq_n m t
  rw [if_neg h4]
  by_cases h5 : b = 0x0D
  · rw [if_pos h5, h5]; exact unq_r m t
  rw [if_neg h5]
  by_cases h6 : b = 0x09
  · rw [if_pos h6, h6]; exact unq_t m t
  rw [if_neg h6]
  have hg := getu4_hex 0 0 (b / 16) (b % 16) t (by omega) (by omega) (by omega) (by omega)
  have hd0 : hexDigit 0 = 0x30 := by decide
  rw [hd0] at hg
  have hv : ((0 * 16 + 0) * 16 + b / 16) * 16 + b % 16 = b := by omega
  rw [hv] at hg
  have := unq_u m 0x30 0x30 (hexDigit (b / 16)) (hexDigit (b % 16)) b t hg (by omega)
  have he : encodeRune b = [b] := by
    have : b ≤ 0x7F := by omega
    simp only [encodeRune, this, if_true]
  rw [he] at this
  exact this

theorem unq_shape (m : Nat) (s E : Bytes) (r k : Nat) (h : RuneShape s r k) :
    unquoteAux (m + 1) (s.take k ++ E) = pushOut (s.take k) (unquoteAux m E) := by
  have hf := (runeShape_facts h)
  have hd := (runeShape_decode (runeShape_append h E))
  obtain ⟨c, t, hct⟩ : ∃ c t, s.take k ++ E = c :: t := by
    cases hs : s.take k ++ E with
    | nil =>
      have : (s.take k ++ E).length = 0 := by rw [hs]; rfl
      rw [List.length_append, List.length_take] at this
      omega
    | cons c t => exact ⟨c, t, rfl⟩
  have hc : ¬ c < 0x80 := by
    have hmem : c ∈ s.take k := by
      cases hs : s.take k with
      | nil =>
        have : (s.take k).length = 0 := by rw [hs]; rfl
        rw [List.length_take] at this
        omega
      | cons c' t' =>
        rw [hs, List.cons_append] at hct
        injection hct with h1 h2
        rw [h1]
        exact List.mem_cons_self _ _
    have := hf.2.2.2.2.2.2 c hmem
    omega
  rw [hct, unq_multi m c t hc, ← hct, hd]
  simp only
  rw [hf.1]
  congr 2
  rw [List.drop_append_of_le_length (by rw [List.length_take]; omega)]
  rw [List.drop_eq_nil_of_le (by rw [List.length_take]; omega)]
  rfl

theorem unquoteAux_appendStringAux (n : Nat) : ∀ (s : Bytes) (m : Nat), s.length ≤ n →
    (appendStringAux n s).length ≤ m →
    unquoteAux m (appendStringAux n s) = some (coerceAux n s) := by
  induction n with
  | zero =>
    intro s m _ _
    simp [appendStringAux, unquoteAux, coerceAux]
  | succ n ih =>
    intro s m hlen hm
    rcases s with _ | ⟨b, t⟩
    · simp [appendStringAux, unquoteAux, coerceAux]
    · have hlen1 : t.length ≤ n := by simpa using hlen
      simp only [appendStringAux, coerceAux] at hm ⊢
      by_cases h80 : b < 0x80
      · rw [if_pos h80] at hm ⊢
        rw [if_pos h80]
        by_cases hs : htmlSafeSet b = true
        · rw [if_pos hs] at hm ⊢
          have hp := htmlSafeSet_plain b hs
          obtain ⟨m', rfl⟩ : ∃ m', m = m' + 1 := by
            refine ⟨m - 1, ?_⟩
            simp only [List.length_append, List.length_singleton] at hm
            omega
          rw [List.singleton_append, unq_plain m' b _ hp.2.1 hp.1 hp.2.2.1 hp.2.2.2,
            ih t m' hlen1 (by simpa using hm)]
          rfl
        · rw [if_neg hs] at hm ⊢
          have hne : 0 < (escapeByte b).length := by
            unfold escapeByte
            repeat' split
            all_goals simp
          obtain ⟨m', rfl⟩ : ∃ m', m = m' + 1 := by
            refine ⟨m - 1, ?_⟩
            simp only [List.length_append] at hm
            omega
          rw [unq_escapeByte m' b _ h80 hm, ih t m' hlen1 (by
            simp only [List.length_append] at hm
            omega)]
          rfl
      · rw [if_neg h80] at hm ⊢
        rw [if_neg h80]
        by_cases hbad : badRune (b :: t) = true
        · rw [if_pos hbad] at hm ⊢
          rw [if_pos hbad]
          obtain ⟨m', rfl⟩ : ∃ m', m = m' + 1 := by
            refine ⟨m - 1, ?_⟩
            simp only [List.length_append, List.length_cons] at hm
            omega
          have hg := getu4_hex 15 15 15 13 (appendStringAux n t)
            (by omega) (by omega) (by omega) (by omega)
          have := unq_u m' 0x66 0x66 0x66 0x64 _ (appendStringAux n t) hg (by omega)
          rw [List.cons_append, List.cons_append, List.cons_append, List.cons_append,
            List.cons_append, List.cons_append, List.nil_append, this,
            ih t m' hlen1 (by
              simp only [List.length_append, List.length_cons] at hm
              omega)]
          rfl
        · rw [if_neg hbad] at hm ⊢
          rw [if_neg hbad]
          have hshape := badRune_false_shape b t h80 hbad
          have hf := (runeShape_facts hshape)
          have hdrop : ((b :: t).drop (decodeRune (b :: t)).2).length ≤ n := by
            rw [List.length_drop]
            simp only [List.length_cons] at hlen ⊢
            omega
          by_cases hls : (decodeRune (b :: t)).1 = 0x2028 ∨ (decodeRune (b :: t)).1 = 0x2029
          · rw [if_pos hls] at hm ⊢
            obtain ⟨m', rfl⟩ : ∃ m', m = m' + 1 := by
              refine ⟨m - 1, ?_⟩
              simp only [List.length_append, List.length_cons] at hm
              omega
            have hg := getu4_hex 2 0 2 ((decodeRune (b :: t)).1 % 16)
              (appendStringAux n ((b :: t).drop (decodeRune (b :: t)).2))
              (by omega) (by omega) (by omega) (by omega)
            have hv : ((2 * 16 + 0) * 16 + 2) * 16 + (decodeRune (b :: t)).1 % 16
                = (decodeRune (b :: t)).1 := by omega
            rw [hv] at hg
            have h2 : hexDigit 2 = 0x32 := by decide
            have h0 : hexDigit 0 = 0x30 := by decide
            rw [h2, h0] at hg
            have := unq_u m' 0x32 0x30 0x32 (hexDigit ((decodeRune (b :: t)).1 % 16)) _
              (appendStringAux n ((b :: t).drop (decodeRune (b :: t)).2)) hg (by omega)
            rw [List.cons_append, List.cons_append, List.cons_append, List.cons_append,
              List.cons_append, List.cons_append, List.nil_append, this,
              ih _ m' hdrop (by
                simp only [List.length_append, List.length_cons] at hm
                omega), hf.1]
            rfl
          · rw [if_neg hls] at hm ⊢
            obtain ⟨m', rfl⟩ : ∃ m', m = m' + 1 := by
              refine ⟨m - 1, ?_⟩
              simp only [List.length_append, List.length_take] at hm
              omega
            rw [unq_shape m' _ _ _ _ hshape, ih _ m' hdrop (by
              simp only [List.length_append, List.length_take] at hm
              omega)]
            rfl

/-! ### Well-formed UTF-8 -/

theorem runeShape_head_ge {s : Bytes} {r k : Nat} (h : RuneShape s r k) :
    ∃ c t, s = c :: t ∧ ¬ c < 0x80 := by
  cases h with
  | two s0 s1 t h0 h1 => exact ⟨s0, _, rfl, by omega⟩
  | three s0 s1 s2 t h0 h1 hE0 hED h2 => exact ⟨s0, _, rfl, by omega⟩
  | four s0 s1 s2 s3 t h0 h1 hF0 hF4 h2 h3 => exact ⟨s0, _, rfl, by omega⟩

theorem runeShape_not_bad {s : Bytes} {r k : Nat} (h : RuneShape s r k) :
    ¬ badRune s = true := by
  have hd := (runeShape_decode h)
  have hf := (runeShape_facts h)
  simp only [badRune, hd, decide_eq_true_eq]
  omega

theorem validAux_iff (n : Nat) : ∀ s : Bytes, s.length ≤ n → (validAux n s = true ↔ Valid s) := by
  induction n with
  | zero =>
    intro s hs
    have : s = [] := List.length_eq_zero.mp (by omega)
    subst this
    simp [validAux, Valid.nil]
  | succ n ih =>
    intro s hs
    rcases s with _ | ⟨b, t⟩
    · simp [validAux, Valid.nil]
    · have ht : t.length ≤ n := by simpa using hs
      simp only [validAux]
      by_cases h80 : b < 0x80
      · rw [if_pos h80, ih t ht]
        constructor
        · exact fun h => Valid.ascii b t h80 h
        · intro h
          cases h with
          | ascii _ _ _ ht' => exact ht'
          | rune _ r k hsh _ =>
            obtain ⟨c, t', hct, hc⟩ := (runeShape_head_ge hsh)
            injection hct with h1 h2
            omega
      · rw [if_neg h80]
        by_cases hbad : badRune (b :: t) = true
        · rw [if_pos hbad]
          constructor
          · intro h; cases h
          · intro h
            cases h with
            | ascii _ _ hb _ => omega
            | rune _ r k hsh _ => exact absurd hbad (runeShape_not_bad hsh)
        · rw [if_neg hbad]
          have hshape := badRune_false_shape b t h80 hbad
          have hf := (runeShape_facts hshape)
          have hdrop : ((b :: t).drop (decodeRune (b :: t)).2).length ≤ n := by
            rw [List.length_drop]
            simp only [List.length_cons] at hs ⊢
            omega
          rw [ih _ hdrop]
          constructor
          · exact fun h => Valid.rune _ _ _ hshape h
          · intro h
            cases h with
            | ascii _ _ hb _ => omega
            | rune _ r k hsh ht' =>
              have := (runeShape_decode hsh)
              rw [this]
              exact ht'

theorem validUTF8_iff (s : Bytes) : validUTF8 s = true ↔ Valid s :=
  validAux_iff s.length s (le_refl _)

theorem valid_coerceAux_eq {s : Bytes} (h : Valid s) : ∀ n, s.length ≤ n → coerceAux n s = s := by
  induction h with
  | nil => intro n _; cases n <;> rfl
  | ascii b t hb _ ih =>
    intro n hn
    obtain ⟨n', rfl⟩ : ∃ n', n = n' + 1 := ⟨n - 1, by simp only [List.length_cons] at hn; omega⟩
    simp only [coerceAux, hb, if_true]
    rw [ih n' (by simpa using hn)]
  | rune s r k hsh _ ih =>
    intro n hn
    obtain ⟨c, t, rfl, hc⟩ := (runeShape_head_ge hsh)
    obtain ⟨n', rfl⟩ : ∃ n', n = n' + 1 := ⟨n - 1, by simp only [List.length_cons] at hn; omega⟩
    have hf := (runeShape_facts hsh)
    simp only [coerceAux, hc, (runeShape_not_bad hsh), if_false, (runeShape_decode hsh)]
    rw [ih n' (by
      rw [List.length_drop]
      simp only [List.length_cons] at hn ⊢
      omega)]
    exact List.take_append_drop _ _

theorem coerceUTF8_of_valid (s : Bytes) (h : validUTF8 s = true) : coerceUTF8 s = s :=
  valid_coerceAux_eq ((validUTF8_iff s).mp h) s.length (le_refl _)

theorem valid_append {a : Bytes} (ha : Valid a) {b : Bytes} (hb : Valid b) : Valid (a ++ b) := by
  induction ha with
  | nil => simpa using hb
  | ascii c t hc _ ih => exact Valid.ascii c _ hc ih
  | rune s r k hsh _ ih =>
    have hf := (runeShape_facts hsh)
    have h1 : s ++ b = s.take k ++ (s.drop k ++ b) := by
      rw [← List.append_assoc, List.take_append_drop]
    rw [h1]
    refine Valid.rune _ r k (runeShape_append hsh _) ?_
    rw [List.drop_append_of_le_length (by rw [List.length_take]; omega),
      List.drop_eq_nil_of_le (by rw [List.length_take]; omega)]
    exact ih

theorem valid_encodeRune (r : Nat) : Valid (encodeRune r) := by
  by_cases h : r ≤ 0x7F
  · have : encodeRune r = [r] := by simp only [encodeRune, h, if_true]
    rw [this]
    exact Valid.ascii r [] (by omega) Valid.nil
  · have hsh := encodeRune_shape r (by omega) []
    rw [List.append_nil] at hsh
    refine Valid.rune _ _ _ hsh ?_
    rw [List.drop_length]
    exact Valid.nil

theorem valid_single (b : Nat) (hb : b < 0x80) : Valid [b] := Valid.ascii b [] hb Valid.nil

theorem pushOut_valid (p : Bytes) (hp : Valid p) (r : Option Bytes)
    (hr : ∀ t, r = some t → Valid t) : ∀ t, pushOut p r = some t → Valid t := by
  intro t ht
  cases r with
  | none => simp [pushOut] at ht
  | some x =>
    simp only [pushOut, Option.map_some', Option.some.injEq] at ht
    rw [← ht]
    exact valid_append hp (hr x rfl)

theorem unquoteStep_valid (k : Bytes → Option Bytes) (hk : ∀ x t, k x = some t → Valid t)
    (c : Nat) (rest t : Bytes) (h : unquoteStep k c rest = some t) : Valid t := by
  unfold unquoteStep at h
  by_cases h1 : c = 0x5C
  · rw [if_pos h1] at h
    rcases rest with _ | ⟨e, rest1⟩
    · simp at h
    · simp only at h
      by_cases e1 : e = 0x22 ∨ e = 0x5C ∨ e = 0x2F ∨ e = 0x27
      · rw [if_pos e1] at h
        exact pushOut_valid _ (valid_single e (by omega)) _ (hk _) t h
      rw [if_neg e1] at h
      by_cases e2 : e = 0x62
      · rw [if_pos e2] at h
        exact pushOut_valid _ (valid_single _ (by omega)) _ (hk _) t h
      rw [if_neg e2] at h
      by_cases e3 : e = 0x66
      · rw [if_pos e3] at h
        exact pushOut_valid _ (valid_single _ (by omega)) _ (hk _) t h
      rw [if_neg e3] at h
      by_cases e4 : e = 0x6E
      · rw [if_pos e4] at h
        exact pushOut_valid _ (valid_single _ (by omega)) _ (hk _) t h
      rw [if_neg e4] at h
      by_cases e5 : e = 0x72
      · rw [if_pos e5] at h
        exact pushOut_valid _ (valid_single _ (by omega)) _ (hk _) t h
      rw [if_neg e5] at h
      by_cases e6 : e = 0x74
      · rw [if_pos e6] at h
        exact pushOut_valid _ (valid_single _ (by omega)) _ (hk _) t h
      rw [if_neg e6] at h
      by_cases e7 : e = 0x75
      · rw [if_pos e7] at h
        cases hg : getu4 (c :: e :: rest1) with
        | none => rw [hg] at h; simp at h
        | some rr =>
          rw [hg] at h
          simp only at h
          by_cases hsur : 0xD800 ≤ rr ∧ rr < 0xE000
          · rw [if_pos hsur] at h
            cases hg1 : getu4 ((c :: e :: rest1).drop 6) with
            | none =>
              rw [hg1] at h
              exact pushOut_valid _ (valid_encodeRune _) _ (hk _) t h
            | some rr1 =>
              rw [hg1] at h
              simp only at h
              by_cases hp : rr < 0xDC00 ∧ 0xDC00 ≤ rr1 ∧ rr1 < 0xE000
              · rw [if_pos hp] at h
                exact pushOut_valid _ (valid_encodeRune _) _ (hk _) t h
              · rw [if_neg hp] at h
                exact pushOut_valid _ (valid_encodeRune _) _ (hk _) t h
          · rw [if_neg hsur] at h
            exact pushOut_valid _ (valid_encodeRune _) _ (hk _) t h
      · rw [if_neg e7] at h
        simp at h
  · rw [if_neg h1] at h
    by_cases h2 : c = 0x22 ∨ c < 0x20
    · rw [if_pos h2] at h
      simp at h
    rw [if_neg h2] at h
    by_cases h3 : c < 0x80
    · rw [if_pos h3] at h
      exact pushOut_valid _ (valid_single c h3) _ (hk _) t h
    · rw [if_neg h3] at h
      exact pushOut_valid _ (valid_encodeRune _) _ (hk _) t h

theorem unquoteAux_valid (m : Nat) : ∀ (s t : Bytes), unquoteAux m s = some t → Valid t := by
  induction m with
  | zero =>
    intro s t h
    rcases s with _ | ⟨c, rest⟩
    · simp only [unquoteAux, Option.some.injEq] at h
      rw [← h]; exact Valid.nil
    · simp [unquoteAux] at h
  | succ m ih =>
    intro s t h
    rcases s with _ | ⟨c, rest⟩
    · simp only [unquoteAux, Option.some.injEq] at h
      rw [← h]; exact Valid.nil
    · simp only [unquoteAux] at h
      exact unquoteStep_valid _ ih c rest t h

theorem unquoteBytes_valid (s t : Bytes) (h : unquoteBytes s = some t) : validUTF8 t = true :=
  (validUTF8_iff t).mpr (unquoteAux_valid _ s t h)

/-! ### Reading what the encoder wrote -/

theorem skipSpace_cons (c : Nat) (t : Bytes) (h : isSpace c = false) :
    skipSpace (c :: t) = c :: t := by
  simp only [skipSpace, h, Bool.false_eq_true, if_false]

theorem appendString_append (s rest : Bytes) :
    appendString s ++ rest = 0x22 :: (appendStringAux s.length s ++ 0x22 :: rest) := by
  simp [appendString]

theorem readString_appendStringAux (s rest : Bytes) :
    readString (appendStringAux s.length s ++ 0x22 :: rest) = some (coerceUTF8 s, rest) := by
  unfold readString
  rw [scanString_appendStringAux s.length s rest (le_refl _)]
  simp only [unquoteBytes]
  rw [unquoteAux_appendStringAux s.length s _ (le_refl _) (le_refl _)]
  rfl

theorem readScalar_string (s rest : Bytes) :
    readScalar 0x22 (appendStringAux s.length s ++ 0x22 :: rest)
      = some (JVal.str (coerceUTF8 s), rest) := by
  simp [readScalar, readString_appendStringAux]

theorem parseStep_string (k : Nat → Mode → Bytes → Option (JVal × Bytes)) (d : Nat)
    (s rest : Bytes) :
    parseStep k d .value (appendString s ++ rest) = some (JVal.str (coerceUTF8 s), rest) := by
  rw [appendString_append]
  simp only [parseStep]
  rw [skipSpace_cons _ _ (by decide)]
  simp only
  rw [if_neg (by decide), if_neg (by decide)]
  exact readScalar_string s rest

theorem parse_string (n d : Nat) (s rest : Bytes) :
    parse (n + 1) d .value (appendString s ++ rest) = some (JVal.str (coerceUTF8 s), rest) := by
  simp only [parse]
  exact parseStep_string _ d s rest

theorem parse_member_more (n d : Nat) (acc : List (Bytes × JVal)) (key val rest : Bytes) :
    parse (n + 2) d (.members acc)
        (appendString key ++ 0x3A :: (appendString val ++ 0x2C :: rest))
      = parse (n + 1) d (.members (acc ++ [(coerceUTF8 key, JVal.str (coerceUTF8 val))])) rest := by
  rw [parse, appendString_append]
  simp only [parseStep]
  rw [skipSpace_cons _ _ (by decide)]
  simp only [↓reduceIte, readString_appendStringAux]
  rw [skipSpace_cons _ _ (by decide)]
  simp only [↓reduceIte, parse_string]
  rw [skipSpace_cons _ _ (by decide)]
  simp only [↓reduceIte]

theorem parse_member_last (n d : Nat) (acc : List (Bytes × JVal)) (key val rest : Bytes) :
    parse (n + 2) d (.members acc)
        (appendString key ++ 0x3A :: (appendString val ++ 0x7D :: rest))
      = some (JVal.object (acc ++ [(coerceUTF8 key, JVal.str (coerceUTF8 val))]), rest) := by
  rw [parse, appendString_append]
  simp only [parseStep]
  rw [skipSpace_cons _ _ (by decide)]
  simp only [↓reduceIte, readString_appendStringAux]
  rw [skipSpace_cons _ _ (by decide)]
  simp only [↓reduceIte, parse_string]
  rw [skipSpace_cons _ _ (by decide)]
  simp only [↓reduceIte, Nat.reduceEqDiff]

theorem parse_object_open (n d : Nat) (hd : d + 1 ≤ maxNestingDepth) (s rest : Bytes) :
    parse (n + 1) d .value (0x7B :: (appendString s ++ rest))
      = parse n (d + 1) (.members []) (appendString s ++ rest) := by
  rw [parse, appendString_append]
  simp only [parseStep]
  rw [skipSpace_cons _ _ (by decide)]
  have hd1 : ¬ maxNestingDepth < d + 1 := by omega
  simp only [↓reduceIte, hd1]
  rw [skipSpace_cons _ _ (by decide)]
  simp only [↓reduceIte, Nat.reduceEqDiff]

/-! ### `Command`: writing and reading back -/

theorem encodeCommand_shape (c : Command) :
    encodeCommand c = 0x7B :: (appendString strOp ++ 0x3A :: (appendString c.Op ++ 0x2C ::
      (appendString strKey ++ 0x3A :: (appendString c.Key ++
        (if c.Value = [] then [0x7D]
         else 0x2C :: (appendString strValue ++ 0x3A :: (appendString c.Value ++ [0x7D]))))))) := by
  unfold encodeCommand
  by_cases h : c.Value = []
  · simp [h]
  · simp [h]

theorem parse_encodeCommand (c : Command) (f : Nat) (hf : 5 ≤ f) :
    parse f 0 .value (encodeCommand c)
      = some (JVal.object
          ([(coerceUTF8 strOp, JVal.str (coerceUTF8 c.Op)),
            (coerceUTF8 strKey, JVal.str (coerceUTF8 c.Key))]
            ++ (if c.Value = [] then []
                else [(coerceUTF8 strValue, JVal.str (coerceUTF8 c.Value))])), []) := by
  obtain ⟨n, rfl⟩ : ∃ n, f = n + 5 := ⟨f - 5, by omega⟩
  rw [encodeCommand_shape, parse_object_open (n + 4) 0 (by decide), parse_member_more (n + 2)]
  by_cases h : c.Value = []
  · rw [if_pos h, if_pos h, parse_member_last (n + 1)]
    simp
  · rw [if_neg h, if_neg h, parse_member_more (n + 1), parse_member_last n]
    simp

theorem encodeCommand_length (c : Command) : 4 ≤ (encodeCommand c).length := by
  rw [encodeCommand_shape]
  simp only [List.length_cons, List.length_append, appendString]
  omega

theorem parseValue_encodeCommand (c : Command) :
    parseValue (encodeCommand c)
      = some (JVal.object
          ([(coerceUTF8 strOp, JVal.str (coerceUTF8 c.Op)),
            (coerceUTF8 strKey, JVal.str (coerceUTF8 c.Key))]
            ++ (if c.Value = [] then []
                else [(coerceUTF8 strValue, JVal.str (coerceUTF8 c.Value))])), []) :=
  parse_encodeCommand c _ (by have := encodeCommand_length c; omega)

theorem coerceUTF8_nil : coerceUTF8 [] = [] := rfl

/-- Reading back what `json.Marshal` wrote for a `Command` gives the command
with every field coerced to well-formed UTF-8. -/
theorem unmarshal_marshal (c : Command) :
    unmarshalCommand (encodeCommand c)
      = .ok ⟨coerceUTF8 c.Op, coerceUTF8 c.Key, coerceUTF8 c.Value⟩ := by
  unfold unmarshalCommand
  rw [parseValue_encodeCommand]
  have h1 : coerceUTF8 strOp = strOp := by decide
  have h2 : coerceUTF8 strKey = strKey := by decide
  have h3 : coerceUTF8 strValue = strValue := by decide
  have f1 : fieldByName strOp = some .op := by decide
  have f2 : fieldByName strKey = some .key := by decide
  have f3 : fieldByName strValue = some .value := by decide
  have hs : skipSpace [] = [] := rfl
  simp only [hs, if_true, h1, h2, h3]
  by_cases h : c.Value = []
  · simp [h, decodeCommand, decodeCommandMember, f1, f2, Command.store, coerceUTF8_nil]
  · simp [h, decodeCommand, decodeCommandMember, f1, f2, f3, Command.store]

/-! ## The claims -/

/-- C1, as stated, fails: the command `{set, [0xFF], ""}` (a key that is no
valid UTF-8) is encoded without error, and decoding the bytes gives a command
whose key is U+FFFD, not the key that was encoded. -/
theorem C1_counterexample :
    marshalCommand ⟨strSet, [0xFF], []⟩ = .ok (encodeCommand ⟨strSet, [0xFF], []⟩)
      ∧ unmarshalCommand (encodeCommand ⟨strSet, [0xFF], []⟩)
          = .ok ⟨strSet, [0xEF, 0xBF, 0xBD], []⟩
      ∧ unmarshalCommand (encodeCommand ⟨strSet, [0xFF], []⟩) ≠ .ok ⟨strSet, [0xFF], []⟩ := by
  decide

/-- C1, amended: for every `Command` whose op, key and value are valid UTF-8,
`json.Marshal` succeeds and `json.Unmarshal` of the bytes it wrote succeeds and
gives back the command, field for field. -/
theorem C1_roundtrip (c : Command) (hOp : validUTF8 c.Op = true)
    (hKey : validUTF8 c.Key = true) (hValue : validUTF8 c.Value = true) :
    ∃ data, marshalCommand c = .ok data ∧ unmarshalCommand data = .ok c := by
  refine ⟨encodeCommand c, rfl, ?_⟩
  rw [unmarshal_marshal, coerceUTF8_of_valid _ hOp, coerceUTF8_of_valid _ hKey,
    coerceUTF8_of_valid _ hValue]

theorem C1_roundtrip_witness :
    ∃ data, marshalCommand ⟨strSet, [0x6B, 0xC3, 0xA9], [0x22, 0x0A, 0xE2, 0x80, 0xA8]⟩ = .ok data
      ∧ unmarshalCommand data = .ok ⟨strSet, [0x6B, 0xC3, 0xA9], [0x22, 0x0A, 0xE2, 0x80, 0xA8]⟩ :=
  C1_roundtrip ⟨strSet, [0x6B, 0xC3, 0xA9], [0x22, 0x0A, 0xE2, 0x80, 0xA8]⟩
    (by decide) (by decide) (by decide)

/-- C2: when the bytes of a log entry do not decode to a `Command`, `Apply`
returns the decoding error and leaves the heap as it was, so `Get` returns for
every key what it returned before. -/
theorem C2_poison_entry (f : FSM) (h : Heap) (logData : Bytes) (err : JsonError)
    (hdec : unmarshalCommand logData = .error err) :
    f.Apply h logData = .returned (some err) h
      ∧ ∀ key, (f.Apply h logData).get f key = some (f.Get h key) := by
  have : f.Apply h logData = .returned (some err) h := by
    simp only [FSM.Apply, hdec]
  exact ⟨this, fun key => by rw [this]; rfl⟩

theorem C2_poison_entry_witness :
    (⟨some 0⟩ : FSM).Apply (NewFSM Heap.empty).2 [0x7B, 0x22, 0x6F, 0x70] = .returned (some .malformed) (NewFSM Heap.empty).2
      ∧ ∀ key, ((⟨some 0⟩ : FSM).Apply (NewFSM Heap.empty).2 [0x7B, 0x22, 0x6F, 0x70]).get ⟨some 0⟩ key
          = some ((⟨some 0⟩ : FSM).Get (NewFSM Heap.empty).2 key) :=
  C2_poison_entry ⟨some 0⟩ (NewFSM Heap.empty).2 [0x7B, 0x22, 0x6F, 0x70] .malformed (by decide)

theorem coerceAux_ascii (n : Nat) : ∀ (s t : Bytes), s.length ≤ n → coerceAux n s = t →
    (∀ b ∈ t, b < 0x80) → s = t := by
  induction n with
  | zero =>
    intro s t hs h _
    have : s = [] := List.length_eq_zero.mp (by omega)
    subst this
    simpa [coerceAux] using h
  | succ n ih =>
    intro s t hs h ht
    rcases s with _ | ⟨b, rest⟩
    · simpa [coerceAux] using h
    · have hrest : rest.length ≤ n := by simpa using hs
      simp only [coerceAux] at h
      by_cases h80 : b < 0x80
      · rw [if_pos h80] at h
        rcases t with _ | ⟨c, t'⟩
        · simp at h
        · injection h with h1 h2
          rw [h1, ih rest t' hrest h2 (fun x hx => ht x (List.mem_cons_of_mem c hx))]
      · rw [if_neg h80] at h
        exfalso
        by_cases hbad : badRune (b :: rest) = true
        · rw [if_pos hbad] at h
          have := ht 0xEF (by rw [← h]; simp)
          omega
        · rw [if_neg hbad] at h
          have hf := runeShape_facts (badRune_false_shape b rest h80 hbad)
          have hmem : b ∈ (b :: rest).take (decodeRune (b :: rest)).2 := by
            obtain ⟨k, hk⟩ : ∃ k, (decodeRune (b :: rest)).2 = k + 1 :=
              ⟨(decodeRune (b :: rest)).2 - 1, by omega⟩
            rw [hk, List.take_succ_cons]
            exact List.mem_cons_self _ _
          have := ht b (by rw [← h]; exact List.mem_append_left _ hmem)
          omega

theorem coerceUTF8_eq_strSet (s : Bytes) (h : coerceUTF8 s = strSet) : s = strSet :=
  coerceAux_ascii s.length s strSet (le_refl _) h (by decide)

theorem coerceUTF8_eq_strDelete (s : Bytes) (h : coerceUTF8 s = strDelete) : s = strDelete :=
  coerceAux_ascii s.length s strDelete (le_refl _) h (by decide)

theorem Apply_other (f : FSM) (h : Heap) (logData : Bytes) (cmd : Command)
    (hdec : unmarshalCommand logData = .ok cmd) (hs : cmd.Op ≠ strSet)
    (hd : cmd.Op ≠ strDelete) : f.Apply h logData = .returned none h := by
  simp only [FSM.Apply, hdec, hs, hd, if_false]

/-- C9: a command whose op is neither `"set"` nor `"delete"` (the empty op
included) is encoded and decoded without error, and `Apply` of its bytes
returns `nil` and leaves the heap, so every `Get`, as it was; the same holds
for any log entry whose bytes decode to a command with such an op. -/
theorem C9_unknown_op (f : FSM) (h : Heap) (cmd : Command) (hs : cmd.Op ≠ strSet)
    (hd : cmd.Op ≠ strDelete) :
    (∃ cmd', unmarshalCommand (encodeCommand cmd) = .ok cmd')
      ∧ f.Apply h (encodeCommand cmd) = .returned none h
      ∧ (∀ key, (f.Apply h (encodeCommand cmd)).get f key = some (f.Get h key))
      ∧ (∀ logData cmd', unmarshalCommand logData = .ok cmd' → cmd'.Op ≠ strSet →
          cmd'.Op ≠ strDelete → f.Apply h logData = .returned none h) := by
  have hA : f.Apply h (encodeCommand cmd) = .returned none h :=
    Apply_other f h _ _ (unmarshal_marshal cmd)
      (fun e => hs (coerceUTF8_eq_strSet _ e)) (fun e => hd (coerceUTF8_eq_strDelete _ e))
  refine ⟨⟨_, unmarshal_marshal cmd⟩, hA, fun key => by rw [hA]; rfl, ?_⟩
  intro logData cmd' hdec hs' hd'
  exact Apply_other f h logData cmd' hdec hs' hd'

theorem C9_unknown_op_witness :
    (∃ cmd', unmarshalCommand (encodeCommand ⟨[], [0x6B], [0x76]⟩) = .ok cmd')
      ∧ (⟨none⟩ : FSM).Apply Heap.empty (encodeCommand ⟨[], [0x6B], [0x76]⟩)
          = .returned none Heap.empty
      ∧ (∀ key, ((⟨none⟩ : FSM).Apply Heap.empty (encodeCommand ⟨[], [0x6B], [0x76]⟩)).get
          ⟨none⟩ key = some ((⟨none⟩ : FSM).Get Heap.empty key))
      ∧ (∀ logData cmd', unmarshalCommand logData = .ok cmd' → cmd'.Op ≠ strSet →
          cmd'.Op ≠ strDelete → (⟨none⟩ : FSM).Apply Heap.empty logData
            = .returned none Heap.empty) :=
  C9_unknown_op ⟨none⟩ Heap.empty ⟨[], [0x6B], [0x76]⟩ (by decide) (by decide)

/-- C10, evaluated at the failing input: after `NewFSM`, `Restore` of the
source `null` returns `nil` and leaves `f.data` nil; `Get` still works, but
`Apply` of `{"op":"set","key":"k","value":"v"}` then panics on the write into
the nil map. -/
theorem C10_restore_null_then_set_panics :
    ((NewFSM Heap.empty).1.Restore (NewFSM Heap.empty).2 [0x6E, 0x75, 0x6C, 0x6C]).1 = none
      ∧ ((NewFSM Heap.empty).1.Restore (NewFSM Heap.empty).2 [0x6E, 0x75, 0x6C, 0x6C]).2.1.data
          = none
      ∧ unmarshalCommand (encodeCommand ⟨strSet, [0x6B], [0x76]⟩) = .ok ⟨strSet, [0x6B], [0x76]⟩
      ∧ (((NewFSM Heap.empty).1.Restore (NewFSM Heap.empty).2 [0x6E, 0x75, 0x6C, 0x6C]).2.1.Apply
            ((NewFSM Heap.empty).1.Restore (NewFSM Heap.empty).2 [0x6E, 0x75, 0x6C, 0x6C]).2.2
            (encodeCommand ⟨strSet, [0x6B], [0x76]⟩)).response = none := by
  refine ⟨by decide, by decide, by decide, ?_⟩
  rfl

/-! ### Join -/

theorem alreadyJoined_of_mem (nodeID addr : Bytes) (servers : List Server)
    (h : ∃ srv ∈ servers, srv.ID = nodeID ∨ srv.Address = addr) :
    alreadyJoined nodeID addr servers = true := by
  induction servers with
  | nil => obtain ⟨srv, hm, _⟩ := h; cases hm
  | cons s rest ih =>
    simp only [alreadyJoined]
    by_cases hs : s.ID = nodeID ∨ s.Address = addr
    · rw [if_pos hs]
    · rw [if_neg hs]
      obtain ⟨srv, hm, hsrv⟩ := h
      rcases List.mem_cons.mp hm with rfl | hm'
      · exact absurd hsrv hs
      · exact ih ⟨srv, hm', hsrv⟩

theorem alreadyJoined_of_none (nodeID addr : Bytes) (servers : List Server)
    (h : ∀ srv ∈ servers, srv.ID ≠ nodeID ∧ srv.Address ≠ addr) :
    alreadyJoined nodeID addr servers = false := by
  induction servers with
  | nil => rfl
  | cons s rest ih =>
    simp only [alreadyJoined]
    have hs := h s (List.mem_cons_self _ _)
    have : ¬ (s.ID = nodeID ∨ s.Address = addr) := fun e => e.elim hs.1 hs.2
    rw [if_neg this]
    exact ih (fun srv hm => h srv (List.mem_cons_of_mem _ hm))

theorem addServer_new (servers : List Server) (id addr : Bytes)
    (h : ∀ srv ∈ servers, srv.ID ≠ id) :
    addServer servers id addr = servers ++ [{ ID := id, Address := addr }] := by
  unfold addServer
  have : servers.any (fun srv => decide (srv.ID = id)) = false := by
    rw [List.any_eq_false]
    intro srv hm
    simpa using h srv hm
  rw [this]
  rfl

theorem count_id_append_new (servers : List Server) (id addr : Bytes)
    (h : ∀ srv ∈ servers, srv.ID ≠ id) :
    ((servers ++ [({ ID := id, Address := addr } : Server)]).filter
      (fun srv => decide (srv.ID = id))).length = 1 := by
  rw [List.filter_append]
  have : servers.filter (fun srv => decide (srv.ID = id)) = [] := by
    rw [List.filter_eq_nil_iff]
    intro srv hm
    simpa using h srv hm
  rw [this]
  simp

/-- C6, as stated, fails: with the one server `n2` at the address `a1` and an
engine that accepts every request, `Join("n1", "a1")` twice in a row returns
`nil` both times, issues no `AddVoter` request, and leaves no entry for `n1`,
not exactly one. -/
theorem C6_counterexample :
    Join raftN2A1 idN1 addrA1 = (none, raftN2A1)
      ∧ Join (Join raftN2A1 idN1 addrA1).2 idN1 addrA1 = (none, raftN2A1)
      ∧ ((Join (Join raftN2A1 idN1 addrA1).2 idN1 addrA1).2.servers.filter
          (fun srv => decide (srv.ID = idN1))).length = 0 := by
  decide

/-- C6, amended: when the configuration read has a server with the ID `nodeID`
or with the address `addr`, `Join(nodeID, addr)` returns `nil` and leaves the
consensus engine as it was: no `AddVoter` request is issued and the
configuration is unchanged, so a second call does the same and the entries for
`nodeID` are what they were.  From a configuration with no server of that ID
or that address and an engine that accepts `AddVoter`, two calls of
`Join(nodeID, addr)` in a row both return `nil`, issue one `AddVoter` request
in all, and leave exactly one server with the ID `nodeID`. -/
theorem C6_join_idempotent (r : Raft) (nodeID addr : Bytes) (hcfg : r.configErr = none) :
    ((∃ srv ∈ r.servers, srv.ID = nodeID ∨ srv.Address = addr) →
        Join r nodeID addr = (none, r)
          ∧ Join (Join r nodeID addr).2 nodeID addr = (none, r))
      ∧ (r.addVoterErr = none → (∀ srv ∈ r.servers, srv.ID ≠ nodeID ∧ srv.Address ≠ addr) →
          (Join r nodeID addr).1 = none
            ∧ Join (Join r nodeID addr).2 nodeID addr = (none, (Join r nodeID addr).2)
            ∧ (Join r nodeID addr).2.addVoterCalls = r.addVoterCalls ++ [(nodeID, addr)]
            ∧ ((Join r nodeID addr).2.servers.filter
                (fun srv => decide (srv.ID = nodeID))).length = 1) := by
  constructor
  · intro h
    have hJ : Join r nodeID addr = (none, r) := by
      simp only [Join, hcfg, alreadyJoined_of_mem nodeID addr r.servers h, if_true]
    rw [hJ]
    exact ⟨rfl, hJ⟩
  · intro hadd hnew
    have hnj : alreadyJoined nodeID addr r.servers = false :=
      alreadyJoined_of_none nodeID addr r.servers hnew
    have hJ : Join r nodeID addr
        = (none, { r with
            servers := r.servers ++ [{ ID := nodeID, Address := addr }],
            addVoterCalls := r.addVoterCalls ++ [(nodeID, addr)] }) := by
      simp only [Join, hcfg, hnj, Raft.AddVoter, hadd, Bool.false_eq_true, if_false]
      rw [addServer_new r.servers nodeID addr (fun srv hm => (hnew srv hm).1)]
    rw [hJ]
    refine ⟨rfl, ?_, rfl, ?_⟩
    · simp only [Join, hcfg]
      rw [alreadyJoined_of_mem nodeID addr _ ⟨{ ID := nodeID, Address := addr },
        List.mem_append_right _ (List.mem_singleton_self _), Or.inl rfl⟩]
      simp
    · exact count_id_append_new r.servers nodeID addr (fun srv hm => (hnew srv hm).1)

theorem C6_join_idempotent_witness :
    (Join raftN2A1 idN1 addrA1 = (none, raftN2A1)
        ∧ Join (Join raftN2A1 idN1 addrA1).2 idN1 addrA1 = (none, raftN2A1))
      ∧ ((Join raftN2A2 idN1 addrA1).1 = none
        ∧ Join (Join raftN2A2 idN1 addrA1).2 idN1 addrA1 = (none, (Join raftN2A2 idN1 addrA1).2)
        ∧ (Join raftN2A2 idN1 addrA1).2.addVoterCalls
            = raftN2A2.addVoterCalls ++ [(idN1, addrA1)]
        ∧ ((Join raftN2A2 idN1 addrA1).2.servers.filter
            (fun srv => decide (srv.ID = idN1))).length = 1) :=
  ⟨(C6_join_idempotent raftN2A1 idN1 addrA1 rfl).1
      ⟨{ ID := idN2, Address := addrA1 }, List.mem_singleton_self _, Or.inr rfl⟩,
   (C6_join_idempotent raftN2A2 idN1 addrA1 rfl).2 rfl (by decide)⟩

/-! ### Set and Delete -/

theorem Get_store_same (f : FSM) (h : Heap) (a : Nat) (m : GoMap) (hf : f.data = some a)
    (key : Bytes) :
    f.Get (h.store a m) key = match m.lookup key with
      | some val => (val, true)
      | none => ([], false) := by
  simp [FSM.Get, Heap.read, Heap.store, hf]

theorem Get_some (f : FSM) (h : Heap) (a : Nat) (hf : f.data = some a) (key : Bytes) :
    f.Get h key = match (h.cells a).lookup key with
      | some val => (val, true)
      | none => ([], false) := by
  simp [FSM.Get, Heap.read, hf]

theorem Apply_set (f : FSM) (h : Heap) (a : Nat) (hf : f.data = some a) (k v : Bytes)
    (hk : validUTF8 k = true) (hv : validUTF8 v = true) :
    f.Apply h (encodeCommand ⟨strSet, k, v⟩)
      = .returned none (h.store a ((h.cells a).insert k v)) := by
  have hdec := unmarshal_marshal ⟨strSet, k, v⟩
  simp only [coerceUTF8_of_valid _ hk, coerceUTF8_of_valid _ hv] at hdec
  have h1 : coerceUTF8 strSet = strSet := by decide
  rw [h1] at hdec
  simp only [FSM.Apply, hdec, hf, if_true]

theorem Apply_delete (f : FSM) (h : Heap) (k : Bytes) (hk : validUTF8 k = true) :
    f.Apply h (encodeCommand ⟨strDelete, k, []⟩)
      = .returned none (match f.data with
          | none => h
          | some a => h.store a ((h.cells a).erase k)) := by
  have hdec := unmarshal_marshal ⟨strDelete, k, []⟩
  simp only [coerceUTF8_of_valid _ hk, coerceUTF8_nil] at hdec
  have h1 : coerceUTF8 strDelete = strDelete := by decide
  rw [h1] at hdec
  have h2 : strDelete ≠ strSet := by decide
  simp only [FSM.Apply, hdec, h2, if_true, if_false]
  cases f.data <;> rfl

/-- C3, as stated, fails: on a new FSM, `Apply` of the encoded command
`Set([0xFF], "v")` returns `nil`, but `Get([0xFF])` is not found afterwards:
the value went to the key U+FFFD. -/
theorem C3_counterexample :
    ((NewFSM Heap.empty).1.Apply (NewFSM Heap.empty).2
        (encodeCommand ⟨strSet, [0xFF], [0x76]⟩)).response = some none
      ∧ ((NewFSM Heap.empty).1.Apply (NewFSM Heap.empty).2
          (encodeCommand ⟨strSet, [0xFF], [0x76]⟩)).get (NewFSM Heap.empty).1 [0xFF]
          = some ([], false)
      ∧ ((NewFSM Heap.empty).1.Apply (NewFSM Heap.empty).2
          (encodeCommand ⟨strSet, [0xFF], [0x76]⟩)).get (NewFSM Heap.empty).1 [0xEF, 0xBF, 0xBD]
          = some ([0x76], true) := by
  refine ⟨by rfl, by rfl, by rfl⟩

/-- C3, amended: for every FSM whose map is initialised (not nil) and every
key `k` and value `v` that are valid UTF-8, `Apply` of the encoded command
`Set(k, v)` returns `nil`; afterwards `Get(k) = (v, true)` whatever `k` held
before, and `Get` of every other key is unchanged; a following `Set(k, v2)`
leaves `Get(k) = (v2, true)`. -/
theorem C3_set_overwrites (f : FSM) (h : Heap) (a : Nat) (hf : f.data = some a)
    (k v v2 : Bytes) (hk : validUTF8 k = true) (hv : validUTF8 v = true)
    (hv2 : validUTF8 v2 = true) :
    ∃ h1, f.Apply h (encodeCommand ⟨strSet, k, v⟩) = .returned none h1
      ∧ f.Get h1 k = (v, true)
      ∧ (∀ k', k' ≠ k → f.Get h1 k' = f.Get h k')
      ∧ ∃ h2, f.Apply h1 (encodeCommand ⟨strSet, k, v2⟩) = .returned none h2
          ∧ f.Get h2 k = (v2, true) := by
  refine ⟨_, Apply_set f h a hf k v hk hv, ?_, ?_, _, Apply_set f _ a hf k v2 hk hv2, ?_⟩
  · rw [Get_store_same f h a _ hf, AList.lookup_insert]
  · intro k' hne
    rw [Get_store_same f h a _ hf, AList.lookup_insert_ne hne, Get_some f h a hf]
  · rw [Get_store_same f _ a _ hf, AList.lookup_insert]

theorem C3_set_overwrites_witness :
    ∃ h1, (⟨some 0⟩ : FSM).Apply (NewFSM Heap.empty).2 (encodeCommand ⟨strSet, [0x6B], [0x31]⟩)
        = .returned none h1
      ∧ (⟨some 0⟩ : FSM).Get h1 [0x6B] = ([0x31], true)
      ∧ (∀ k', k' ≠ [0x6B] → (⟨some 0⟩ : FSM).Get h1 k' = (⟨some 0⟩ : FSM).Get (NewFSM Heap.empty).2 k')
      ∧ ∃ h2, (⟨some 0⟩ : FSM).Apply h1 (encodeCommand ⟨strSet, [0x6B], [0x32]⟩)
          = .returned none h2
          ∧ (⟨some 0⟩ : FSM).Get h2 [0x6B] = ([0x32], true) :=
  C3_set_overwrites ⟨some 0⟩ (NewFSM Heap.empty).2 0 rfl [0x6B] [0x31] [0x32]
    (by decide) (by decide) (by decide)

theorem erase_erase_same (m : GoMap) (k : Bytes) : (m.erase k).erase k = m.erase k := by
  apply AList.ext
  simp only [AList.erase]
  exact List.kerase_of_not_mem_keys (List.not_mem_keys_kerase k m.nodupKeys)

/-- C4, as stated, fails: with U+FFFD bound to `"x"`, `Apply` of the encoded
command `Delete([0xFF])` returns `nil` and removes the key U+FFFD, a key other
than the one deleted. -/
theorem C4_counterexample :
    ((NewFSM Heap.empty).1.Apply (NewFSM Heap.empty).2
        (encodeCommand ⟨strSet, [0xEF, 0xBF, 0xBD], [0x78]⟩)).get (NewFSM Heap.empty).1
        [0xEF, 0xBF, 0xBD] = some ([0x78], true)
      ∧ ((NewFSM Heap.empty).1.Apply
          (((NewFSM Heap.empty).1.Apply (NewFSM Heap.empty).2
            (encodeCommand ⟨strSet, [0xEF, 0xBF, 0xBD], [0x78]⟩)).heapOr (NewFSM Heap.empty).2)
          (encodeCommand ⟨strDelete, [0xFF], []⟩)).get (NewFSM Heap.empty).1
          [0xEF, 0xBF, 0xBD] = some ([], false)
      ∧ ([0xEF, 0xBF, 0xBD] : Bytes) ≠ [0xFF] := by
  refine ⟨by rfl, by rfl, by decide⟩

/-- C4, amended: for every FSM state and every key `k` that is valid UTF-8,
`Apply` of the encoded command `Delete(k)` returns `nil` whether or not `k` is
present; afterwards `Get(k) = ("", false)` and `Get` of every other key is
unchanged; a second `Delete(k)` returns `nil` again and leaves the state the
first one left. -/
theorem C4_delete_idempotent (f : FSM) (h : Heap) (k : Bytes) (hk : validUTF8 k = true) :
    ∃ h1, f.Apply h (encodeCommand ⟨strDelete, k, []⟩) = .returned none h1
      ∧ f.Get h1 k = ([], false)
      ∧ (∀ k', k' ≠ k → f.Get h1 k' = f.Get h k')
      ∧ f.Apply h1 (encodeCommand ⟨strDelete, k, []⟩) = .returned none h1 := by
  refine ⟨_, Apply_delete f h k hk, ?_⟩
  rw [Apply_delete f _ k hk]
  cases hf : f.data with
  | none =>
    refine ⟨?_, fun k' _ => rfl, rfl⟩
    simp [FSM.Get, Heap.read, hf]
  | some a =>
    refine ⟨?_, ?_, ?_⟩
    · rw [Get_store_same f h a _ hf, AList.lookup_erase]
    · intro k' hne
      rw [Get_store_same f h a _ hf, AList.lookup_erase_ne hne, Get_some f h a hf]
    · simp only [Heap.store, Function.update_same, Function.update_idem, erase_erase_same]

theorem C4_delete_idempotent_witness :
    ∃ h1, (⟨some 0⟩ : FSM).Apply (NewFSM Heap.empty).2 (encodeCommand ⟨strDelete, [0x78], []⟩)
        = .returned none h1
      ∧ (⟨some 0⟩ : FSM).Get h1 [0x78] = ([], false)
      ∧ (∀ k', k' ≠ [0x78] → (⟨some 0⟩ : FSM).Get h1 k' = (⟨some 0⟩ : FSM).Get (NewFSM Heap.empty).2 k')
      ∧ (⟨some 0⟩ : FSM).Apply h1 (encodeCommand ⟨strDelete, [0x78], []⟩) = .returned none h1 :=
  C4_delete_idempotent ⟨some 0⟩ (NewFSM Heap.empty).2 [0x78] (by decide)

/-! ### Restore -/

theorem make_cells_new (h : Heap) : (Heap.make h).2.cells (Heap.make h).1 = ∅ := by
  simp [Heap.make]

theorem make_cells_old (h : Heap) (a : Nat) (ha : a < h.next) :
    (Heap.make h).2.cells a = h.cells a := by
  simp only [Heap.make]
  exact Function.update_noteq (by omega) _ _

theorem Get_make (f : FSM) (h : Heap) (hal : f.allocated h) (key : Bytes) :
    f.Get (Heap.make h).2 key = f.Get h key := by
  cases hf : f.data with
  | none => simp [FSM.Get, Heap.read, hf]
  | some a =>
    rw [Get_some f _ a hf, Get_some f h a hf, make_cells_old h a (hal a hf)]

/-- C8, as stated, fails: the source `{"a":"b"}x` is no JSON document (a byte
follows the object), yet `Restore` of it on a new FSM returns `nil` and replaces
the map: `Get("a")`, not found before, is `("b", true)` afterwards. -/
theorem C8_counterexample :
    jsonValid [0x7B, 0x22, 0x61, 0x22, 0x3A, 0x22, 0x62, 0x22, 0x7D, 0x78] = false
      ∧ ((NewFSM Heap.empty).1.Restore (NewFSM Heap.empty).2
          [0x7B, 0x22, 0x61, 0x22, 0x3A, 0x22, 0x62, 0x22, 0x7D, 0x78]).1 = none
      ∧ (NewFSM Heap.empty).1.Get (NewFSM Heap.empty).2 [0x61] = ([], false)
      ∧ ((NewFSM Heap.empty).1.Restore (NewFSM Heap.empty).2
          [0x7B, 0x22, 0x61, 0x22, 0x3A, 0x22, 0x62, 0x22, 0x7D, 0x78]).2.1.Get
          ((NewFSM Heap.empty).1.Restore (NewFSM Heap.empty).2
            [0x7B, 0x22, 0x61, 0x22, 0x3A, 0x22, 0x62, 0x22, 0x7D, 0x78]).2.2 [0x61]
          = ([0x62], true) := by
  refine ⟨by decide, by decide, by rfl, by rfl⟩

/-! ### Every string the reader returns is well-formed UTF-8 -/

theorem readString_valid (inp s rest : Bytes) (h : readString inp = some (s, rest)) :
    Valid s := by
  unfold readString at h
  cases hs : scanString .inString inp with
  | none => rw [hs] at h; simp at h
  | some p =>
    obtain ⟨raw, rest1⟩ := p
    rw [hs] at h
    simp only at h
    cases hu : unquoteBytes raw with
    | none => rw [hu] at h; simp at h
    | some t =>
      rw [hu] at h
      simp only [Option.some.injEq, Prod.mk.injEq] at h
      rw [← h.1]
      exact unquoteAux_valid _ raw t hu

theorem topOK_of_not_str_obj (v : JVal) (h1 : ∀ s, v ≠ JVal.str s)
    (h2 : ∀ ms, v ≠ JVal.object ms) : topOK v :=
  ⟨fun s e => absurd e (h1 s), fun ms e => absurd e (h2 ms)⟩

theorem readScalar_topOK (c : Nat) (rest : Bytes) (v : JVal) (rest1 : Bytes)
    (h : readScalar c rest = some (v, rest1)) : topOK v := by
  unfold readScalar at h
  by_cases h1 : c = 0x22
  · rw [if_pos h1] at h
    cases hr : readString rest with
    | none => rw [hr] at h; simp at h
    | some p =>
      obtain ⟨s, r⟩ := p
      rw [hr] at h
      simp only [Option.map_some', Option.some.injEq, Prod.mk.injEq] at h
      rw [← h.1]
      refine ⟨fun s' e => ?_, fun ms e => by cases e⟩
      injection e with e
      rw [← e]
      exact readString_valid rest s r hr
  rw [if_neg h1] at h
  have hnum : ∀ (o : Option Bytes), o.map (fun r => (JVal.number, r)) = some (v, rest1) →
      topOK v := by
    intro o ho
    cases o with
    | none => simp at ho
    | some r =>
      simp only [Option.map_some', Option.some.injEq, Prod.mk.injEq] at ho
      rw [← ho.1]
      exact topOK_of_not_str_obj _ (fun s e => by cases e) (fun ms e => by cases e)
  by_cases h2 : c = 0x2D
  · rw [if_pos h2] at h; exact hnum _ h
  rw [if_neg h2] at h
  by_cases h3 : c = 0x30
  · rw [if_pos h3] at h; exact hnum _ h
  rw [if_neg h3] at h
  by_cases h4 : 0x31 ≤ c ∧ c ≤ 0x39
  · rw [if_pos h4] at h; exact hnum _ h
  rw [if_neg h4] at h
  by_cases h5 : c = 0x74
  · rw [if_pos h5] at h
    split at h
    · simp only [Option.some.injEq, Prod.mk.injEq] at h
      rw [← h.1]
      exact topOK_of_not_str_obj _ (fun s e => by cases e) (fun ms e => by cases e)
    · simp at h
  rw [if_neg h5] at h
  by_cases h6 : c = 0x66
  · rw [if_pos h6] at h
    split at h
    · simp only [Option.some.injEq, Prod.mk.injEq] at h
      rw [← h.1]
      exact topOK_of_not_str_obj _ (fun s e => by cases e) (fun ms e => by cases e)
    · simp at h
  rw [if_neg h6] at h
  by_cases h7 : c = 0x6E
  · rw [if_pos h7] at h
    split at h
    · simp only [Option.some.injEq, Prod.mk.injEq] at h
      rw [← h.1]
      exact topOK_of_not_str_obj _ (fun s e => by cases e) (fun ms e => by cases e)
    · simp at h
  rw [if_neg h7] at h
  simp at h

theorem memberOK_snoc (acc : List (Bytes × JVal)) (hacc : ∀ m ∈ acc, memberOK m)
    (key : Bytes) (v : JVal) (hk : Valid key) (hv : topOK v) :
    ∀ m ∈ acc ++ [(key, v)], memberOK m := by
  intro m hm
  rcases List.mem_append.mp hm with h | h
  · exact hacc m h
  · rw [List.mem_singleton] at h
    rw [h]
    exact ⟨hk, fun s e => hv.1 s e⟩

theorem topOK_object (ms : List (Bytes × JVal)) (h : ∀ m ∈ ms, memberOK m) :
    topOK (JVal.object ms) := by
  refine ⟨fun s e => (by cases e), fun ms' e => ?_⟩
  injection e with e
  rw [← e]
  exact h

theorem parseStep_topOK (k : Nat → Mode → Bytes → Option (JVal × Bytes))
    (hk : ∀ d mode inp v rest, k d mode inp = some (v, rest) → modeOK mode → topOK v)
    (d : Nat) (mode : Mode) (inp : Bytes) (v : JVal) (rest : Bytes)
    (h : parseStep k d mode inp = some (v, rest)) (hm : modeOK mode) : topOK v := by
  unfold parseStep at h
  cases mode with
  | value =>
    simp only at h
    cases hs : skipSpace inp with
    | nil => rw [hs] at h; simp at h
    | cons c r =>
      rw [hs] at h
      simp only at h
      by_cases h1 : c = 0x7B
      · rw [if_pos h1] at h
        by_cases hd : maxNestingDepth < d + 1
        · rw [if_pos hd] at h; simp at h
        rw [if_neg hd] at h
        cases hs1 : skipSpace r with
        | nil => rw [hs1] at h; simp at h
        | cons c1 r1 =>
          rw [hs1] at h
          simp only at h
          by_cases h2 : c1 = 0x7D
          · rw [if_pos h2] at h
            simp only [Option.some.injEq, Prod.mk.injEq] at h
            rw [← h.1]
            exact topOK_object [] (fun m hm' => by cases hm')
          · rw [if_neg h2] at h
            exact hk _ _ _ _ _ h (fun m hm' => by cases hm')
      rw [if_neg h1] at h
      by_cases h3 : c = 0x5B
      · rw [if_pos h3] at h
        by_cases hd : maxNestingDepth < d + 1
        · rw [if_pos hd] at h; simp at h
        rw [if_neg hd] at h
        cases hs1 : skipSpace r with
        | nil => rw [hs1] at h; simp at h
        | cons c1 r1 =>
          rw [hs1] at h
          simp only at h
          by_cases h2 : c1 = 0x5D
          · rw [if_pos h2] at h
            simp only [Option.some.injEq, Prod.mk.injEq] at h
            rw [← h.1]
            exact topOK_of_not_str_obj _ (fun s e => by cases e) (fun ms e => by cases e)
          · rw [if_neg h2] at h
            exact hk _ _ _ _ _ h trivial
      rw [if_neg h3] at h
      exact readScalar_topOK c r v rest h
  | members acc =>
    simp only at h
    cases hs : skipSpace inp with
    | nil => rw [hs] at h; simp at h
    | cons c r =>
      rw [hs] at h
      simp only at h
      by_cases h1 : c = 0x22
      · rw [if_pos h1] at h
        cases hr : readString r with
        | none => rw [hr] at h; simp at h
        | some p =>
          obtain ⟨key, r1⟩ := p
          rw [hr] at h
          simp only at h
          have hkey := readString_valid r key r1 hr
          cases hs2 : skipSpace r1 with
          | nil => rw [hs2] at h; simp at h
          | cons c2 r2 =>
            rw [hs2] at h
            simp only at h
            by_cases h2 : c2 = 0x3A
            · rw [if_pos h2] at h
              cases hv : k d .value r2 with
              | none => rw [hv] at h; simp at h
              | some q =>
                obtain ⟨v1, r3⟩ := q
                rw [hv] at h
                simp only at h
                have hv1 := hk _ _ _ _ _ hv trivial
                cases hs4 : skipSpace r3 with
                | nil => rw [hs4] at h; simp at h
                | cons c4 r4 =>
                  rw [hs4] at h
                  simp only at h
                  by_cases h4 : c4 = 0x2C
                  · rw [if_pos h4] at h
                    exact hk _ _ _ _ _ h (memberOK_snoc acc hm key v1 hkey hv1)
                  rw [if_neg h4] at h
                  by_cases h5 : c4 = 0x7D
                  · rw [if_pos h5] at h
                    simp only [Option.some.injEq, Prod.mk.injEq] at h
                    rw [← h.1]
                    exact topOK_object _ (memberOK_snoc acc hm key v1 hkey hv1)
                  · rw [if_neg h5] at h; simp at h
            · rw [if_neg h2] at h; simp at h
      · rw [if_neg h1] at h; simp at h
  | elements acc =>
    simp only at h
    cases hv : k d .value inp with
    | none => rw [hv] at h; simp at h
    | some q =>
      obtain ⟨v1, r⟩ := q
      rw [hv] at h
      simp only at h
      cases hs : skipSpace r with
      | nil => rw [hs] at h; simp at h
      | cons c r1 =>
        rw [hs] at h
        simp only at h
        by_cases h1 : c = 0x2C
        · rw [if_pos h1] at h
          exact hk _ _ _ _ _ h trivial
        rw [if_neg h1] at h
        by_cases h2 : c = 0x5D
        · rw [if_pos h2] at h
          simp only [Option.some.injEq, Prod.mk.injEq] at h
          rw [← h.1]
          exact topOK_of_not_str_obj _ (fun s e => by cases e) (fun ms e => by cases e)
        · rw [if_neg h2] at h; simp at h

theorem parse_topOK (n : Nat) : ∀ (d : Nat) (mode : Mode) (inp : Bytes) (v : JVal)
    (rest : Bytes), parse n d mode inp = some (v, rest) → modeOK mode → topOK v := by
  induction n with
  | zero => intro d mode inp v rest h; simp [parse] at h
  | succ n ih =>
    intro d mode inp v rest h hm
    rw [parse] at h
    exact parseStep_topOK (parse n) ih d mode inp v rest h hm

theorem parseValue_topOK (data : Bytes) (v : JVal) (rest : Bytes)
    (h : parseValue data = some (v, rest)) : topOK v :=
  parse_topOK _ 0 .value data v rest h trivial

theorem store_wellFormed (cmd : Command) (f : Field) (s : Bytes) (hc : cmd.wellFormed)
    (hs : Valid s) : (cmd.store f s).wellFormed := by
  obtain ⟨h1, h2, h3⟩ := hc
  cases f
  · exact ⟨hs, h2, h3⟩
  · exact ⟨h1, hs, h3⟩
  · exact ⟨h1, h2, hs⟩

theorem decodeCommandMember_wellFormed (st : Command × Option JsonError) (m : Bytes × JVal)
    (hst : st.1.wellFormed) (hm : memberOK m) : (decodeCommandMember st m).1.wellFormed := by
  unfold decodeCommandMember
  cases fieldByName m.1 with
  | none => exact hst
  | some f =>
    simp only
    cases hv : m.2 with
    | str s => exact store_wellFormed _ f s hst (hm.2 s hv)
    | null => exact hst
    | bool b => exact hst
    | number => exact hst
    | array xs => exact hst
    | object ms => exact hst

theorem foldl_decodeCommandMember_wellFormed (ms : List (Bytes × JVal)) :
    ∀ (st : Command × Option JsonError), st.1.wellFormed → (∀ m ∈ ms, memberOK m) →
      (ms.foldl decodeCommandMember st).1.wellFormed := by
  induction ms with
  | nil => intro st hst _; exact hst
  | cons m rest ih =>
    intro st hst hms
    rw [List.foldl_cons]
    exact ih _ (decodeCommandMember_wellFormed st m hst (hms m (List.mem_cons_self _ _)))
      (fun x hx => hms x (List.mem_cons_of_mem _ hx))

theorem decodeCommand_wellFormed (v : JVal) (cmd : Command) (hv : topOK v)
    (h : decodeCommand v = .ok cmd) : cmd.wellFormed := by
  have h0 : (⟨[], [], []⟩ : Command).wellFormed := ⟨Valid.nil, Valid.nil, Valid.nil⟩
  cases v with
  | object ms =>
    simp only [decodeCommand] at h
    have := foldl_decodeCommandMember_wellFormed ms (⟨[], [], []⟩, none) h0 (hv.2 ms rfl)
    cases hf : ms.foldl decodeCommandMember (⟨[], [], []⟩, none) with
    | mk c e =>
      rw [hf] at h this
      cases e with
      | none =>
        simp only [Except.ok.injEq] at h
        rw [← h]; exact this
      | some e => simp at h
  | null =>
    simp only [decodeCommand, Except.ok.injEq] at h
    rw [← h]; exact h0
  | bool b => simp [decodeCommand] at h
  | number => simp [decodeCommand] at h
  | str s => simp [decodeCommand] at h
  | array xs => simp [decodeCommand] at h

theorem unmarshalCommand_wellFormed (data : Bytes) (cmd : Command)
    (h : unmarshalCommand data = .ok cmd) : cmd.wellFormed := by
  unfold unmarshalCommand at h
  cases hp : parseValue data with
  | none => rw [hp] at h; simp at h
  | some p =>
    obtain ⟨v, rest⟩ := p
    rw [hp] at h
    simp only at h
    by_cases hs : skipSpace rest = []
    · rw [if_pos hs] at h
      exact decodeCommand_wellFormed v cmd (parseValue_topOK data v rest hp) h
    · rw [if_neg hs] at h; simp at h

theorem mapOK_empty : mapOK (∅ : GoMap) := by
  intro e he
  cases he

theorem mapOK_insert (m : GoMap) (k v : Bytes) (hm : mapOK m) (hk : Valid k) (hv : Valid v) :
    mapOK (m.insert k v) := by
  intro e he
  rw [AList.insert_entries] at he
  rcases List.mem_cons.mp he with h | h
  · rw [h]; exact ⟨hk, hv⟩
  · exact hm e ((List.kerase_sublist k m.entries).subset h)

theorem mapOK_erase (m : GoMap) (k : Bytes) (hm : mapOK m) : mapOK (m.erase k) := by
  intro e he
  exact hm e ((List.kerase_sublist k m.entries).subset he)

/-! ### `map[string]string`: writing and reading back -/

theorem encodeMembers_single (m : GoMap) (k : Bytes) (rest : Bytes) :
    encodeMembers m [k] ++ rest
      = appendString k ++ 0x3A :: (appendString (mapIndex m k) ++ rest) := by
  simp [encodeMembers]

theorem encodeMembers_cons2 (m : GoMap) (k k2 : Bytes) (ks : List Bytes) (rest : Bytes) :
    encodeMembers m (k :: k2 :: ks) ++ rest
      = appendString k ++ 0x3A :: (appendString (mapIndex m k) ++ 0x2C ::
          (encodeMembers m (k2 :: ks) ++ rest)) := by
  simp [encodeMembers]

theorem parse_members_encoded (m : GoMap) (ks : List Bytes) :
    ∀ (k : Bytes) (n d : Nat) (acc : List (Bytes × JVal)) (rest : Bytes),
      parse (n + ks.length + 2) d (.members acc) (encodeMembers m (k :: ks) ++ 0x7D :: rest)
        = some (JVal.object (acc ++ (k :: ks).map
            (fun x => (coerceUTF8 x, JVal.str (coerceUTF8 (mapIndex m x))))), rest) := by
  induction ks with
  | nil =>
    intro k n d acc rest
    rw [encodeMembers_single]
    exact parse_member_last n d acc k (mapIndex m k) rest
  | cons k2 ks ih =>
    intro k n d acc rest
    rw [encodeMembers_cons2]
    have hfuel : n + (k2 :: ks).length + 2 = (n + ks.length + 1) + 2 := by
      simp only [List.length_cons]; omega
    rw [hfuel, parse_member_more (n + ks.length + 1) d acc k (mapIndex m k)]
    have hfuel2 : n + ks.length + 1 + 1 = n + ks.length + 2 := by omega
    rw [hfuel2, ih k2 n d]
    simp

theorem encodeMembers_length (m : GoMap) (ks : List Bytes) :
    ks.length ≤ (encodeMembers m ks).length := by
  induction ks with
  | nil => simp [encodeMembers]
  | cons k ks ih =>
    cases ks with
    | nil => simp [encodeMembers, appendString]
    | cons k2 ks =>
      simp only [encodeMembers, List.length_append, List.length_cons] at ih ⊢
      omega

theorem encodeMembers_head (m : GoMap) (k : Bytes) (ks : List Bytes) (rest : Bytes) :
    ∃ tail, encodeMembers m (k :: ks) ++ rest = appendString k ++ tail := by
  cases ks with
  | nil => exact ⟨_, encodeMembers_single m k rest⟩
  | cons k2 ks => exact ⟨_, encodeMembers_cons2 m k k2 ks rest⟩

theorem parseValue_encoderEncode (m : GoMap) :
    parseValue (encoderEncode (some m))
      = some (JVal.object ((sortedKeys m).map
          (fun x => (coerceUTF8 x, JVal.str (coerceUTF8 (mapIndex m x))))), [0x0A]) := by
  unfold encoderEncode encodeMap
  cases hks : sortedKeys m with
  | nil =>
    simp only [hks, encodeMembers, List.map_nil]
    rfl
  | cons k ks =>
    simp only [hks]
    have hshape : [0x7B] ++ encodeMembers m (k :: ks) ++ [0x7D] ++ [0x0A]
        = 0x7B :: (encodeMembers m (k :: ks) ++ 0x7D :: [0x0A]) := by simp
    rw [hshape]
    unfold parseValue
    have hlen := encodeMembers_length m (k :: ks)
    obtain ⟨n, hn⟩ : ∃ n, (0x7B :: (encodeMembers m (k :: ks) ++ 0x7D :: [0x0A])).length + 1
        = (n + ks.length + 2) + 1 := by
      refine ⟨(encodeMembers m (k :: ks)).length - ks.length + 1, ?_⟩
      simp only [List.length_cons, List.length_append, List.length_nil] at hlen ⊢
      omega
    rw [hn]
    obtain ⟨tail, ht⟩ := encodeMembers_head m k ks (0x7D :: [0x0A])
    rw [ht, parse_object_open _ 0 (by decide), ← ht, parse_members_encoded m ks k n 1 []]
    simp

theorem foldl_decodeMapMember_str (ks : List Bytes) (fk fv : Bytes → Bytes) :
    ∀ (acc : GoMap),
      (ks.map (fun x => (fk x, JVal.str (fv x)))).foldl decodeMapMember (acc, none)
        = (ks.foldl (fun a x => a.insert (fk x) (fv x)) acc, none) := by
  induction ks with
  | nil => intro acc; rfl
  | cons k ks ih =>
    intro acc
    simp only [List.map_cons, List.foldl_cons, decodeMapMember]
    exact ih _

theorem lookup_foldl_insert (m : GoMap) (ks : List Bytes) (key : Bytes) :
    ∀ (acc : GoMap),
      (ks.foldl (fun a x => a.insert x (mapIndex m x)) acc).lookup key
        = if key ∈ ks then some (mapIndex m key) else acc.lookup key := by
  induction ks with
  | nil => intro acc; simp
  | cons k ks ih =>
    intro acc
    rw [List.foldl_cons, ih]
    by_cases h1 : key ∈ ks
    · simp [h1]
    · rw [if_neg h1]
      by_cases h2 : key = k
      · subst h2
        simp [AList.lookup_insert]
      · rw [AList.lookup_insert_ne h2]
        simp [h1, h2]

theorem mem_sortedKeys (m : GoMap) (k : Bytes) : k ∈ sortedKeys m ↔ k ∈ m.keys := by
  unfold sortedKeys
  exact (List.perm_insertionSort _ _).mem_iff

theorem mapIndex_valid (m : GoMap) (hm : mapOK m) (k : Bytes) : Valid (mapIndex m k) := by
  unfold mapIndex
  cases hl : m.lookup k with
  | none => exact Valid.nil
  | some v =>
    have : Sigma.mk k v ∈ m.entries := AList.mem_lookup_iff.mp hl
    exact (hm _ this).2

theorem key_valid (m : GoMap) (hm : mapOK m) (k : Bytes) (hk : k ∈ m.keys) : Valid k := by
  obtain ⟨v, hv⟩ := List.exists_of_mem_keys hk
  exact (hm _ hv).1

theorem coerceUTF8_of_Valid (s : Bytes) (h : Valid s) : coerceUTF8 s = s :=
  valid_coerceAux_eq h s.length (le_refl _)

/-- Reading back what the encoder wrote for a map of well-formed strings gives
a map with the same lookups. -/
theorem decoderDecode_encoderEncode (m : GoMap) (hm : mapOK m) :
    ∃ m', decoderDecode (encoderEncode (some m)) ∅ = .ok (some m')
      ∧ ∀ key, m'.lookup key = m.lookup key := by
  refine ⟨(sortedKeys m).foldl (fun a x => a.insert x (mapIndex m x)) ∅, ?_, ?_⟩
  · unfold decoderDecode
    rw [parseValue_encoderEncode]
    have hmap : (sortedKeys m).map
          (fun x => (coerceUTF8 x, JVal.str (coerceUTF8 (mapIndex m x))))
        = (sortedKeys m).map (fun x => (x, JVal.str (mapIndex m x))) := by
      apply List.map_congr_left
      intro k hk
      rw [coerceUTF8_of_Valid k (key_valid m hm k ((mem_sortedKeys m k).mp hk)),
        coerceUTF8_of_Valid _ (mapIndex_valid m hm k)]
    simp only [hmap, decodeMap]
    rw [foldl_decodeMapMember_str (sortedKeys m) (fun x => x) (fun x => mapIndex m x)]
  · intro key
    rw [lookup_foldl_insert]
    by_cases hk : key ∈ sortedKeys m
    · rw [if_pos hk]
      have hk' : key ∈ m := AList.mem_keys.mpr ((mem_sortedKeys m key).mp hk)
      obtain ⟨v, hv⟩ := Option.isSome_iff_exists.mp (AList.lookup_isSome.mpr hk')
      simp [mapIndex, hv]
    · rw [if_neg hk]
      have hk' : key ∉ m := fun h => hk ((mem_sortedKeys m key).mpr (AList.mem_keys.mp h))
      rw [AList.lookup_eq_none.mpr hk']
      rfl

/-! ### Snapshot, Persist, Restore -/

theorem lookup_copyEntries (key : Bytes) (l : List (Sigma fun _ : Bytes => Bytes)) :
    ∀ (dst : GoMap), l.NodupKeys →
      (copyEntries dst l).lookup key = match List.dlookup key l with
        | some v => some v
        | none => dst.lookup key := by
  induction l with
  | nil => intro dst _; rfl
  | cons e rest ih =>
    intro dst hnd
    rw [List.nodupKeys_cons] at hnd
    simp only [copyEntries]
    rw [ih _ hnd.2]
    by_cases hk : key = e.1
    · subst hk
      have h1 : List.dlookup e.1 rest = none := List.dlookup_eq_none.mpr hnd.1
      have h2 : List.dlookup e.1 (e :: rest) = some e.2 := by
        obtain ⟨k, v⟩ := e
        exact List.dlookup_cons_eq rest k v
      rw [h1, h2, AList.lookup_insert]
    · rw [List.dlookup_cons_ne rest e hk, AList.lookup_insert_ne hk]

theorem lookup_copyEntries_empty (m : GoMap) (key : Bytes) :
    (copyEntries ∅ m.entries).lookup key = m.lookup key := by
  rw [lookup_copyEntries key m.entries ∅ m.nodupKeys]
  have : (∅ : GoMap).lookup key = none := rfl
  rw [this]
  show _ = List.dlookup key m.entries
  cases List.dlookup key m.entries <;> rfl

theorem mapOK_copyEntries (l : List (Sigma fun _ : Bytes => Bytes)) :
    ∀ (dst : GoMap), mapOK dst → (∀ e ∈ l, Valid e.1 ∧ Valid e.2) →
      mapOK (copyEntries dst l) := by
  induction l with
  | nil => intro dst hd _; exact hd
  | cons e rest ih =>
    intro dst hd hl
    simp only [copyEntries]
    have he := hl e (List.mem_cons_self _ _)
    exact ih _ (mapOK_insert dst e.1 e.2 hd he.1 he.2)
      (fun x hx => hl x (List.mem_cons_of_mem _ hx))

theorem Reach_invariant (f : FSM) (h : Heap) (hr : Reach f h) :
    ∃ a, f.data = some a ∧ a < h.next ∧ mapOK (h.cells a) := by
  induction hr with
  | init h0 =>
    refine ⟨h0.next, rfl, ?_, ?_⟩
    · simp [NewFSM, Heap.make]
    · have : (NewFSM h0).2.cells h0.next = ∅ := make_cells_new h0
      rw [this]
      exact mapOK_empty
  | apply f h logData resp h1 _ ha ih =>
    obtain ⟨a, hf, hlt, hok⟩ := ih
    refine ⟨a, hf, ?_⟩
    unfold FSM.Apply at ha
    cases hdec : unmarshalCommand logData with
    | error err =>
      rw [hdec] at ha
      simp only [ApplyResult.returned.injEq] at ha
      rw [← ha.2]
      exact ⟨hlt, hok⟩
    | ok cmd =>
      rw [hdec] at ha
      simp only [hf] at ha
      have hwf := unmarshalCommand_wellFormed logData cmd hdec
      by_cases hs : cmd.Op = strSet
      · rw [if_pos hs] at ha
        simp only [ApplyResult.returned.injEq] at ha
        rw [← ha.2]
        refine ⟨hlt, ?_⟩
        simp only [Heap.store, Function.update_same]
        exact mapOK_insert _ _ _ hok hwf.2.1 hwf.2.2
      · rw [if_neg hs] at ha
        by_cases hd : cmd.Op = strDelete
        · rw [if_pos hd] at ha
          simp only [ApplyResult.returned.injEq] at ha
          rw [← ha.2]
          refine ⟨hlt, ?_⟩
          simp only [Heap.store, Function.update_same]
          exact mapOK_erase _ _ hok
        · rw [if_neg hd] at ha
          simp only [ApplyResult.returned.injEq] at ha
          rw [← ha.2]
          exact ⟨hlt, hok⟩

theorem Snapshot_cell (f : FSM) (h : Heap) :
    (f.Snapshot h).1.data = some h.next
      ∧ (f.Snapshot h).2.cells h.next = copyEntries ∅ (h.read f.data).entries := by
  constructor
  · rfl
  · simp only [FSM.Snapshot, Heap.store, Function.update_same]
    have : (Heap.make h).2.cells (Heap.make h).1 = ∅ := make_cells_new h
    rw [this]
    simp [Heap.make]

/-- C5: for every state reached from `NewFSM` by applied log entries, every
target FSM and every new sink that accepts the write and the close: `Snapshot`,
then `Persist`, then `Restore` of the persisted bytes into the target all
succeed, and afterwards `Get` on the target returns for every key what `Get`
returned on the state the snapshot was taken of; keys the target held before
and the snapshot does not hold are not found. -/
theorem C5_snapshot_roundtrip (f : FSM) (h : Heap) (hr : Reach f h) (target : FSM)
    (sink : SnapshotSink) (hnew : sink.written = []) (hw : sink.writeErr = none)
    (hc : sink.closeErr = none) :
    ((f.Snapshot h).1.Persist (f.Snapshot h).2 sink).1 = none
      ∧ (target.Restore (f.Snapshot h).2
          ((f.Snapshot h).1.Persist (f.Snapshot h).2 sink).2.written).1 = none
      ∧ ∀ key,
          (target.Restore (f.Snapshot h).2
              ((f.Snapshot h).1.Persist (f.Snapshot h).2 sink).2.written).2.1.Get
            (target.Restore (f.Snapshot h).2
              ((f.Snapshot h).1.Persist (f.Snapshot h).2 sink).2.written).2.2 key
            = f.Get h key := by
  obtain ⟨a, hf, _, hok⟩ := Reach_invariant f h hr
  obtain ⟨hsd, hsc⟩ := Snapshot_cell f h
  have hread : h.read f.data = h.cells a := by simp [Heap.read, hf]
  rw [hread] at hsc
  have hcopyOK : mapOK (copyEntries ∅ (h.cells a).entries) :=
    mapOK_copyEntries _ ∅ mapOK_empty hok
  obtain ⟨m', hdec, hlook⟩ := decoderDecode_encoderEncode _ hcopyOK
  have hP : (f.Snapshot h).1.Persist (f.Snapshot h).2 sink
      = (none, { sink with
          written := encoderEncode (some (copyEntries ∅ (h.cells a).entries)),
          closed := true }) := by
    simp only [fsmSnapshot.Persist, hw, hc, hsd, hsc, hnew, List.nil_append]
  rw [hP]
  simp only
  have hR : target.Restore (f.Snapshot h).2
        (encoderEncode (some (copyEntries ∅ (h.cells a).entries)))
      = (none, { data := some (Heap.make (f.Snapshot h).2).1 },
          (Heap.make (f.Snapshot h).2).2.store (Heap.make (f.Snapshot h).2).1 m') := by
    simp only [FSM.Restore, make_cells_new, hdec]
  rw [hR]
  refine ⟨trivial, rfl, fun key => ?_⟩
  simp only
  rw [Get_store_same _ _ _ _ rfl key, hlook, lookup_copyEntries_empty, Get_some f h a hf]

theorem reach_heap1 : Reach fsm0 heap1 :=
  Reach.apply fsm0 (NewFSM Heap.empty).2 (encodeCommand ⟨strSet, [0x6B], [0x76]⟩) none heap1
    (Reach.init Heap.empty) rfl

theorem C5_snapshot_roundtrip_witness :
    ((fsm0.Snapshot heap1).1.Persist (fsm0.Snapshot heap1).2 SnapshotSink.fresh).1 = none
      ∧ (fsm0.Restore (fsm0.Snapshot heap1).2
          ((fsm0.Snapshot heap1).1.Persist (fsm0.Snapshot heap1).2
            SnapshotSink.fresh).2.written).1 = none
      ∧ ∀ key,
          (fsm0.Restore (fsm0.Snapshot heap1).2
              ((fsm0.Snapshot heap1).1.Persist (fsm0.Snapshot heap1).2
                SnapshotSink.fresh).2.written).2.1.Get
            (fsm0.Restore (fsm0.Snapshot heap1).2
              ((fsm0.Snapshot heap1).1.Persist (fsm0.Snapshot heap1).2
                SnapshotSink.fresh).2.written).2.2 key
            = fsm0.Get heap1 key :=
  C5_snapshot_roundtrip fsm0 heap1 reach_heap1 fsm0 SnapshotSink.fresh rfl rfl rfl

/-! ### The order of the keys -/

theorem strLess_asymm : ∀ (a b : Bytes), strLess a b = true → strLess b a = false := by
  intro a
  induction a with
  | nil => intro b _; cases b <;> rfl
  | cons x xs ih =>
    intro b h
    cases b with
    | nil => simp [strLess] at h
    | cons y ys =>
      simp only [strLess, Bool.or_eq_true, decide_eq_true_eq, Bool.and_eq_true] at h
      simp only [strLess, Bool.or_eq_false_iff, decide_eq_false_iff_not, Bool.and_eq_false_imp,
        decide_eq_true_eq]
      rcases h with h | ⟨h1, h2⟩
      · exact ⟨by omega, fun e => by omega⟩
      · exact ⟨by omega, fun _ => ih ys h2⟩

theorem strLess_antisymm : ∀ (a b : Bytes), strLess b a = false → strLess a b = false →
    a = b := by
  intro a
  induction a with
  | nil =>
    intro b _ h2
    cases b with
    | nil => rfl
    | cons y ys => simp [strLess] at h2
  | cons x xs ih =>
    intro b h1 h2
    cases b with
    | nil => simp [strLess] at h1
    | cons y ys =>
      simp only [strLess, Bool.or_eq_false_iff, decide_eq_false_iff_not, Bool.and_eq_false_imp,
        decide_eq_true_eq] at h1 h2
      have hxy : x = y := by omega
      subst hxy
      rw [ih ys (h1.2 rfl) (h2.2 rfl)]

theorem strLess_le_trans : ∀ (a b c : Bytes), strLess b a = false → strLess c b = false →
    strLess c a = false := by
  intro a
  induction a with
  | nil => intro b c _ _; cases c <;> rfl
  | cons x xs ih =>
    intro b c h1 h2
    cases b with
    | nil => simp [strLess] at h1
    | cons y ys =>
      cases c with
      | nil => simp [strLess] at h2
      | cons z zs =>
        simp only [strLess, Bool.or_eq_false_iff, decide_eq_false_iff_not,
          Bool.and_eq_false_imp, decide_eq_true_eq] at h1 h2 ⊢
        refine ⟨by omega, fun e => ?_⟩
        have hzy : z = y := by omega
        have hyx : y = x := by omega
        exact ih ys zs (h1.2 hyx) (h2.2 hzy)

theorem strLess_total (a b : Bytes) : strLess b a = false ∨ strLess a b = false := by
  cases h : strLess b a with
  | false => exact Or.inl rfl
  | true => exact Or.inr (strLess_asymm b a h)

theorem sortedKeys_congr (m1 m2 : GoMap) (hp : m1.keys.Perm m2.keys) :
    sortedKeys m1 = sortedKeys m2 := by
  unfold sortedKeys
  haveI : IsTotal Bytes (fun a b => strLess b a = false) := ⟨strLess_total⟩
  haveI : IsTrans Bytes (fun a b => strLess b a = false) := ⟨strLess_le_trans⟩
  haveI : IsAntisymm Bytes (fun a b => strLess b a = false) := ⟨strLess_antisymm⟩
  apply List.eq_of_perm_of_sorted (r := fun a b => strLess b a = false)
  · exact ((List.perm_insertionSort _ _).trans hp).trans (List.perm_insertionSort _ _).symm
  · exact List.sorted_insertionSort _ _
  · exact List.sorted_insertionSort _ _

theorem keys_perm_of_lookup (m1 m2 : GoMap) (hl : ∀ key, m1.lookup key = m2.lookup key) :
    m1.keys.Perm m2.keys := by
  have hp : m1.entries.Perm m2.entries := by
    apply List.lookup_ext m1.nodupKeys m2.nodupKeys
    intro x y
    have := hl x
    simp only [AList.lookup] at this
    rw [this]
  exact hp.map _

theorem encodeMembers_congr (m1 m2 : GoMap) (hl : ∀ key, m1.lookup key = m2.lookup key)
    (ks : List Bytes) : encodeMembers m1 ks = encodeMembers m2 ks := by
  have hi : ∀ k, mapIndex m1 k = mapIndex m2 k := fun k => by simp [mapIndex, hl k]
  induction ks with
  | nil => rfl
  | cons k ks ih =>
    cases ks with
    | nil => simp [encodeMembers, hi]
    | cons k2 ks => simp only [encodeMembers, hi, ih]

/-- The bytes written for a map depend on its lookups only. -/
theorem encoderEncode_congr (m1 m2 : GoMap) (hl : ∀ key, m1.lookup key = m2.lookup key) :
    encoderEncode (some m1) = encoderEncode (some m2) := by
  simp only [encoderEncode, encodeMap]
  rw [sortedKeys_congr m1 m2 (keys_perm_of_lookup m1 m2 hl), encodeMembers_congr m1 m2 hl]

/-! ### The snapshot is a copy -/

theorem call_frame (p : Nat) (f : FSM) (h : Heap) (c : Call) (hp : p < h.next)
    (hf : ∀ a, f.data = some a → a < h.next ∧ a ≠ p) :
    p < (f.call h c).2.next
      ∧ (∀ a, (f.call h c).1.data = some a → a < (f.call h c).2.next ∧ a ≠ p)
      ∧ (f.call h c).2.cells p = h.cells p := by
  cases c with
  | apply logData =>
    simp only [FSM.call, FSM.Apply]
    cases unmarshalCommand logData with
    | error err => exact ⟨hp, hf, rfl⟩
    | ok cmd =>
      simp only
      by_cases hs : cmd.Op = strSet
      · rw [if_pos hs]
        cases hd : f.data with
        | none => exact ⟨hp, fun a ha => (by cases ha), rfl⟩
        | some a =>
          have ha := hf a hd
          refine ⟨hp, fun b hb => hf b (hd.trans hb), ?_⟩
          simp only [ApplyResult.heapOr, Heap.store]
          exact Function.update_noteq (fun e => ha.2 e.symm) _ _
      · rw [if_neg hs]
        by_cases hdel : cmd.Op = strDelete
        · rw [if_pos hdel]
          cases hd : f.data with
          | none => exact ⟨hp, fun a ha => (by cases ha), rfl⟩
          | some a =>
            have ha := hf a hd
            refine ⟨hp, fun b hb => hf b (hd.trans hb), ?_⟩
            simp only [ApplyResult.heapOr, Heap.store]
            exact Function.update_noteq (fun e => ha.2 e.symm) _ _
        · rw [if_neg hdel]
          exact ⟨hp, hf, rfl⟩
  | restore src =>
    have hmk : (Heap.make h).2.cells p = h.cells p := make_cells_old h p hp
    have hnext : (Heap.make h).2.next = h.next + 1 := rfl
    have haddr : (Heap.make h).1 = h.next := rfl
    simp only [FSM.call, FSM.Restore]
    cases decoderDecode src ((Heap.make h).2.cells (Heap.make h).1) with
    | error err =>
      refine ⟨(by simp only [hnext]; omega), fun a ha => ?_, hmk⟩
      have := hf a ha
      simp only [hnext]
      exact ⟨by omega, this.2⟩
    | ok res =>
      cases res with
      | none =>
        refine ⟨(by simp only [hnext]; omega), fun a ha => (by cases ha), hmk⟩
      | some m =>
        refine ⟨(by simp only [Heap.store, hnext]; omega), fun a ha => ?_, ?_⟩
        · simp only [Option.some.injEq] at ha
          simp only [Heap.store, hnext]
          rw [← ha, haddr]
          exact ⟨by omega, by omega⟩
        · simp only [Heap.store]
          rw [Function.update_noteq (by rw [haddr]; omega), hmk]

theorem calls_frame (p : Nat) (cs : List Call) : ∀ (f : FSM) (h : Heap), p < h.next →
    (∀ a, f.data = some a → a < h.next ∧ a ≠ p) →
    (f.calls h cs).2.cells p = h.cells p := by
  induction cs with
  | nil => intro f h _ _; rfl
  | cons c rest ih =>
    intro f h hp hf
    obtain ⟨h1, h2, h3⟩ := call_frame p f h c hp hf
    simp only [FSM.calls]
    rw [ih _ _ h1 h2, h3]

/-- C7: for every FSM whose map is nil or allocated, the map the handle
returned by `Snapshot` holds has, at the moment of the call, the lookups of the
FSM's map; after any sequence of `Apply` and `Restore` calls on the FSM the
handle's map is still the same map object with the same contents, and what
`Persist` then writes to a sink that accepts the write is the serialization of
the FSM's mapping as it was when the snapshot was taken. -/
theorem C7_snapshot_is_copy (f : FSM) (h : Heap) (hal : f.allocated h) :
    (∀ key, ((f.Snapshot h).2.read (f.Snapshot h).1.data).lookup key
        = (h.read f.data).lookup key)
      ∧ ∀ (cs : List Call),
          (f.calls (f.Snapshot h).2 cs).2.read (f.Snapshot h).1.data
            = (f.Snapshot h).2.read (f.Snapshot h).1.data
          ∧ ∀ (sink : SnapshotSink), sink.writeErr = none →
              ((f.Snapshot h).1.Persist (f.calls (f.Snapshot h).2 cs).2 sink).2.written
                = sink.written ++ encoderEncode (some (h.read f.data)) := by
  obtain ⟨hsd, hsc⟩ := Snapshot_cell f h
  have hlook : ∀ key, ((f.Snapshot h).2.read (f.Snapshot h).1.data).lookup key
      = (h.read f.data).lookup key := by
    intro key
    simp only [hsd, Heap.read] at hsc ⊢
    rw [hsc]
    exact lookup_copyEntries_empty _ key
  refine ⟨hlook, fun cs => ?_⟩
  have hnext : (f.Snapshot h).2.next = h.next + 1 := rfl
  have hframe : (f.calls (f.Snapshot h).2 cs).2.cells h.next = (f.Snapshot h).2.cells h.next :=
    calls_frame h.next cs f (f.Snapshot h).2 (by rw [hnext]; omega)
      (fun a ha => by
        have := hal a ha
        rw [hnext]
        exact ⟨by omega, by omega⟩)
  have hread : (f.calls (f.Snapshot h).2 cs).2.read (f.Snapshot h).1.data
      = (f.Snapshot h).2.read (f.Snapshot h).1.data := by
    simp only [hsd, Heap.read]
    exact hframe
  refine ⟨hread, fun sink hw => ?_⟩
  simp only [fsmSnapshot.Persist, hw, hsd]
  rw [hframe]
  congr 1
  apply encoderEncode_congr
  intro key
  have := hlook key
  simp only [hsd, Heap.read] at this
  exact this

theorem C7_snapshot_is_copy_witness :
    (∀ key, ((fsm0.Snapshot heap1).2.read (fsm0.Snapshot heap1).1.data).lookup key
        = (heap1.read fsm0.data).lookup key)
      ∧ ∀ (cs : List Call),
          (fsm0.calls (fsm0.Snapshot heap1).2 cs).2.read (fsm0.Snapshot heap1).1.data
            = (fsm0.Snapshot heap1).2.read (fsm0.Snapshot heap1).1.data
          ∧ ∀ (sink : SnapshotSink), sink.writeErr = none →
              ((fsm0.Snapshot heap1).1.Persist (fsm0.calls (fsm0.Snapshot heap1).2 cs).2
                  sink).2.written
                = sink.written ++ encoderEncode (some (heap1.read fsm0.data)) :=
  C7_snapshot_is_copy fsm0 heap1 (by intro a ha; cases ha; decide)

/-! ### The bounds on the number of steps are enough -/

theorem skipSpace_length (inp : Bytes) : (skipSpace inp).length ≤ inp.length := by
  induction inp with
  | nil => simp [skipSpace]
  | cons c t ih =>
    simp only [skipSpace]
    by_cases h : isSpace c = true
    · rw [if_pos h]; simp only [List.length_cons]; omega
    · rw [if_neg h]

theorem pushRaw_length (c : Nat) (r : Option (Bytes × Bytes)) (raw rest : Bytes) (n : Nat)
    (hr : ∀ raw' rest', r = some (raw', rest') → rest'.length < n)
    (h : pushRaw c r = some (raw, rest)) : rest.length < n := by
  cases r with
  | none => simp [pushRaw] at h
  | some p =>
    simp only [pushRaw, Option.map_some', Option.some.injEq, Prod.mk.injEq] at h
    rw [← h.2]
    exact hr p.1 p.2 rfl

theorem scanString_length : ∀ (inp : Bytes) (st : StrState) (raw rest : Bytes),
    scanString st inp = some (raw, rest) → rest.length < inp.length := by
  intro inp
  induction inp with
  | nil => intro st raw rest h; cases st <;> simp [scanString] at h
  | cons c t ih =>
    intro st raw rest h
    have hstep : ∀ (st' : StrState), pushRaw c (scanString st' t) = some (raw, rest) →
        rest.length < (c :: t).length := by
      intro st' h'
      have := pushRaw_length c _ raw rest t.length (fun raw' rest' e => ih st' raw' rest' e) h'
      simp only [List.length_cons]
      omega
    cases st with
    | inString =>
      simp only [scanString] at h
      by_cases h1 : c = 0x22
      · rw [if_pos h1] at h
        simp only [Option.some.injEq, Prod.mk.injEq] at h
        rw [← h.2]; simp
      rw [if_neg h1] at h
      by_cases h2 : c = 0x5C
      · rw [if_pos h2] at h; exact hstep _ h
      rw [if_neg h2] at h
      by_cases h3 : c < 0x20
      · rw [if_pos h3] at h; simp at h
      rw [if_neg h3] at h
      exact hstep _ h
    | inStringEsc =>
      simp only [scanString] at h
      by_cases h1 : c = 0x62 ∨ c = 0x66 ∨ c = 0x6E ∨ c = 0x72 ∨ c = 0x74 ∨ c = 0x5C ∨ c = 0x2F
          ∨ c = 0x22
      · rw [if_pos h1] at h; exact hstep _ h
      rw [if_neg h1] at h
      by_cases h2 : c = 0x75
      · rw [if_pos h2] at h; exact hstep _ h
      rw [if_neg h2] at h
      simp at h
    | inStringEscU =>
      simp only [scanString] at h
      by_cases h1 : isHex c = true
      · rw [if_pos h1] at h; exact hstep _ h
      · rw [if_neg h1] at h; simp at h
    | inStringEscU1 =>
      simp only [scanString] at h
      by_cases h1 : isHex c = true
      · rw [if_pos h1] at h; exact hstep _ h
      · rw [if_neg h1] at h; simp at h
    | inStringEscU12 =>
      simp only [scanString] at h
      by_cases h1 : isHex c = true
      · rw [if_pos h1] at h; exact hstep _ h
      · rw [if_neg h1] at h; simp at h
    | inStringEscU123 =>
      simp only [scanString] at h
      by_cases h1 : isHex c = true
      · rw [if_pos h1] at h; exact hstep _ h
      · rw [if_neg h1] at h; simp at h

theorem readString_length (inp s rest : Bytes) (h : readString inp = some (s, rest)) :
    rest.length < inp.length := by
  unfold readString at h
  cases hs : scanString .inString inp with
  | none => rw [hs] at h; simp at h
  | some p =>
    obtain ⟨raw, rest1⟩ := p
    rw [hs] at h
    simp only at h
    cases hu : unquoteBytes raw with
    | none => rw [hu] at h; simp at h
    | some t =>
      rw [hu] at h
      simp only [Option.some.injEq, Prod.mk.injEq] at h
      rw [← h.2]
      exact scanString_length inp _ raw rest1 hs

theorem scanNumber_length : ∀ (inp : Bytes) (st : NumState) (rest : Bytes),
    scanNumber st inp = some rest → rest.length ≤ inp.length := by
  intro inp
  induction inp with
  | nil =>
    intro st rest h
    cases st <;> simp [scanNumber] at h <;> simp [← h]
  | cons c t ih =>
    intro st rest h
    have hrec : ∀ st', scanNumber st' t = some rest → rest.length ≤ (c :: t).length := by
      intro st' h'
      have := ih st' rest h'
      simp only [List.length_cons]; omega
    have hend : some (c :: t) = some rest → rest.length ≤ (c :: t).length := by
      intro e
      simp only [Option.some.injEq] at e
      rw [← e]
    cases st with
    | neg =>
      simp only [scanNumber] at h
      by_cases h1 : c = 0x30
      · rw [if_pos h1] at h; exact hrec _ h
      rw [if_neg h1] at h
      by_cases h2 : 0x31 ≤ c ∧ c ≤ 0x39
      · rw [if_pos h2] at h; exact hrec _ h
      · rw [if_neg h2] at h; simp at h
    | zero =>
      simp only [scanNumber] at h
      by_cases h1 : c = 0x2E
      · rw [if_pos h1] at h; exact hrec _ h
      rw [if_neg h1] at h
      by_cases h2 : c = 0x65 ∨ c = 0x45
      · rw [if_pos h2] at h; exact hrec _ h
      · rw [if_neg h2] at h; exact hend h
    | one =>
      simp only [scanNumber] at h
      by_cases h0 : isDigit c = true
      · rw [if_pos h0] at h; exact hrec _ h
      rw [if_neg h0] at h
      by_cases h1 : c = 0x2E
      · rw [if_pos h1] at h; exact hrec _ h
      rw [if_neg h1] at h
      by_cases h2 : c = 0x65 ∨ c = 0x45
      · rw [if_pos h2] at h; exact hrec _ h
      · rw [if_neg h2] at h; exact hend h
    | dot =>
      simp only [scanNumber] at h
      by_cases h0 : isDigit c = true
      · rw [if_pos h0] at h; exact hrec _ h
      · rw [if_neg h0] at h; simp at h
    | dot0 =>
      simp only [scanNumber] at h
      by_cases h0 : isDigit c = true
      · rw [if_pos h0] at h; exact hrec _ h
      rw [if_neg h0] at h
      by_cases h2 : c = 0x65 ∨ c = 0x45
      · rw [if_pos h2] at h; exact hrec _ h
      · rw [if_neg h2] at h; exact hend h
    | e =>
      simp only [scanNumber] at h
      by_cases h1 : c = 0x2B ∨ c = 0x2D
      · rw [if_pos h1] at h; exact hrec _ h
      rw [if_neg h1] at h
      by_cases h0 : isDigit c = true
      · rw [if_pos h0] at h; exact hrec _ h
      · rw [if_neg h0] at h; simp at h
    | eSign =>
      simp only [scanNumber] at h
      by_cases h0 : isDigit c = true
      · rw [if_pos h0] at h; exact hrec _ h
      · rw [if_neg h0] at h; simp at h
    | e0 =>
      simp only [scanNumber] at h
      by_cases h0 : isDigit c = true
      · rw [if_pos h0] at h; exact hrec _ h
      · rw [if_neg h0] at h; exact hend h

theorem readScalar_length (c : Nat) (rest : Bytes) (v : JVal) (rest1 : Bytes)
    (h : readScalar c rest = some (v, rest1)) : rest1.length ≤ rest.length := by
  unfold readScalar at h
  have hnum : ∀ st, (scanNumber st rest).map (fun r => (JVal.number, r)) = some (v, rest1) →
      rest1.length ≤ rest.length := by
    intro st ho
    cases hn : scanNumber st rest with
    | none => rw [hn] at ho; simp at ho
    | some r =>
      rw [hn] at ho
      simp only [Option.map_some', Option.some.injEq, Prod.mk.injEq] at ho
      rw [← ho.2]
      exact scanNumber_length rest st r hn
  by_cases h1 : c = 0x22
  · rw [if_pos h1] at h
    cases hr : readString rest with
    | none => rw [hr] at h; simp at h
    | some p =>
      obtain ⟨s, r⟩ := p
      rw [hr] at h
      simp only [Option.map_some', Option.some.injEq, Prod.mk.injEq] at h
      rw [← h.2]
      exact Nat.le_of_lt (readString_length rest s r hr)
  rw [if_neg h1] at h
  by_cases h2 : c = 0x2D
  · rw [if_pos h2] at h; exact hnum _ h
  rw [if_neg h2] at h
  by_cases h3 : c = 0x30
  · rw [if_pos h3] at h; exact hnum _ h
  rw [if_neg h3] at h
  by_cases h4 : 0x31 ≤ c ∧ c ≤ 0x39
  · rw [if_pos h4] at h; exact hnum _ h
  rw [if_neg h4] at h
  by_cases h5 : c = 0x74
  · rw [if_pos h5] at h
    split at h
    · simp only [Option.some.injEq, Prod.mk.injEq] at h
      rw [← h.2]; simp only [List.length_cons]; omega
    · simp at h
  rw [if_neg h5] at h
  by_cases h6 : c = 0x66
  · rw [if_pos h6] at h
    split at h
    · simp only [Option.some.injEq, Prod.mk.injEq] at h
      rw [← h.2]; simp only [List.length_cons]; omega
    · simp at h
  rw [if_neg h6] at h
  by_cases h7 : c = 0x6E
  · rw [if_pos h7] at h
    split at h
    · simp only [Option.some.injEq, Prod.mk.injEq] at h
      rw [← h.2]; simp only [List.length_cons]; omega
    · simp at h
  rw [if_neg h7] at h
  simp at h

theorem parseStep_bounded (k : Nat → Mode → Bytes → Option (JVal × Bytes)) (hk : Bounded k)
    (d : Nat) (mode : Mode) (inp : Bytes) (v : JVal) (rest : Bytes)
    (h : parseStep k d mode inp = some (v, rest)) :
    rest.length < inp.length
      ∧ ∀ F, inp.length ≤ F + rest.length → parse F d mode inp = some (v, rest) := by
  unfold parseStep at h
  cases mode with
  | value =>
    simp only at h
    cases hs : skipSpace inp with
    | nil => rw [hs] at h; simp at h
    | cons c r =>
      have hl := skipSpace_length inp
      rw [hs] at h hl
      simp only [List.length_cons] at hl
      simp only at h
      by_cases h1 : c = 0x7B
      · rw [if_pos h1] at h
        by_cases hd : maxNestingDepth < d + 1
        · rw [if_pos hd] at h; simp at h
        rw [if_neg hd] at h
        cases hs1 : skipSpace r with
        | nil => rw [hs1] at h; simp at h
        | cons c1 r1 =>
          have hl1 := skipSpace_length r
          rw [hs1] at h hl1
          simp only [List.length_cons] at hl1
          simp only at h
          by_cases h2 : c1 = 0x7D
          · rw [if_pos h2] at h
            simp only [Option.some.injEq, Prod.mk.injEq] at h
            obtain ⟨hv, hr⟩ := h
            subst hv hr
            refine ⟨by omega, fun F hF => ?_⟩
            obtain ⟨F', rfl⟩ : ∃ F', F = F' + 1 := ⟨F - 1, by omega⟩
            rw [parse]
            simp only [parseStep, ↓reduceIte, Nat.reduceEqDiff, hs, hs1, h1, hd, h2, if_true, if_false]
          · rw [if_neg h2] at h
            obtain ⟨hk1, hk2⟩ := hk _ _ _ _ _ h
            simp only [List.length_cons] at hk1 hk2
            refine ⟨by omega, fun F hF => ?_⟩
            obtain ⟨F', rfl⟩ : ∃ F', F = F' + 1 := ⟨F - 1, by omega⟩
            rw [parse]
            simp only [parseStep, ↓reduceIte, Nat.reduceEqDiff, hs, hs1, h1, hd, h2, if_true, if_false]
            exact hk2 F' (by omega)
      rw [if_neg h1] at h
      by_cases h3 : c = 0x5B
      · rw [if_pos h3] at h
        by_cases hd : maxNestingDepth < d + 1
        · rw [if_pos hd] at h; simp at h
        rw [if_neg hd] at h
        cases hs1 : skipSpace r with
        | nil => rw [hs1] at h; simp at h
        | cons c1 r1 =>
          have hl1 := skipSpace_length r
          rw [hs1] at h hl1
          simp only [List.length_cons] at hl1
          simp only at h
          by_cases h2 : c1 = 0x5D
          · rw [if_pos h2] at h
            simp only [Option.some.injEq, Prod.mk.injEq] at h
            obtain ⟨hv, hr⟩ := h
            subst hv hr
            refine ⟨by omega, fun F hF => ?_⟩
            obtain ⟨F', rfl⟩ : ∃ F', F = F' + 1 := ⟨F - 1, by omega⟩
            rw [parse]
            simp only [parseStep, ↓reduceIte, Nat.reduceEqDiff, hs, hs1, h1, h3, hd, h2, if_true, if_false]
          · rw [if_neg h2] at h
            obtain ⟨hk1, hk2⟩ := hk _ _ _ _ _ h
            simp only [List.length_cons] at hk1 hk2
            refine ⟨by omega, fun F hF => ?_⟩
            obtain ⟨F', rfl⟩ : ∃ F', F = F' + 1 := ⟨F - 1, by omega⟩
            rw [parse]
            simp only [parseStep, ↓reduceIte, Nat.reduceEqDiff, hs, hs1, h1, h3, hd, h2, if_true, if_false]
            exact hk2 F' (by omega)
      rw [if_neg h3] at h
      have hsc := readScalar_length c r v rest h
      refine ⟨by omega, fun F hF => ?_⟩
      obtain ⟨F', rfl⟩ : ∃ F', F = F' + 1 := ⟨F - 1, by omega⟩
      rw [parse]
      simp only [parseStep, ↓reduceIte, Nat.reduceEqDiff, hs, h1, h3, if_false]
      exact h
  | members acc =>
    simp only at h
    cases hs : skipSpace inp with
    | nil => rw [hs] at h; simp at h
    | cons c r =>
      have hl := skipSpace_length inp
      rw [hs] at h hl
      simp only [List.length_cons] at hl
      simp only at h
      by_cases h1 : c = 0x22
      · rw [if_pos h1] at h
        cases hr : readString r with
        | none => rw [hr] at h; simp at h
        | some p =>
          obtain ⟨key, r1⟩ := p
          rw [hr] at h
          simp only at h
          have hlr := readString_length r key r1 hr
          cases hs2 : skipSpace r1 with
          | nil => rw [hs2] at h; simp at h
          | cons c2 r2 =>
            have hl2 := skipSpace_length r1
            rw [hs2] at h hl2
            simp only [List.length_cons] at hl2
            simp only at h
            by_cases h2 : c2 = 0x3A
            · rw [if_pos h2] at h
              cases hv : k d .value r2 with
              | none => rw [hv] at h; simp at h
              | some q =>
                obtain ⟨v1, r3⟩ := q
                rw [hv] at h
                simp only at h
                obtain ⟨hv1, hv2⟩ := hk _ _ _ _ _ hv
                cases hs4 : skipSpace r3 with
                | nil => rw [hs4] at h; simp at h
                | cons c4 r4 =>
                  have hl4 := skipSpace_length r3
                  rw [hs4] at h hl4
                  simp only [List.length_cons] at hl4
                  simp only at h
                  by_cases h4 : c4 = 0x2C
                  · rw [if_pos h4] at h
                    obtain ⟨hk1, hk2⟩ := hk _ _ _ _ _ h
                    refine ⟨by omega, fun F hF => ?_⟩
                    obtain ⟨F', rfl⟩ : ∃ F', F = F' + 1 := ⟨F - 1, by omega⟩
                    rw [parse]
                    simp only [parseStep, ↓reduceIte, Nat.reduceEqDiff, hs, h1, hr, hs2, h2, hv2 F' (by omega), hs4, h4,
                      if_true]
                    exact hk2 F' (by omega)
                  rw [if_neg h4] at h
                  by_cases h5 : c4 = 0x7D
                  · rw [if_pos h5] at h
                    simp only [Option.some.injEq, Prod.mk.injEq] at h
                    obtain ⟨hv', hr'⟩ := h
                    subst hv' hr'
                    refine ⟨by omega, fun F hF => ?_⟩
                    obtain ⟨F', rfl⟩ : ∃ F', F = F' + 1 := ⟨F - 1, by omega⟩
                    rw [parse]
                    simp only [parseStep, ↓reduceIte, Nat.reduceEqDiff, hs, h1, hr, hs2, h2, hv2 F' (by omega), hs4, h4, h5,
                      if_true, if_false]
                  · rw [if_neg h5] at h; simp at h
            · rw [if_neg h2] at h; simp at h
      · rw [if_neg h1] at h; simp at h
  | elements acc =>
    simp only at h
    cases hv : k d .value inp with
    | none => rw [hv] at h; simp at h
    | some q =>
      obtain ⟨v1, r⟩ := q
      rw [hv] at h
      simp only at h
      obtain ⟨hv1, hv2⟩ := hk _ _ _ _ _ hv
      cases hs : skipSpace r with
      | nil => rw [hs] at h; simp at h
      | cons c r1 =>
        have hl := skipSpace_length r
        rw [hs] at h hl
        simp only [List.length_cons] at hl
        simp only at h
        by_cases h1 : c = 0x2C
        · rw [if_pos h1] at h
          obtain ⟨hk1, hk2⟩ := hk _ _ _ _ _ h
          refine ⟨by omega, fun F hF => ?_⟩
          obtain ⟨F', rfl⟩ : ∃ F', F = F' + 1 := ⟨F - 1, by omega⟩
          rw [parse]
          simp only [parseStep, ↓reduceIte, Nat.reduceEqDiff, hv2 F' (by omega), hs, h1, if_true]
          exact hk2 F' (by omega)
        rw [if_neg h1] at h
        by_cases h2 : c = 0x5D
        · rw [if_pos h2] at h
          simp only [Option.some.injEq, Prod.mk.injEq] at h
          obtain ⟨hv', hr'⟩ := h
          subst hv' hr'
          refine ⟨by omega, fun F hF => ?_⟩
          obtain ⟨F', rfl⟩ : ∃ F', F = F' + 1 := ⟨F - 1, by omega⟩
          rw [parse]
          simp only [parseStep, ↓reduceIte, Nat.reduceEqDiff, hv2 F' (by omega), hs, h1, h2, if_true, if_false]
        · rw [if_neg h2] at h; simp at h

theorem parse_bounded (n : Nat) : Bounded (parse n) := by
  induction n with
  | zero => intro d mode inp v rest h; simp [parse] at h
  | succ n ih =>
    intro d mode inp v rest h
    rw [parse] at h
    exact parseStep_bounded (parse n) ih d mode inp v rest h

/-- The number of steps `parseValue` allows is enough: a value that any number
of steps reads from `data` is the value `parseValue` reads. -/
theorem parseValue_complete (data : Bytes) (r : JVal × Bytes) :
    parseValue data = some r ↔ ∃ n, parse n 0 .value data = some r := by
  constructor
  · intro h; exact ⟨_, h⟩
  · rintro ⟨n, h⟩
    obtain ⟨v, rest⟩ := r
    exact (parse_bounded n 0 .value data v rest h).2 _ (by omega)

theorem decodeRune_size_pos (c : Nat) (rest : Bytes) (h80 : ¬ c < 0x80) :
    1 ≤ (decodeRune (c :: rest)).2 := by
  rcases decodeRune_cases c rest (by omega) with h | h
  · rw [h]
  · have := (runeShape_facts h).2.2.2.1
    omega

theorem unquoteStep_congr (k k' : Bytes → Option Bytes) (c : Nat) (rest : Bytes)
    (h : ∀ x : Bytes, x.length ≤ rest.length → k x = k' x) :
    unquoteStep k c rest = unquoteStep k' c rest := by
  unfold unquoteStep
  by_cases h1 : c = 0x5C
  · rw [if_pos h1, if_pos h1]
    rcases rest with _ | ⟨e, rest1⟩
    · rfl
    · have hd6 : k ((c :: e :: rest1).drop 6) = k' ((c :: e :: rest1).drop 6) :=
        h _ (by simp only [List.length_drop, List.length_cons]; omega)
      have hd12 : k ((c :: e :: rest1).drop 12) = k' ((c :: e :: rest1).drop 12) :=
        h _ (by simp only [List.length_drop, List.length_cons]; omega)
      have hr1 : k rest1 = k' rest1 := h _ (by simp only [List.length_cons]; omega)
      simp only [hd6, hd12, hr1]
  · rw [if_neg h1, if_neg h1]
    by_cases h2 : c = 0x22 ∨ c < 0x20
    · rw [if_pos h2, if_pos h2]
    rw [if_neg h2, if_neg h2]
    by_cases h3 : c < 0x80
    · rw [if_pos h3, if_pos h3, h rest (le_refl _)]
    · rw [if_neg h3, if_neg h3]
      have := decodeRune_size_pos c rest h3
      rw [h _ (by simp only [List.length_drop, List.length_cons]; omega)]

/-- The number of iterations `unquoteBytes` allows is enough: any bound from
the length of the literal on gives the same result. -/
theorem unquoteAux_fuel (n : Nat) : ∀ (m : Nat) (s : Bytes), s.length ≤ n → s.length ≤ m →
    unquoteAux n s = unquoteAux m s := by
  induction n with
  | zero =>
    intro m s hn _
    have : s = [] := List.length_eq_zero.mp (by omega)
    subst this
    cases m <;> rfl
  | succ n ih =>
    intro m s hn hm
    rcases s with _ | ⟨c, rest⟩
    · cases m <;> rfl
    · obtain ⟨m', rfl⟩ : ∃ m', m = m' + 1 :=
        ⟨m - 1, by simp only [List.length_cons] at hm; omega⟩
      simp only [unquoteAux]
      apply unquoteStep_congr
      intro x hx
      simp only [List.length_cons] at hn hm
      exact ih m' x (by omega) (by omega)

/-! ### Truncated input -/

theorem skipSpace_take (inp : Bytes) : ∀ j : Nat,
    skipSpace (inp.take j)
      = (skipSpace inp).take (j - (inp.length - (skipSpace inp).length)) := by
  induction inp with
  | nil => intro j; simp [skipSpace]
  | cons c t ih =>
    intro j
    cases j with
    | zero => simp [skipSpace]
    | succ j =>
      have hl := skipSpace_length t
      rw [List.take_succ_cons]
      simp only [skipSpace]
      by_cases h : isSpace c = true
      · rw [if_pos h, if_pos h, ih j]
        congr 1
        simp only [List.length_cons]
        omega
      · rw [if_neg h, if_neg h]
        simp

theorem skipSpace_take_cons (inp : Bytes) (c : Nat) (r : Bytes) (hs : skipSpace inp = c :: r)
    (j : Nat) :
    (j + r.length < inp.length ∧ skipSpace (inp.take j) = [])
      ∨ ∃ j2, j = j2 + (inp.length - r.length) ∧ skipSpace (inp.take j) = c :: r.take j2 := by
  have hl := skipSpace_length inp
  rw [skipSpace_take, hs]
  rw [hs] at hl
  simp only [List.length_cons] at hl ⊢
  by_cases hj : j + r.length < inp.length
  · left
    refine ⟨hj, ?_⟩
    have : j - (inp.length - (r.length + 1)) = 0 := by omega
    rw [this]
    rfl
  · right
    refine ⟨j - (inp.length - r.length), by omega, ?_⟩
    have : j - (inp.length - (r.length + 1)) = (j - (inp.length - r.length)) + 1 := by omega
    rw [this, List.take_succ_cons]

theorem pushRaw_eq_some (c : Nat) (o : Option (Bytes × Bytes)) (raw rest : Bytes)
    (h : pushRaw c o = some (raw, rest)) : ∃ raw', o = some (raw', rest) ∧ raw = c :: raw' := by
  cases o with
  | none => simp [pushRaw] at h
  | some p =>
    obtain ⟨a, b⟩ := p
    simp only [pushRaw, Option.map_some', Option.some.injEq, Prod.mk.injEq] at h
    exact ⟨a, by rw [h.2], h.1.symm⟩

theorem scanString_take : ∀ (inp : Bytes) (st : StrState) (raw rest : Bytes) (j : Nat),
    scanString st inp = some (raw, rest) →
    scanString st (inp.take j)
      = if j + rest.length < inp.length then none
        else some (raw, rest.take (j - (inp.length - rest.length))) := by
  intro inp
  induction inp with
  | nil => intro st raw rest j h; cases st <;> simp [scanString] at h
  | cons c t ih =>
    intro st raw rest j h
    have hlen := scanString_length (c :: t) st raw rest h
    simp only [List.length_cons] at hlen
    cases j with
    | zero =>
      have : scanString st ((c :: t).take 0) = none := by cases st <;> rfl
      rw [this, if_pos (by simp only [List.length_cons]; omega)]
    | succ j =>
      rw [List.take_succ_cons]
      have hstep : ∀ (st' : StrState), pushRaw c (scanString st' t) = some (raw, rest) →
          pushRaw c (scanString st' (t.take j))
            = if j + 1 + rest.length < (c :: t).length then none
              else some (raw, rest.take (j + 1 - ((c :: t).length - rest.length))) := by
        intro st' h'
        obtain ⟨raw', h1, h2⟩ := pushRaw_eq_some c _ raw rest h'
        have hl := scanString_length t st' raw' rest h1
        rw [ih st' raw' rest j h1]
        simp only [List.length_cons]
        by_cases hj : j + rest.length < t.length
        · rw [if_pos hj, if_pos (by omega)]; rfl
        · rw [if_neg hj, if_neg (by omega), h2]
          simp only [pushRaw, Option.map_some']
          congr 3
          omega
      cases st with
      | inString =>
        simp only [scanString] at h ⊢
        by_cases h1 : c = 0x22
        · rw [if_pos h1] at h
          rw [if_pos h1]
          simp only [Option.some.injEq, Prod.mk.injEq] at h
          obtain ⟨hr, ht⟩ := h
          subst hr ht
          simp only [List.length_cons]
          rw [if_neg (by omega)]
          congr 3
          omega
        rw [if_neg h1] at h
        rw [if_neg h1]
        by_cases h2 : c = 0x5C
        · rw [if_pos h2] at h
          rw [if_pos h2]; exact hstep _ h
        rw [if_neg h2] at h
        rw [if_neg h2]
        by_cases h3 : c < 0x20
        · rw [if_pos h3] at h; simp at h
        rw [if_neg h3] at h
        rw [if_neg h3]
        exact hstep _ h
      | inStringEsc =>
        simp only [scanString] at h ⊢
        by_cases h1 : c = 0x62 ∨ c = 0x66 ∨ c = 0x6E ∨ c = 0x72 ∨ c = 0x74 ∨ c = 0x5C
            ∨ c = 0x2F ∨ c = 0x22
        · rw [if_pos h1] at h
          rw [if_pos h1]; exact hstep _ h
        rw [if_neg h1] at h
        rw [if_neg h1]
        by_cases h2 : c = 0x75
        · rw [if_pos h2] at h
          rw [if_pos h2]; exact hstep _ h
        rw [if_neg h2] at h
        simp at h
      | inStringEscU =>
        simp only [scanString] at h ⊢
        by_cases h1 : isHex c = true
        · rw [if_pos h1] at h
          rw [if_pos h1]; exact hstep _ h
        · rw [if_neg h1] at h; simp at h
      | inStringEscU1 =>
        simp only [scanString] at h ⊢
        by_cases h1 : isHex c = true
        · rw [if_pos h1] at h
          rw [if_pos h1]; exact hstep _ h
        · rw [if_neg h1] at h; simp at h
      | inStringEscU12 =>
        simp only [scanString] at h ⊢
        by_cases h1 : isHex c = true
        · rw [if_pos h1] at h
          rw [if_pos h1]; exact hstep _ h
        · rw [if_neg h1] at h; simp at h
      | inStringEscU123 =>
        simp only [scanString] at h ⊢
        by_cases h1 : isHex c = true
        · rw [if_pos h1] at h
          rw [if_pos h1]; exact hstep _ h
        · rw [if_neg h1] at h; simp at h

theorem readString_take (inp s rest : Bytes) (j : Nat) (h : readString inp = some (s, rest)) :
    readString (inp.take j)
      = if j + rest.length < inp.length then none
        else some (s, rest.take (j - (inp.length - rest.length))) := by
  unfold readString at h ⊢
  cases hs : scanString .inString inp with
  | none => rw [hs] at h; simp at h
  | some p =>
    obtain ⟨raw, rest1⟩ := p
    rw [hs] at h
    simp only at h
    cases hu : unquoteBytes raw with
    | none => rw [hu] at h; simp at h
    | some t =>
      rw [hu] at h
      simp only [Option.some.injEq, Prod.mk.injEq] at h
      obtain ⟨h1, h2⟩ := h
      subst h1 h2
      rw [scanString_take inp _ raw rest1 j hs]
      by_cases hj : j + rest1.length < inp.length
      · rw [if_pos hj, if_pos hj]
      · rw [if_neg hj, if_neg hj]
        simp only [hu]

theorem scanNumber_nil (st : NumState) : scanNumber st [] = none ∨ scanNumber st [] = some [] := by
  cases st <;> simp [scanNumber]

theorem scanNumber_take : ∀ (inp : Bytes) (st : NumState) (rest : Bytes) (j : Nat),
    scanNumber st inp = some rest → NumTake inp rest j (scanNumber st (inp.take j)) := by
  intro inp
  induction inp with
  | nil =>
    intro st rest j h
    have hr : rest = [] := by
      rcases scanNumber_nil st with h0 | h0
      · rw [h0] at h; cases h
      · rw [h0] at h; injection h with h; exact h.symm
    subst hr
    right; right
    refine ⟨by simp, ?_⟩
    simpa using h
  | cons c t ih =>
    intro st rest j h
    have hlen := scanNumber_length (c :: t) st rest h
    simp only [List.length_cons] at hlen
    cases j with
    | zero =>
      rw [List.take_zero]
      rcases scanNumber_nil st with h0 | h0
      · left; exact h0
      · by_cases hl : rest.length < (c :: t).length
        · right; left; exact ⟨by omega, h0⟩
        · right; right
          refine ⟨by omega, ?_⟩
          rw [h0]; simp
    | succ j =>
      rw [List.take_succ_cons]
      have hrec : ∀ st', scanNumber st' t = some rest →
          NumTake (c :: t) rest (j + 1) (scanNumber st' (t.take j)) := by
        intro st' h'
        have hl := scanNumber_length t st' rest h'
        rcases ih st' rest j h' with h0 | ⟨h1, h2⟩ | ⟨h1, h2⟩
        · left; exact h0
        · right; left
          exact ⟨by simp only [List.length_cons]; omega, h2⟩
        · right; right
          refine ⟨by simp only [List.length_cons]; omega, ?_⟩
          rw [h2]
          congr 2
          simp only [List.length_cons]
          omega
      have hend : some (c :: t) = some rest →
          NumTake (c :: t) rest (j + 1) (some (c :: t.take j)) := by
        intro e
        simp only [Option.some.injEq] at e
        subst e
        right; right
        refine ⟨by omega, ?_⟩
        simp
      cases st with
      | neg =>
        simp only [scanNumber] at h ⊢
        by_cases h1 : c = 0x30
        · rw [if_pos h1] at h
          rw [if_pos h1]; exact hrec _ h
        rw [if_neg h1] at h
        rw [if_neg h1]
        by_cases h2 : 0x31 ≤ c ∧ c ≤ 0x39
        · rw [if_pos h2] at h
          rw [if_pos h2]; exact hrec _ h
        · rw [if_neg h2] at h; simp at h
      | zero =>
        simp only [scanNumber] at h ⊢
        by_cases h1 : c = 0x2E
        · rw [if_pos h1] at h
          rw [if_pos h1]; exact hrec _ h
        rw [if_neg h1] at h
        rw [if_neg h1]
        by_cases h2 : c = 0x65 ∨ c = 0x45
        · rw [if_pos h2] at h
          rw [if_pos h2]; exact hrec _ h
        · rw [if_neg h2] at h
          rw [if_neg h2]; exact hend h
      | one =>
        simp only [scanNumber] at h ⊢
        by_cases h0 : isDigit c = true
        · rw [if_pos h0] at h
          rw [if_pos h0]; exact hrec _ h
        rw [if_neg h0] at h
        rw [if_neg h0]
        by_cases h1 : c = 0x2E
        · rw [if_pos h1] at h
          rw [if_pos h1]; exact hrec _ h
        rw [if_neg h1] at h
        rw [if_neg h1]
        by_cases h2 : c = 0x65 ∨ c = 0x45
        · rw [if_pos h2] at h
          rw [if_pos h2]; exact hrec _ h
        · rw [if_neg h2] at h
          rw [if_neg h2]; exact hend h
      | dot =>
        simp only [scanNumber] at h ⊢
        by_cases h0 : isDigit c = true
        · rw [if_pos h0] at h
          rw [if_pos h0]; exact hrec _ h
        · rw [if_neg h0] at h; simp at h
      | dot0 =>
        simp only [scanNumber] at h ⊢
        by_cases h0 : isDigit c = true
        · rw [if_pos h0] at h
          rw [if_pos h0]; exact hrec _ h
        rw [if_neg h0] at h
        rw [if_neg h0]
        by_cases h2 : c = 0x65 ∨ c = 0x45
        · rw [if_pos h2] at h
          rw [if_pos h2]; exact hrec _ h
        · rw [if_neg h2] at h
          rw [if_neg h2]; exact hend h
      | e =>
        simp only [scanNumber] at h ⊢
        by_cases h1 : c = 0x2B ∨ c = 0x2D
        · rw [if_pos h1] at h
          rw [if_pos h1]; exact hrec _ h
        rw [if_neg h1] at h
        rw [if_neg h1]
        by_cases h0 : isDigit c = true
        · rw [if_pos h0] at h
          rw [if_pos h0]; exact hrec _ h
        · rw [if_neg h0] at h; simp at h
      | eSign =>
        simp only [scanNumber] at h ⊢
        by_cases h0 : isDigit c = true
        · rw [if_pos h0] at h
          rw [if_pos h0]; exact hrec _ h
        · rw [if_neg h0] at h; simp at h
      | e0 =>
        simp only [scanNumber] at h ⊢
        by_cases h0 : isDigit c = true
        · rw [if_pos h0] at h
          rw [if_pos h0]; exact hrec _ h
        · rw [if_neg h0] at h
          rw [if_neg h0]; exact hend h

theorem numTake_valTake (inp rest : Bytes) (j : Nat) (o : Option Bytes)
    (h : NumTake inp rest j o) :
    ValTake inp rest JVal.number j (o.map (fun r => (JVal.number, r))) := by
  rcases h with h | ⟨h1, h2⟩ | ⟨h1, h2⟩
  · left; rw [h]; rfl
  · right; left; exact ⟨h1, by rw [h2]; rfl⟩
  · right; right; exact ⟨h1, by rw [h2]; rfl⟩

theorem readScalar_take (c : Nat) (r : Bytes) (v : JVal) (rest : Bytes) (j : Nat)
    (h : readScalar c r = some (v, rest)) : ValTake r rest v j (readScalar c (r.take j)) := by
  unfold readScalar at h ⊢
  have hnum : ∀ st, (scanNumber st r).map (fun x => (JVal.number, x)) = some (v, rest) →
      ValTake r rest v j ((scanNumber st (r.take j)).map (fun x => (JVal.number, x))) := by
    intro st ho
    cases hn : scanNumber st r with
    | none => rw [hn] at ho; simp at ho
    | some r1 =>
      rw [hn] at ho
      simp only [Option.map_some', Option.some.injEq, Prod.mk.injEq] at ho
      obtain ⟨hv, hr⟩ := ho
      subst hv hr
      exact numTake_valTake r r1 j _ (scanNumber_take r st r1 j hn)
  by_cases h1 : c = 0x22
  · rw [if_pos h1] at h
    rw [if_pos h1]
    cases hr : readString r with
    | none => rw [hr] at h; simp at h
    | some p =>
      obtain ⟨s, r1⟩ := p
      rw [hr] at h
      simp only [Option.map_some', Option.some.injEq, Prod.mk.injEq] at h
      obtain ⟨hv, hr'⟩ := h
      subst hv hr'
      rw [readString_take r s r1 j hr]
      by_cases hj : j + r1.length < r.length
      · left; rw [if_pos hj]; rfl
      · right; right
        rw [if_neg hj]
        exact ⟨by omega, rfl⟩
  rw [if_neg h1] at h
  rw [if_neg h1]
  by_cases h2 : c = 0x2D
  · rw [if_pos h2] at h
    rw [if_pos h2]; exact hnum _ h
  rw [if_neg h2] at h
  rw [if_neg h2]
  by_cases h3 : c = 0x30
  · rw [if_pos h3] at h
    rw [if_pos h3]; exact hnum _ h
  rw [if_neg h3] at h
  rw [if_neg h3]
  by_cases h4 : 0x31 ≤ c ∧ c ≤ 0x39
  · rw [if_pos h4] at h
    rw [if_pos h4]; exact hnum _ h
  rw [if_neg h4] at h
  rw [if_neg h4]
  by_cases h5 : c = 0x74
  · rw [if_pos h5] at h
    rw [if_pos h5]
    split at h
    · simp only [Option.some.injEq, Prod.mk.injEq] at h
      obtain ⟨hv, hr'⟩ := h
      subst hv hr'
      rcases j with _ | _ | _ | j
      · left; rfl
      · left; rfl
      · left; rfl
      · right; right
        refine ⟨by simp only [List.length_cons]; omega, ?_⟩
        simp
        omega
    · simp at h
  rw [if_neg h5] at h
  rw [if_neg h5]
  by_cases h6 : c = 0x66
  · rw [if_pos h6] at h
    rw [if_pos h6]
    split at h
    · simp only [Option.some.injEq, Prod.mk.injEq] at h
      obtain ⟨hv, hr'⟩ := h
      subst hv hr'
      rcases j with _ | _ | _ | _ | j
      · left; rfl
      · left; rfl
      · left; rfl
      · left; rfl
      · right; right
        refine ⟨by simp only [List.length_cons]; omega, ?_⟩
        simp
        omega
    · simp at h
  rw [if_neg h6] at h
  rw [if_neg h6]
  by_cases h7 : c = 0x6E
  · rw [if_pos h7] at h
    rw [if_pos h7]
    split at h
    · simp only [Option.some.injEq, Prod.mk.injEq] at h
      obtain ⟨hv, hr'⟩ := h
      subst hv hr'
      rcases j with _ | _ | _ | j
      · left; rfl
      · left; rfl
      · left; rfl
      · right; right
        refine ⟨by simp only [List.length_cons]; omega, ?_⟩
        simp
        omega
    · simp at h
  rw [if_neg h7] at h
  simp at h

theorem skipSpace_nil : skipSpace [] = [] := rfl

theorem parseStep_take_value (k : Nat → Mode → Bytes → Option (JVal × Bytes))
    (hk : TakeOK k) (hb : Bounded k) (d : Nat) (inp : Bytes) (v : JVal) (rest : Bytes)
    (h : parseStep k d .value inp = some (v, rest)) (j F' : Nat) :
    ModeTake .value inp rest v j (parse (F' + 1) d .value (inp.take j)) := by
  unfold parseStep at h
  simp only at h
  cases hs : skipSpace inp with
  | nil => rw [hs] at h; simp at h
  | cons c r =>
    have hl := skipSpace_length inp
    rw [hs] at h hl
    simp only [List.length_cons] at hl
    simp only at h
    rcases skipSpace_take_cons inp c r hs j with ⟨_, he⟩ | ⟨j2, hj, he⟩
    · left
      rw [parse]
      simp only [parseStep, he]
    by_cases h1 : c = 0x7B
    · rw [if_pos h1] at h
      by_cases hd : maxNestingDepth < d + 1
      · rw [if_pos hd] at h; simp at h
      rw [if_neg hd] at h
      cases hs1 : skipSpace r with
      | nil => rw [hs1] at h; simp at h
      | cons c1 r1 =>
        have hl1 := skipSpace_length r
        rw [hs1] at h hl1
        simp only [List.length_cons] at hl1
        simp only at h
        rcases skipSpace_take_cons r c1 r1 hs1 j2 with ⟨_, he1⟩ | ⟨j3, hj3, he1⟩
        · left
          rw [parse]
          simp only [parseStep, ↓reduceIte, Nat.reduceEqDiff, he, h1, hd, he1]
        by_cases h2 : c1 = 0x7D
        · rw [if_pos h2] at h
          simp only [Option.some.injEq, Prod.mk.injEq] at h
          obtain ⟨hv, hr⟩ := h
          subst hv hr
          right; right
          refine ⟨by omega, ?_⟩
          rw [parse]
          simp only [parseStep, ↓reduceIte, Nat.reduceEqDiff, he, h1, hd, he1, h2]
          congr 3
          omega
        · rw [if_neg h2] at h
          have hb1 := (hb _ _ _ _ _ h).1
          simp only [List.length_cons] at hb1
          have hval : parse (F' + 1) d .value (inp.take j)
              = parse F' (d + 1) (.members []) ((c1 :: r1).take (j3 + 1)) := by
            rw [parse, List.take_succ_cons]
            simp only [parseStep, ↓reduceIte, Nat.reduceEqDiff, he, h1, hd, he1, h2]
          rw [hval]
          rcases hk _ _ _ _ _ h (j3 + 1) F' with h0 | ⟨hm, _, _⟩ | ⟨h3, h4⟩
          · left; exact h0
          · cases hm
          · right; right
            simp only [List.length_cons] at h3 h4
            refine ⟨by omega, ?_⟩
            rw [h4]
            congr 3
            omega
    rw [if_neg h1] at h
    by_cases h3 : c = 0x5B
    · rw [if_pos h3] at h
      by_cases hd : maxNestingDepth < d + 1
      · rw [if_pos hd] at h; simp at h
      rw [if_neg hd] at h
      cases hs1 : skipSpace r with
      | nil => rw [hs1] at h; simp at h
      | cons c1 r1 =>
        have hl1 := skipSpace_length r
        rw [hs1] at h hl1
        simp only [List.length_cons] at hl1
        simp only at h
        rcases skipSpace_take_cons r c1 r1 hs1 j2 with ⟨_, he1⟩ | ⟨j3, hj3, he1⟩
        · left
          rw [parse]
          simp only [parseStep, ↓reduceIte, Nat.reduceEqDiff, he, h1, h3, hd, he1]
        by_cases h2 : c1 = 0x5D
        · rw [if_pos h2] at h
          simp only [Option.some.injEq, Prod.mk.injEq] at h
          obtain ⟨hv, hr⟩ := h
          subst hv hr
          right; right
          refine ⟨by omega, ?_⟩
          rw [parse]
          simp only [parseStep, ↓reduceIte, Nat.reduceEqDiff, he, h1, h3, hd, he1, h2]
          congr 3
          omega
        · rw [if_neg h2] at h
          have hb1 := (hb _ _ _ _ _ h).1
          simp only [List.length_cons] at hb1
          have hval : parse (F' + 1) d .value (inp.take j)
              = parse F' (d + 1) (.elements []) ((c1 :: r1).take (j3 + 1)) := by
            rw [parse, List.take_succ_cons]
            simp only [parseStep, ↓reduceIte, Nat.reduceEqDiff, he, h1, h3, hd, he1, h2]
          rw [hval]
          rcases hk _ _ _ _ _ h (j3 + 1) F' with h0 | ⟨hm, _, _⟩ | ⟨h4, h5⟩
          · left; exact h0
          · cases hm
          · right; right
            simp only [List.length_cons] at h4 h5
            refine ⟨by omega, ?_⟩
            rw [h5]
            congr 3
            omega
    rw [if_neg h3] at h
    have hsl := readScalar_length c r v rest h
    have hval : parse (F' + 1) d .value (inp.take j) = readScalar c (r.take j2) := by
      rw [parse]
      simp only [parseStep, he, h1, h3, if_false]
    rw [hval]
    rcases readScalar_take c r v rest j2 h with h0 | ⟨h4, h5⟩ | ⟨h4, h5⟩
    · left; exact h0
    · right; left; exact ⟨rfl, by omega, h5⟩
    · right; right
      refine ⟨by omega, ?_⟩
      rw [h5]
      congr 3
      omega

theorem parseStep_take_members (k : Nat → Mode → Bytes → Option (JVal × Bytes))
    (hk : TakeOK k) (hb : Bounded k) (d : Nat) (acc : List (Bytes × JVal)) (inp : Bytes)
    (v : JVal) (rest : Bytes)
    (h : parseStep k d (.members acc) inp = some (v, rest)) (j F' : Nat) :
    ModeTake (.members acc) inp rest v j (parse (F' + 1) d (.members acc) (inp.take j)) := by
  unfold parseStep at h
  simp only at h
  cases hs : skipSpace inp with
  | nil => rw [hs] at h; simp at h
  | cons c r =>
    have hl := skipSpace_length inp
    rw [hs] at h hl
    simp only [List.length_cons] at hl
    simp only at h
    rcases skipSpace_take_cons inp c r hs j with ⟨_, he⟩ | ⟨j2, hj, he⟩
    · left
      rw [parse]
      simp only [parseStep, he]
    by_cases h1 : c = 0x22
    swap
    · rw [if_neg h1] at h; simp at h
    rw [if_pos h1] at h
    cases hr : readString r with
    | none => rw [hr] at h; simp at h
    | some p =>
      obtain ⟨key, r1⟩ := p
      rw [hr] at h
      simp only at h
      have hlr := readString_length r key r1 hr
      have her := readString_take r key r1 j2 hr
      by_cases hj2 : j2 + r1.length < r.length
      · left
        rw [if_pos hj2] at her
        rw [parse]
        simp only [parseStep, ↓reduceIte, Nat.reduceEqDiff, he, h1, her]
      rw [if_neg hj2] at her
      cases hs2 : skipSpace r1 with
      | nil => rw [hs2] at h; simp at h
      | cons c2 r2 =>
        have hl2 := skipSpace_length r1
        rw [hs2] at h hl2
        simp only [List.length_cons] at hl2
        simp only at h
        rcases skipSpace_take_cons r1 c2 r2 hs2 (j2 - (r.length - r1.length))
          with ⟨_, he2⟩ | ⟨j4, hj4, he2⟩
        · left
          rw [parse]
          simp only [parseStep, ↓reduceIte, Nat.reduceEqDiff, he, h1, her, he2]
        by_cases h2 : c2 = 0x3A
        swap
        · rw [if_neg h2] at h; simp at h
        rw [if_pos h2] at h
        cases hv : k d .value r2 with
        | none => rw [hv] at h; simp at h
        | some q =>
          obtain ⟨v1, r3⟩ := q
          rw [hv] at h
          simp only at h
          have hbv := (hb _ _ _ _ _ hv).1
          rcases hk _ _ _ _ _ hv j4 F' with hv0 | ⟨_, _, hv0⟩ | ⟨hv3, hv4⟩
          · left
            rw [parse]
            simp only [parseStep, ↓reduceIte, Nat.reduceEqDiff, he, h1, her, he2, h2, hv0]
          · left
            rw [parse]
            simp only [parseStep, ↓reduceIte, Nat.reduceEqDiff, he, h1, her, he2, h2, hv0,
              skipSpace_nil]
          cases hs4 : skipSpace r3 with
          | nil => rw [hs4] at h; simp at h
          | cons c4 r4 =>
            have hl4 := skipSpace_length r3
            rw [hs4] at h hl4
            simp only [List.length_cons] at hl4
            simp only at h
            rcases skipSpace_take_cons r3 c4 r4 hs4 (j4 - (r2.length - r3.length))
              with ⟨_, he4⟩ | ⟨j6, hj6, he4⟩
            · left
              rw [parse]
              simp only [parseStep, ↓reduceIte, Nat.reduceEqDiff, he, h1, her, he2, h2, hv4,
                he4]
            by_cases h4 : c4 = 0x2C
            · rw [if_pos h4] at h
              have hbm := (hb _ _ _ _ _ h).1
              have hval : parse (F' + 1) d (.members acc) (inp.take j)
                  = parse F' d (.members (acc ++ [(key, v1)])) (r4.take j6) := by
                rw [parse]
                simp only [parseStep, ↓reduceIte, Nat.reduceEqDiff, he, h1, her, he2, h2, hv4,
                  he4, h4]
              rw [hval]
              rcases hk _ _ _ _ _ h j6 F' with h0 | ⟨hm, _, _⟩ | ⟨h5, h6⟩
              · left; exact h0
              · cases hm
              · right; right
                refine ⟨by omega, ?_⟩
                rw [h6]
                congr 3
                omega
            rw [if_neg h4] at h
            by_cases h5 : c4 = 0x7D
            · rw [if_pos h5] at h
              simp only [Option.some.injEq, Prod.mk.injEq] at h
              obtain ⟨hv', hr'⟩ := h
              subst hv' hr'
              right; right
              refine ⟨by omega, ?_⟩
              rw [parse]
              simp only [parseStep, ↓reduceIte, Nat.reduceEqDiff, he, h1, her, he2, h2, hv4,
                he4, h4, h5]
              congr 3
              omega
            · rw [if_neg h5] at h; simp at h

theorem parseStep_take_elements (k : Nat → Mode → Bytes → Option (JVal × Bytes))
    (hk : TakeOK k) (hb : Bounded k) (d : Nat) (acc : List JVal) (inp : Bytes)
    (v : JVal) (rest : Bytes)
    (h : parseStep k d (.elements acc) inp = some (v, rest)) (j F' : Nat) :
    ModeTake (.elements acc) inp rest v j (parse (F' + 1) d (.elements acc) (inp.take j)) := by
  unfold parseStep at h
  simp only at h
  cases hv : k d .value inp with
  | none => rw [hv] at h; simp at h
  | some q =>
    obtain ⟨v1, r⟩ := q
    rw [hv] at h
    simp only at h
    have hbv := (hb _ _ _ _ _ hv).1
    rcases hk _ _ _ _ _ hv j F' with hv0 | ⟨_, _, hv0⟩ | ⟨hv3, hv4⟩
    · left
      rw [parse]
      simp only [parseStep, hv0]
    · left
      rw [parse]
      simp only [parseStep, hv0, skipSpace_nil]
    cases hs : skipSpace r with
    | nil => rw [hs] at h; simp at h
    | cons c r1 =>
      have hl := skipSpace_length r
      rw [hs] at h hl
      simp only [List.length_cons] at hl
      simp only at h
      rcases skipSpace_take_cons r c r1 hs (j - (inp.length - r.length))
        with ⟨_, he⟩ | ⟨j3, hj3, he⟩
      · left
        rw [parse]
        simp only [parseStep, hv4, he]
      by_cases h1 : c = 0x2C
      · rw [if_pos h1] at h
        have hbm := (hb _ _ _ _ _ h).1
        have hval : parse (F' + 1) d (.elements acc) (inp.take j)
            = parse F' d (.elements (acc ++ [v1])) (r1.take j3) := by
          rw [parse]
          simp only [parseStep, ↓reduceIte, Nat.reduceEqDiff, hv4, he, h1]
        rw [hval]
        rcases hk _ _ _ _ _ h j3 F' with h0 | ⟨hm, _, _⟩ | ⟨h5, h6⟩
        · left; exact h0
        · cases hm
        · right; right
          refine ⟨by omega, ?_⟩
          rw [h6]
          congr 3
          omega
      rw [if_neg h1] at h
      by_cases h2 : c = 0x5D
      · rw [if_pos h2] at h
        simp only [Option.some.injEq, Prod.mk.injEq] at h
        obtain ⟨hv', hr'⟩ := h
        subst hv' hr'
        right; right
        refine ⟨by omega, ?_⟩
        rw [parse]
        simp only [parseStep, ↓reduceIte, Nat.reduceEqDiff, hv4, he, h1, h2]
        congr 3
        omega
      · rw [if_neg h2] at h; simp at h

theorem parse_takeOK (n : Nat) : TakeOK (parse n) := by
  induction n with
  | zero => intro d mode inp v rest h; simp [parse] at h
  | succ n ih =>
    intro d mode inp v rest h j F
    rw [parse] at h
    cases F with
    | zero => left; rfl
    | succ F' =>
      cases mode with
      | value => exact parseStep_take_value (parse n) ih (parse_bounded n) d inp v rest h j F'
      | members acc =>
        exact parseStep_take_members (parse n) ih (parse_bounded n) d acc inp v rest h j F'
      | elements acc =>
        exact parseStep_take_elements (parse n) ih (parse_bounded n) d acc inp v rest h j F'

/-- A source cut inside its first JSON value is not decoded: whatever value
the whole source starts with, the decoder rejects every truncation that ends
before the end of that value. -/
theorem decoderDecode_truncated (full : Bytes) (v : JVal) (rest : Bytes) (j : Nat)
    (data : GoMap) (hp : parseValue full = some (v, rest))
    (hj : j + rest.length < full.length) :
    ∃ err, decoderDecode (full.take j) data = .error err := by
  unfold decoderDecode parseValue
  rcases parse_takeOK _ 0 .value full v rest hp j ((full.take j).length + 1)
    with h0 | ⟨_, _, h0⟩ | ⟨h1, _⟩
  · rw [h0]; exact ⟨_, rfl⟩
  · rw [h0]; exact ⟨_, rfl⟩
  · omega

/-! ### Sources the decoder rejects -/

theorem parse_elements_array (n : Nat) : ∀ (d : Nat) (acc : List JVal) (inp : Bytes)
    (v : JVal) (rest : Bytes), parse n d (.elements acc) inp = some (v, rest) →
    ∃ xs, v = JVal.array xs := by
  induction n with
  | zero => intro d acc inp v rest h; simp [parse] at h
  | succ n ih =>
    intro d acc inp v rest h
    rw [parse] at h
    unfold parseStep at h
    simp only at h
    cases hv : parse n d .value inp with
    | none => rw [hv] at h; simp at h
    | some q =>
      obtain ⟨v1, r⟩ := q
      rw [hv] at h
      simp only at h
      cases hs : skipSpace r with
      | nil => rw [hs] at h; simp at h
      | cons c r1 =>
        rw [hs] at h
        simp only at h
        by_cases h1 : c = 0x2C
        · rw [if_pos h1] at h
          exact ih _ _ _ _ _ h
        rw [if_neg h1] at h
        by_cases h2 : c = 0x5D
        · rw [if_pos h2] at h
          simp only [Option.some.injEq, Prod.mk.injEq] at h
          exact ⟨_, h.1.symm⟩
        · rw [if_neg h2] at h; simp at h

theorem decodeMap_other (v : JVal) (data : GoMap) (h1 : ∀ ms, v ≠ JVal.object ms)
    (h2 : v ≠ JVal.null) : decodeMap v data = .error .typeMismatch := by
  cases v with
  | object ms => exact absurd rfl (h1 ms)
  | null => exact absurd rfl h2
  | bool b => rfl
  | number => rfl
  | str s => rfl
  | array xs => rfl

theorem readScalar_kind (c : Nat) (r : Bytes) (v : JVal) (rest : Bytes)
    (h : readScalar c r = some (v, rest)) (hc : c ≠ 0x6E) :
    (∀ ms, v ≠ JVal.object ms) ∧ v ≠ JVal.null := by
  unfold readScalar at h
  have hnum : ∀ (o : Option Bytes), o.map (fun x => (JVal.number, x)) = some (v, rest) →
      (∀ ms, v ≠ JVal.object ms) ∧ v ≠ JVal.null := by
    intro o ho
    cases o with
    | none => simp at ho
    | some x =>
      simp only [Option.map_some', Option.some.injEq, Prod.mk.injEq] at ho
      rw [← ho.1]
      exact ⟨fun ms e => (by cases e), fun e => (by cases e)⟩
  by_cases h1 : c = 0x22
  · rw [if_pos h1] at h
    cases hr : readString r with
    | none => rw [hr] at h; simp at h
    | some p =>
      rw [hr] at h
      simp only [Option.map_some', Option.some.injEq, Prod.mk.injEq] at h
      rw [← h.1]
      exact ⟨fun ms e => (by cases e), fun e => (by cases e)⟩
  rw [if_neg h1] at h
  by_cases h2 : c = 0x2D
  · rw [if_pos h2] at h; exact hnum _ h
  rw [if_neg h2] at h
  by_cases h3 : c = 0x30
  · rw [if_pos h3] at h; exact hnum _ h
  rw [if_neg h3] at h
  by_cases h4 : 0x31 ≤ c ∧ c ≤ 0x39
  · rw [if_pos h4] at h; exact hnum _ h
  rw [if_neg h4] at h
  by_cases h5 : c = 0x74
  · rw [if_pos h5] at h
    split at h
    · simp only [Option.some.injEq, Prod.mk.injEq] at h
      rw [← h.1]
      exact ⟨fun ms e => (by cases e), fun e => (by cases e)⟩
    · simp at h
  rw [if_neg h5] at h
  by_cases h6 : c = 0x66
  · rw [if_pos h6] at h
    split at h
    · simp only [Option.some.injEq, Prod.mk.injEq] at h
      rw [← h.1]
      exact ⟨fun ms e => (by cases e), fun e => (by cases e)⟩
    · simp at h
  rw [if_neg h6] at h
  rw [if_neg hc] at h
  simp at h

/-- A source with no value at all, or whose first byte after white space opens
neither an object nor the literal `null`, is not decoded. -/
theorem decoderDecode_bad_start (src : Bytes) (data : GoMap)
    (hstart : skipSpace src = []
      ∨ ∃ c r, skipSpace src = c :: r ∧ c ≠ 0x7B ∧ c ≠ 0x6E) :
    ∃ err, decoderDecode src data = .error err := by
  unfold decoderDecode parseValue
  rw [parse]
  rcases hstart with hs | ⟨c, r, hs, h1, h2⟩
  · simp only [parseStep, hs]
    exact ⟨_, rfl⟩
  · simp only [parseStep, hs, h1, if_false]
    by_cases h3 : c = 0x5B
    · have hd : ¬ maxNestingDepth < 0 + 1 := by decide
      rw [if_pos h3, if_neg hd]
      cases hs1 : skipSpace r with
      | nil => exact ⟨_, rfl⟩
      | cons c1 r1 =>
        simp only
        by_cases h4 : c1 = 0x5D
        · rw [if_pos h4]; exact ⟨_, rfl⟩
        · rw [if_neg h4]
          cases hp : parse src.length (0 + 1) (.elements []) (c1 :: r1) with
          | none => exact ⟨_, rfl⟩
          | some q =>
            obtain ⟨v, rest⟩ := q
            obtain ⟨xs, hxs⟩ := parse_elements_array _ _ _ _ _ _ hp
            subst hxs
            exact ⟨_, rfl⟩
    · rw [if_neg h3]
      cases hp : readScalar c r with
      | none => exact ⟨_, rfl⟩
      | some q =>
        obtain ⟨v, rest⟩ := q
        obtain ⟨k1, k2⟩ := readScalar_kind c r v rest hp h2
        simp only
        rw [decodeMap_other v data k1 k2]
        exact ⟨_, rfl⟩

theorem foldl_decodeMapMember_err (ms : List (Bytes × JVal)) :
    ∀ (st : GoMap × Option JsonError) (e : JsonError), st.2 = some e →
      (ms.foldl decodeMapMember st).2 = some e := by
  induction ms with
  | nil => intro st e h; exact h
  | cons m rest ih =>
    intro st e h
    rw [List.foldl_cons]
    apply ih
    unfold decodeMapMember
    cases m.2 <;> simp [h, saveError]

theorem foldl_decodeMapMember_bad (ms : List (Bytes × JVal)) :
    ∀ (st : GoMap × Option JsonError), (∃ m ∈ ms, ¬ strOrNull m.2) →
      ∃ e, (ms.foldl decodeMapMember st).2 = some e := by
  induction ms with
  | nil => intro st h; obtain ⟨m, hm, _⟩ := h; cases hm
  | cons m rest ih =>
    intro st h
    rw [List.foldl_cons]
    by_cases hb : strOrNull m.2
    · obtain ⟨x, hx, hbad⟩ := h
      rcases List.mem_cons.mp hx with rfl | hx'
      · exact absurd hb hbad
      · exact ih _ ⟨x, hx', hbad⟩
    · have hsome : ∃ e, (decodeMapMember st m).2 = some e := by
        unfold decodeMapMember
        cases hv : m.2 with
        | str s => exact absurd (Or.inl ⟨s, hv⟩) hb
        | null => exact absurd (Or.inr hv) hb
        | bool b => cases st.2 <;> exact ⟨_, rfl⟩
        | number => cases st.2 <;> exact ⟨_, rfl⟩
        | array xs => cases st.2 <;> exact ⟨_, rfl⟩
        | object xs => cases st.2 <;> exact ⟨_, rfl⟩
      obtain ⟨e, he⟩ := hsome
      exact ⟨e, foldl_decodeMapMember_err rest _ e he⟩

/-- An object with a member that is neither a string nor `null` does not decode
into a `map[string]string`. -/
theorem decodeMap_bad_member (ms : List (Bytes × JVal)) (data : GoMap)
    (h : ∃ m ∈ ms, ¬ strOrNull m.2) : ∃ err, decodeMap (JVal.object ms) data = .error err := by
  obtain ⟨e, he⟩ := foldl_decodeMapMember_bad ms (data, none) h
  cases hf : ms.foldl decodeMapMember (data, none) with
  | mk m' e' =>
    rw [hf] at he
    simp only at he
    subst he
    refine ⟨e, ?_⟩
    simp only [decodeMap, hf]

/-- What the decoder accepts: the first value of the source is `null`, or an
object whose members are all strings or `null`. -/
theorem decoderDecode_ok (src : Bytes) (data : GoMap) (res : Option GoMap)
    (h : decoderDecode src data = .ok res) :
    ∃ v rest, parseValue src = some (v, rest)
      ∧ (v = JVal.null ∨ ∃ ms, v = JVal.object ms ∧ ∀ m ∈ ms, strOrNull m.2) := by
  unfold decoderDecode at h
  cases hp : parseValue src with
  | none => rw [hp] at h; cases h
  | some q =>
    obtain ⟨v, rest⟩ := q
    rw [hp] at h
    simp only at h
    refine ⟨v, rest, rfl, ?_⟩
    cases v with
    | null => exact Or.inl rfl
    | object ms =>
      right
      refine ⟨ms, rfl, ?_⟩
      by_contra hne
      push_neg at hne
      obtain ⟨err, herr⟩ := decodeMap_bad_member ms data hne
      rw [herr] at h
      cases h
    | bool b => cases h
    | number => cases h
    | str s => cases h
    | array xs => cases h

/-- Whenever the decoder fails on the source, `Restore` returns that error,
does not assign `f.data`, and every `Get` is what it was. -/
theorem rejects_of_error (f : FSM) (h : Heap) (src : Bytes) (hal : f.allocated h)
    (err : JsonError) (hdec : decoderDecode src ∅ = .error err) : Rejects f h src := by
  refine ⟨err, (Heap.make h).2, ?_, Get_make f h hal⟩
  simp only [FSM.Restore, make_cells_new, hdec]

/-- C8, amended: for every FSM whose map is nil or allocated and every source:
(1) when the decoder fails on the source, `Restore` returns that error, does
not assign `f.data`, and every `Get` returns what it returned before;
(2) when the first JSON value of the source decodes to a mapping `m`,
`Restore` returns `nil` and every `Get` afterwards is the lookup in `m`,
whatever bytes follow that value;
(3) a truncated source, one cut anywhere before the end of the first JSON value
of some source, is rejected with the map unchanged;
(4) a source with no value, or whose first byte after white space opens
neither an object nor `null`, is rejected with the map unchanged;
(5) a source whose first value is an object with a member that is neither a
string nor `null` is rejected with the map unchanged;
(6) `Restore` returns `nil` only when the source starts with a complete JSON
value that is `null` or an object whose members are all strings or `null`. -/
theorem C8_restore_atomic (f : FSM) (h : Heap) (src : Bytes) (hal : f.allocated h) :
    (∀ err, decoderDecode src ∅ = .error err →
        ∃ h1, f.Restore h src = (some err, f, h1) ∧ ∀ key, f.Get h1 key = f.Get h key)
      ∧ (∀ m, decoderDecode src ∅ = .ok (some m) →
        ∃ f1 h1, f.Restore h src = (none, f1, h1)
          ∧ ∀ key, f1.Get h1 key = match m.lookup key with
              | some val => (val, true)
              | none => ([], false))
      ∧ (∀ full v rest j, parseValue full = some (v, rest) → j + rest.length < full.length →
          src = full.take j → Rejects f h src)
      ∧ ((skipSpace src = [] ∨ ∃ c r, skipSpace src = c :: r ∧ c ≠ 0x7B ∧ c ≠ 0x6E) →
          Rejects f h src)
      ∧ (∀ ms rest, parseValue src = some (JVal.object ms, rest) →
          (∃ m ∈ ms, ¬ strOrNull m.2) → Rejects f h src)
      ∧ ((f.Restore h src).1 = none →
          ∃ v rest, parseValue src = some (v, rest)
            ∧ (v = JVal.null ∨ ∃ ms, v = JVal.object ms ∧ ∀ m ∈ ms, strOrNull m.2)) := by
  refine ⟨?_, ?_, ?_, ?_, ?_, ?_⟩
  · intro err hdec
    refine ⟨(Heap.make h).2, ?_, Get_make f h hal⟩
    simp only [FSM.Restore, make_cells_new, hdec]
  · intro m hdec
    refine ⟨{ data := some (Heap.make h).1 }, (Heap.make h).2.store (Heap.make h).1 m, ?_, ?_⟩
    · simp only [FSM.Restore, make_cells_new, hdec]
    · intro key
      exact Get_store_same _ _ _ _ rfl key
  · intro full v rest j hp hj hsrc
    obtain ⟨err, herr⟩ := decoderDecode_truncated full v rest j ∅ hp hj
    rw [hsrc]
    exact rejects_of_error f h _ hal err herr
  · intro hstart
    obtain ⟨err, herr⟩ := decoderDecode_bad_start src ∅ hstart
    exact rejects_of_error f h src hal err herr
  · intro ms rest hp hbad
    obtain ⟨err, herr⟩ := decodeMap_bad_member ms ∅ hbad
    refine rejects_of_error f h src hal err ?_
    simp only [decoderDecode, hp, herr]
  · intro hnil
    cases hdec : decoderDecode src ∅ with
    | error err =>
      simp only [FSM.Restore, make_cells_new, hdec] at hnil
      cases hnil
    | ok res => exact decoderDecode_ok src ∅ res hdec

theorem C8_restore_atomic_witness :
    Rejects (NewFSM Heap.empty).1 (NewFSM Heap.empty).2 (snapAB.take 8)
      ∧ Rejects (NewFSM Heap.empty).1 (NewFSM Heap.empty).2 srcArray
      ∧ Rejects (NewFSM Heap.empty).1 (NewFSM Heap.empty).2 srcNumberValue
      ∧ (∃ h1, (NewFSM Heap.empty).1.Restore (NewFSM Heap.empty).2 srcNoColon
            = (some JsonError.malformed, (NewFSM Heap.empty).1, h1)
          ∧ ∀ key, (NewFSM Heap.empty).1.Get h1 key
              = (NewFSM Heap.empty).1.Get (NewFSM Heap.empty).2 key)
      ∧ (∃ f1 h1, (NewFSM Heap.empty).1.Restore (NewFSM Heap.empty).2 snapAB = (none, f1, h1)
          ∧ ∀ key, f1.Get h1 key = match ((∅ : GoMap).insert [0x61] [0x62]).lookup key with
              | some val => (val, true)
              | none => ([], false)) :=
  ⟨(C8_restore_atomic (NewFSM Heap.empty).1 (NewFSM Heap.empty).2 (snapAB.take 8)
      (by intro a ha; cases ha; decide)).2.2.1 snapAB
      (JVal.object [([0x61], JVal.str [0x62])]) [0x0A] 8 rfl (by decide) rfl,
   (C8_restore_atomic (NewFSM Heap.empty).1 (NewFSM Heap.empty).2 srcArray
      (by intro a ha; cases ha; decide)).2.2.2.1
      (Or.inr ⟨0x5B, [0x22, 0x61, 0x22, 0x5D], rfl, by decide, by decide⟩),
   (C8_restore_atomic (NewFSM Heap.empty).1 (NewFSM Heap.empty).2 srcNumberValue
      (by intro a ha; cases ha; decide)).2.2.2.2.1 [([0x61], JVal.number)] [] rfl
      ⟨([0x61], JVal.number), List.mem_singleton_self _, fun hs => by
        rcases hs with ⟨s, hs⟩ | hs <;> cases hs⟩,
   (C8_restore_atomic (NewFSM Heap.empty).1 (NewFSM Heap.empty).2 srcNoColon
      (by intro a ha; cases ha; decide)).1 JsonError.malformed rfl,
   (C8_restore_atomic (NewFSM Heap.empty).1 (NewFSM Heap.empty).2 snapAB
      (by intro a ha; cases ha; decide)).2.1 ((∅ : GoMap).insert [0x61] [0x62]) rfl⟩

end RaftServer
